import Mathlib

/-!
# diffcover: coverage restricted to the lines changed by a patch

A shallow embedding of `cmd/diffcover/main.go` and the properties of its three functions
`parseCoverage`, `parseDiff` and `filterCoverage` and of the threshold check of `main`.

Conventions of the embedding.

* Go's `int` is the 64-bit two's-complement integer: values are `Int`s, every
  increment and sum of the source goes through `wrap64`, and `strconv.Atoi`
  saturates at `minInt` / `maxInt` the way the library does.
* A Go `for` loop whose number of iterations is not bounded by the size of a
  list carries a `fuel : Nat`; `none` means the loop has not finished within
  the fuel.
* A run-time panic of the source is an outcome of its own (`LineOutcome.indexPanic`,
  the result `none` of `parseCoverage`).
* Text is a sequence of Unicode characters (`String`, processed as
  `List Char`): the inputs are taken to be valid UTF-8.
* `parseCoverage` and `parseDiff` are the loops of the two functions over the lines that
  the `bufio.Scanner` delivers (`scanner.Text()` for each successful `scanner.Scan()`).
  `scanLines` is the scanner on the content of a file: it delivers the lines up to the first
  one of 65536 bytes or more, where it stops with `bufio.ErrTooLong`. `parseCoverageFile` and
  `parseDiffFile` are the two functions on the content of a file: the scanner, the loop, and
  the error that is returned with the result.
* A Go `map` is an association list with pairwise distinct keys; the order of
  the list is the order in which a `range` over the map visits the entries.
* A `float64` is an exact rational `m * 2^e` and every operation rounds to 53
  significant bits, ties to even.
-/

set_option autoImplicit false

namespace Diffcover

/-! ## Machine integers -/

/-- Largest value of Go's `int` (64-bit platform). -/
def maxInt : Int := 9223372036854775807

/-- Smallest value of Go's `int` (64-bit platform). -/
def minInt : Int := -9223372036854775808

/-- Two's-complement reduction of an integer to the range of `int`. -/
def wrap64 (z : Int) : Int :=
  (z + 9223372036854775808) % 18446744073709551616 - 9223372036854775808

/-- The values an `int` can hold. -/
def isInt64 (z : Int) : Prop := minInt ≤ z ∧ z ≤ maxInt

instance (z : Int) : Decidable (isInt64 z) := by unfold isInt64; infer_instance

/-! ## Strings -/

/-- Go `strings.HasPrefix(s, prefix)`: `len(s) >= len(prefix) && s[:len(prefix)] == prefix`. -/
def hasPrefix (s pre : List Char) : Bool :=
  decide (pre.length ≤ s.length) && decide (s.take pre.length = pre)

/-- Go `strings.HasSuffix(s, suffix)`:
`len(s) >= len(suffix) && s[len(s)-len(suffix):] == suffix`. -/
def hasSuffix (s suf : List Char) : Bool :=
  decide (suf.length ≤ s.length) && decide (s.drop (s.length - suf.length) = suf)

/-- Go `filepath.ToSlash(path)` for a platform whose path separator is `sep`:
the path itself when the separator is `/`, otherwise every separator replaced by `/`. -/
def toSlash (sep : Char) (path : List Char) : List Char :=
  if sep = '/' then path else path.map (fun c => if c = sep then '/' else c)

/-! ## Data model -/

/-- One line of a coverage profile (`type CoverBlock struct`). -/
structure CoverBlock where
  File : String
  StartLine : Int
  StartCol : Int
  EndLine : Int
  EndCol : Int
  NumStmt : Int
  Count : Int
  Raw : String
deriving DecidableEq, Repr

/-- The changed-line index `map[string]map[int]bool`: for each file path of the diff the
line numbers whose entry is `true`. -/
abbrev ChangedIndex := List (String × List Int)

/-- Map lookup `changed[file]` with the comma-ok result. -/
def lookupFile (file : String) : ChangedIndex → Option (List Int)
  | [] => none
  | (k, v) :: rest => if k = file then some v else lookupFile file rest

/-- The keys of the index, in enumeration order. -/
def indexKeys (changed : ChangedIndex) : List String := changed.map Prod.fst

/-! ## filterCoverage -/

/-- The loop `for line := ...; line <= endLine; line++ { if changedLines[line] { ...; break } }`
started at `line`: `some true` when a changed line is hit, `some false` when the loop runs
past `endLine`, `none` when `fuel` iterations do not finish it. The increment is the
machine increment. -/
def lineLoop : Nat → Int → Int → List Int → Option Bool
  | 0, _, _, _ => none
  | fuel + 1, line, endLine, changedLines =>
    if line ≤ endLine then
      if line ∈ changedLines then some true
      else lineLoop fuel (wrap64 (line + 1)) endLine changedLines
    else some false

/-- The line loop of a block against one changed-line set, with its
`filtered = append(filtered, b)` on a hit. -/
def scanBlock (fuel : Nat) (b : CoverBlock) (changedLines : List Int)
    (filtered : List CoverBlock) : Option (List CoverBlock) :=
  match lineLoop fuel b.StartLine b.EndLine changedLines with
  | none => none
  | some true => some (filtered ++ [b])
  | some false => some filtered

/-- The fallback loop `for diffFile, changedLines := range changed` of one block: every
entry whose path is a suffix of `base` gets its own line loop. -/
def fallbackLoop (fuel : Nat) (b : CoverBlock) (base : List Char) :
    ChangedIndex → List CoverBlock → Option (List CoverBlock)
  | [], filtered => some filtered
  | (diffFile, changedLines) :: rest, filtered =>
    if hasSuffix base diffFile.data then
      match scanBlock fuel b changedLines filtered with
      | none => none
      | some filtered1 => fallbackLoop fuel b base rest filtered1
    else fallbackLoop fuel b base rest filtered

/-- The body of `for _, b := range blocks`. -/
def filterBlock (sep : Char) (fuel : Nat) (changed : ChangedIndex) (b : CoverBlock)
    (filtered : List CoverBlock) : Option (List CoverBlock) :=
  match lookupFile b.File changed with
  | some changedLines => scanBlock fuel b changedLines filtered
  | none => fallbackLoop fuel b (toSlash sep b.File.data) changed filtered

/-- The loop `for _, b := range blocks` with the accumulator `filtered`. -/
def filterLoop (sep : Char) (fuel : Nat) (changed : ChangedIndex) :
    List CoverBlock → List CoverBlock → Option (List CoverBlock)
  | [], filtered => some filtered
  | b :: bs, filtered =>
    match filterBlock sep fuel changed b filtered with
    | none => none
    | some filtered1 => filterLoop sep fuel changed bs filtered1

/-- Go `filterCoverage(blocks, changed)`. `sep` is the path separator of the platform,
`fuel` bounds the iterations of each line loop. -/
def filterCoverage (sep : Char) (fuel : Nat) (blocks : List CoverBlock)
    (changed : ChangedIndex) : Option (List CoverBlock) :=
  filterLoop sep fuel changed blocks []

/-! ## strconv.Atoi -/

/-- An ASCII decimal digit (`'0' <= c && c <= '9'`). -/
def isDigit (c : Char) : Bool := decide (48 ≤ c.toNat) && decide (c.toNat ≤ 57)

/-- Value of an ASCII decimal digit (`c - '0'`). -/
def digitVal (c : Char) : Nat := c.toNat - 48

/-- Go `len(s)`: the number of bytes of the UTF-8 encoding. -/
def byteLen (s : List Char) : Nat := (s.map Char.utf8Size).sum

/-- The digit loop of the fast path of `strconv.Atoi`
(`ch -= '0'; if ch > 9 { syntax error }; n = n*10 + int(ch)`); `none` is the syntax error.
The fast path runs on fewer than 19 bytes, so `n` stays below `10^18` and does not overflow. -/
def atoiFastLoop : List Char → Int → Option Int
  | [], n => some n
  | c :: cs, n => if isDigit c then atoiFastLoop cs (n * 10 + (digitVal c : Int)) else none

/-- Outcome of `strconv.ParseUint(s, 10, 64)`. -/
inductive UintResult where
  | ok (n : Nat)
  | syntaxErr
  | rangeErr
deriving DecidableEq, Repr

/-- The digit loop of `strconv.ParseUint(s, 10, 64)`: a byte that is not a decimal digit is a
syntax error; `n >= cutoff` (with `cutoff = maxUint64/10 + 1`) or `n*10 + d > maxUint64` is a
range error, reported as soon as it is met. -/
def parseUintLoop : List Char → Nat → UintResult
  | [], n => UintResult.ok n
  | c :: cs, n =>
    if isDigit c then
      if 1844674407370955162 ≤ n then UintResult.rangeErr
      else if 18446744073709551615 < n * 10 + digitVal c then UintResult.rangeErr
      else parseUintLoop cs (n * 10 + digitVal c)
    else UintResult.syntaxErr

/-- Go `strconv.ParseUint(s, 10, 64)`; the empty string is a syntax error. -/
def parseUint (s : List Char) : UintResult :=
  if s = [] then UintResult.syntaxErr else parseUintLoop s 0

/-- The value returned by `strconv.ParseInt(s, 10, 0)`: `0` on a syntax error, the nearest
bound of `int` on a range error. -/
def parseInt (s : List Char) : Int :=
  match s with
  | [] => 0
  | c :: cs =>
    let neg : Bool := decide (c = '-')
    let body : List Char := if c = '+' ∨ c = '-' then cs else c :: cs
    match parseUint body with
    | UintResult.syntaxErr => 0
    | UintResult.rangeErr => if neg then minInt else maxInt
    | UintResult.ok un =>
      if neg = false ∧ 9223372036854775808 ≤ un then maxInt
      else if neg = true ∧ 9223372036854775808 < un then minInt
      else if neg then -(un : Int) else (un : Int)

/-- The value returned by `strconv.Atoi(s)` (the error is dropped by every caller):
the fast path for `0 < len(s) < 19`, `ParseInt(s, 10, 0)` otherwise. -/
def atoi (s : List Char) : Int :=
  if 0 < byteLen s ∧ byteLen s < 19 then
    match s with
    | [] => 0
    | c :: cs =>
      let body : List Char := if c = '-' ∨ c = '+' then cs else c :: cs
      if body = [] then 0
      else
        match atoiFastLoop body 0 with
        | none => 0
        | some n => if c = '-' then -n else n
  else parseInt s

/-! ## strings.Fields, strings.Split, strings.SplitN -/

/-- Go `unicode.IsSpace`: the code points with the Unicode White_Space property. -/
def isSpace (c : Char) : Bool :=
  let n := c.toNat
  decide ((9 ≤ n ∧ n ≤ 13) ∨ n = 32 ∨ n = 133 ∨ n = 160 ∨ n = 5760 ∨ (8192 ≤ n ∧ n ≤ 8202) ∨
    n = 8232 ∨ n = 8233 ∨ n = 8239 ∨ n = 8287 ∨ n = 12288)

/-- The scan of `strings.Fields`, with the field being read in `cur`. -/
def fieldsLoop : List Char → List Char → List (List Char)
  | cur, [] => if cur = [] then [] else [cur]
  | cur, c :: cs =>
    if isSpace c then
      if cur = [] then fieldsLoop [] cs else cur :: fieldsLoop [] cs
    else fieldsLoop (cur ++ [c]) cs

/-- Go `strings.Fields(s)`: the maximal runs of non-space characters. -/
def fields (s : List Char) : List (List Char) := fieldsLoop [] s

/-- Go `strings.Split(s, sep)` for a one-character separator: one piece more than there
are separators. -/
def splitOnChar (sep : Char) : List Char → List (List Char)
  | [] => [[]]
  | c :: cs =>
    if c = sep then [] :: splitOnChar sep cs
    else
      match splitOnChar sep cs with
      | [] => [[c]]
      | piece :: pieces => (c :: piece) :: pieces

/-- Go `strings.SplitN(s, sep, 2)` for a one-character separator: the text before and after
the first separator, or `s` alone when there is none. -/
def splitN2 (sep : Char) (s : List Char) : List (List Char) :=
  if sep ∈ s then [s.takeWhile (fun c => c ≠ sep), (s.dropWhile (fun c => c ≠ sep)).drop 1]
  else [s]

/-! ## parseCoverage -/

/-- Outcome of the loop body of `parseCoverage` on one line. -/
inductive LineOutcome where
  | skipped
  | block (b : CoverBlock)
  | indexPanic
deriving DecidableEq, Repr

/-- The loop body of `parseCoverage`. `indexPanic` is the run-time panic of `start[1]` or
`end[1]` when the slice has one element. -/
def coverageLine (line : String) : LineOutcome :=
  if hasPrefix line.data "mode:".data then LineOutcome.skipped
  else
    match fields line.data with
    | [loc, p1, p2] =>
      let numStmt := atoi p1
      let count := atoi p2
      match splitN2 ':' loc with
      | [file, pos] =>
        match splitOnChar ',' pos with
        | [r0, r1] =>
          let start := splitOnChar '.' r0
          let stop := splitOnChar '.' r1
          match start.get? 0, start.get? 1, stop.get? 0, stop.get? 1 with
          | some s0, some s1, some e0, some e1 =>
            LineOutcome.block
              { File := String.mk file
                StartLine := atoi s0
                StartCol := atoi s1
                EndLine := atoi e0
                EndCol := atoi e1
                NumStmt := numStmt
                Count := count
                Raw := line }
          | _, _, _, _ => LineOutcome.indexPanic
        | _ => LineOutcome.skipped
      | _ => LineOutcome.skipped
    | _ => LineOutcome.skipped

/-- The loop `for scanner.Scan()` of `parseCoverage` with the accumulator `blocks`;
`none` when a line panics. -/
def parseCoverageLoop : List String → List CoverBlock → Option (List CoverBlock)
  | [], blocks => some blocks
  | line :: rest, blocks =>
    match coverageLine line with
    | LineOutcome.skipped => parseCoverageLoop rest blocks
    | LineOutcome.block b => parseCoverageLoop rest (blocks ++ [b])
    | LineOutcome.indexPanic => none

/-- The loop of Go `parseCoverage` over the lines that the scanner delivers: the blocks, or
`none` when the run aborts with an index-out-of-range panic. -/
def parseCoverage (lines : List String) : Option (List CoverBlock) :=
  parseCoverageLoop lines []

/-! ## parseDiff -/

/-- Strip the literal `lit` from the front of `s` (a literal of a regular expression). -/
def expectLit (lit s : List Char) : Option (List Char) :=
  if hasPrefix s lit then some (s.drop lit.length) else none

/-- The pattern `\d+` followed by something that is not a digit: the maximal run of ASCII
digits at the front of `s`, which must not be empty, and the rest of `s`. -/
def digits1 (s : List Char) : Option (List Char × List Char) :=
  if s.takeWhile isDigit = [] then none
  else some (s.takeWhile isDigit, s.dropWhile isDigit)

/-- The optional group `(?:,\d+)?`: consumes `,` and a run of digits when they are there,
nothing otherwise. -/
def optCommaDigits (s : List Char) : List Char :=
  match s with
  | ',' :: r =>
    match digits1 r with
    | some (_, rest) => rest
    | none => s
  | _ => s

/-- A match of `@@ -\d+(?:,\d+)? \+(\d+)(?:,(\d+))? @@` that starts at the front of `s`:
the text of the first capture group. Every digit run and optional group of the pattern is
followed by a literal that is neither a digit nor a comma, so the match at a given start is
unique and taking the maximal runs finds it. -/
def hunkAt (s : List Char) : Option (List Char) :=
  match expectLit "@@ -".data s with
  | none => none
  | some s1 =>
    match digits1 s1 with
    | none => none
    | some (_, s2) =>
      match expectLit " +".data (optCommaDigits s2) with
      | none => none
      | some s3 =>
        match digits1 s3 with
        | none => none
        | some (newStart, s4) =>
          match expectLit " @@".data (optCommaDigits s4) with
          | none => none
          | some _ => some newStart

/-- The leftmost match of the unanchored `hunkRegex` in `line`
(`hunkRegex.FindStringSubmatch(line)`): the text of capture group 1, `none` when nothing
matches. -/
def hunkRegexMatch : List Char → Option (List Char)
  | [] => none
  | c :: cs =>
    match hunkAt (c :: cs) with
    | some g => some g
    | none => hunkRegexMatch cs

/-- The match of `^\+\+\+ b/(.+)` (`fileRegex.FindStringSubmatch(line)`): the text of capture
group 1, the longest non-empty run of characters other than a newline after `+++ b/`. -/
def fileRegexMatch (line : List Char) : Option (List Char) :=
  match expectLit "+++ b/".data line with
  | none => none
  | some rest =>
    if rest.takeWhile (fun c => c ≠ Char.ofNat 10) = [] then none
    else some (rest.takeWhile (fun c => c ≠ Char.ofNat 10))

/-- The statement `if _, ok := changed[currentFile]; !ok { changed[currentFile] = make(...) }`. -/
def ensureFile (file : String) (changed : ChangedIndex) : ChangedIndex :=
  match lookupFile file changed with
  | some _ => changed
  | none => changed ++ [(file, [])]

/-- The statement `changed[currentFile][newLineNum] = true`. The entry of `file` exists
whenever the statement runs (see `parseDiff_currentFile_present`). -/
def markLine (file : String) (n : Int) : ChangedIndex → ChangedIndex
  | [] => []
  | (k, v) :: rest =>
    if k = file then (k, if n ∈ v then v else v ++ [n]) :: rest
    else (k, v) :: markLine file n rest

/-- The variables of the scan loop of `parseDiff`. -/
structure DiffState where
  changed : ChangedIndex
  currentFile : String
  newLineNum : Int
deriving DecidableEq, Repr

/-- The state before the first line: empty map, `currentFile == ""`, `newLineNum == 0`. -/
def DiffState.init : DiffState := { changed := [], currentFile := "", newLineNum := 0 }

/-- The loop body of `parseDiff` on one line. -/
def diffStep (st : DiffState) (line : String) : DiffState :=
  match fileRegexMatch line.data with
  | some path =>
    { st with currentFile := String.mk path, changed := ensureFile (String.mk path) st.changed }
  | none =>
    match hunkRegexMatch line.data with
    | some newStart => { st with newLineNum := atoi newStart }
    | none =>
      if hasPrefix line.data "+".data ∧ ¬ hasPrefix line.data "+++".data then
        { st with
          changed := if st.currentFile ≠ "" then markLine st.currentFile st.newLineNum st.changed
                     else st.changed
          newLineNum := wrap64 (st.newLineNum + 1) }
      else if hasPrefix line.data "-".data ∧ ¬ hasPrefix line.data "---".data then st
      else if ¬ hasPrefix line.data "@@".data then
        { st with newLineNum := wrap64 (st.newLineNum + 1) }
      else st

/-- The state of `parseDiff` after the given lines. -/
def diffRun (st : DiffState) (lines : List String) : DiffState := lines.foldl diffStep st

/-- The loop of Go `parseDiff` over the lines that the scanner delivers: the map `changed`
when the loop ends. -/
def parseDiff (lines : List String) : ChangedIndex := (diffRun DiffState.init lines).changed

/-! ## main: aggregation -/

/-- The loop `for _, b := range filtered { totalStmts += b.NumStmt; if b.Count > 0 { coveredStmts
+= b.NumStmt } }` with the two accumulators; the result is `(totalStmts, coveredStmts)`. -/
def sumLoop : List CoverBlock → Int → Int → Int × Int
  | [], total, covered => (total, covered)
  | b :: bs, total, covered =>
    sumLoop bs (wrap64 (total + b.NumStmt))
      (if 0 < b.Count then wrap64 (covered + b.NumStmt) else covered)

/-- The value of `totalStmts` after the aggregation loop. -/
def totalStmts (filtered : List CoverBlock) : Int := (sumLoop filtered 0 0).1

/-- The value of `coveredStmts` after the aggregation loop. -/
def coveredStmts (filtered : List CoverBlock) : Int := (sumLoop filtered 0 0).2

/-! ## main: the float64 percentage and the threshold check

A finite `float64` is the number `m * 2^e`; an operation is the exact result rounded to 53
significant bits, ties to even (IEEE 754 binary64, the arithmetic of Go's `float64`).
The exponent is not bounded here: gradual underflow and overflow to infinity are left out,
which is exact for every value `main` computes, a quotient of two 64-bit integers
multiplied by 100. -/

/-- A finite `float64`: the number `m * 2 ^ e`. -/
structure Finite64 where
  m : Int
  e : Int
deriving DecidableEq, Repr

/-- Doubles `n` (decrementing the exponent) until `n / d` has at least 53 bits. -/
def scaleUp : Nat → Nat → Nat → Int → Nat × Int
  | 0, n, _, e => (n, e)
  | fuel + 1, n, d, e =>
    if n / d < 4503599627370496 then scaleUp fuel (2 * n) d (e - 1) else (n, e)

/-- Doubles `d` (incrementing the exponent) until `n / d` has at most 53 bits. -/
def scaleDown : Nat → Nat → Nat → Int → Nat × Int
  | 0, _, d, e => (d, e)
  | fuel + 1, n, d, e =>
    if 9007199254740992 ≤ n / d then scaleDown fuel n (2 * d) (e + 1) else (d, e)

/-- The integer nearest to `n / d`, ties to the even one. -/
def roundHalfEven (n d : Nat) : Nat :=
  if 2 * (n % d) < d then n / d
  else if d < 2 * (n % d) then n / d + 1
  else if (n / d) % 2 = 0 then n / d
  else n / d + 1

/-- The number `(n / d) * 2 ^ e` rounded to 53 significant bits, ties to even (`d > 0`). -/
def Finite64.round (n : Int) (d : Nat) (e : Int) : Finite64 :=
  if n = 0 then { m := 0, e := 0 }
  else
    let up := scaleUp 2200 n.natAbs d e
    let down := scaleDown 2200 up.1 d up.2
    { m := n.sign * (roundHalfEven up.1 down.1 : Int), e := down.2 }

/-- The conversion `float64(z)` of an `int`. -/
def Finite64.ofInt (z : Int) : Finite64 := Finite64.round z 1 0

/-- The quotient `x / y` of finite floats, `y` not zero. -/
def Finite64.div (x y : Finite64) : Finite64 :=
  Finite64.round (x.m * y.m.sign) y.m.natAbs (x.e - y.e)

/-- The product `x * y` of finite floats. -/
def Finite64.mul (x y : Finite64) : Finite64 := Finite64.round (x.m * y.m) 1 (x.e + y.e)

/-- The comparison `x < y` of finite floats. -/
def Finite64.lt (x y : Finite64) : Bool :=
  decide (x.m * 2 ^ (x.e - min x.e y.e).toNat < y.m * 2 ^ (y.e - min x.e y.e).toNat)

/-- The exact value of a finite float. -/
def Finite64.toRat (x : Finite64) : ℚ := (x.m : ℚ) * (2 : ℚ) ^ x.e

/-- A `float64` as `strconv.ParseFloat` can return it for the threshold argument: not a
number, an infinity, or a finite value. -/
inductive Float64 where
  | nan
  | inf (negative : Bool)
  | finite (x : Finite64)
deriving DecidableEq, Repr

/-- The comparison `x < t` of a finite float with any float: false against NaN. -/
def ltFloat (x : Finite64) : Float64 → Bool
  | Float64.nan => false
  | Float64.inf negative => !negative
  | Float64.finite y => x.lt y

/-- The value of `coveragePercent` in `main`: `0.0`, and
`(float64(coveredStmts) / float64(totalStmts)) * 100` when `totalStmts > 0`. -/
def coveragePercent (covered total : Int) : Finite64 :=
  if 0 < total then
    ((Finite64.ofInt covered).div (Finite64.ofInt total)).mul (Finite64.ofInt 100)
  else { m := 0, e := 0 }

/-- The exit code of `main` once both inputs are parsed and the output file is created:
`1` when `coveragePercent < threshold && totalStmts > 0`, `0` otherwise. -/
def exitCode (filtered : List CoverBlock) (threshold : Float64) : Nat :=
  if ltFloat (coveragePercent (coveredStmts filtered) (totalStmts filtered)) threshold = true
      ∧ 0 < totalStmts filtered then 1
  else 0

/-! ## bufio.Scanner, the parsers on the content of a file, and the report file -/

/-- Go `dropCR` of `bufio`: the data without one trailing carriage return. -/
def dropCR (data : List Char) : List Char :=
  if data.getLast? = some (Char.ofNat 13) then data.dropLast else data

/-- Go `bufio.MaxScanTokenSize`: the largest size of the buffer of the `bufio.Scanner` that
`bufio.NewScanner` makes. A line has to fit into the buffer together with the newline that
ends it. -/
def maxScanTokenSize : Nat := 65536

/-- What the loop `for scanner.Scan()` has seen when `Scan` returns false: the lines that
`scanner.Text()` delivered, and whether `scanner.Err()` is `bufio.ErrTooLong`. -/
structure Scanned where
  lines : List String
  tooLong : Bool
deriving DecidableEq, Repr

/-- A scan that delivers `line` and goes on as `s`. -/
def Scanned.cons (line : String) (s : Scanned) : Scanned :=
  { lines := line :: s.lines, tooLong := s.tooLong }

/-- A `bufio.Scanner` with `bufio.ScanLines` over the rest of the input, with the line being
read in `cur`: a line ends at a newline, a final line without newline is delivered when it is
not empty, and each line loses one trailing carriage return. A line of `maxScanTokenSize`
bytes or more (its carriage return counted) fills the buffer before its end is found:
`Scan` returns false there, with the error `bufio.ErrTooLong`, and nothing after it is
delivered. -/
def scanLinesLoop : List Char → List Char → Scanned
  | cur, [] =>
    if cur = [] then { lines := [], tooLong := false }
    else if maxScanTokenSize ≤ byteLen cur then { lines := [], tooLong := true }
    else { lines := [String.mk (dropCR cur)], tooLong := false }
  | cur, c :: cs =>
    if c = Char.ofNat 10 then
      if maxScanTokenSize ≤ byteLen cur then { lines := [], tooLong := true }
      else (scanLinesLoop [] cs).cons (String.mk (dropCR cur))
    else scanLinesLoop (cur ++ [c]) cs

/-- The scan of a file with the given content by `bufio.NewScanner(f)`. -/
def scanLines (content : List Char) : Scanned := scanLinesLoop [] content

/-- Go `parseCoverage` on a file with the given content (a file that opens): the pair
`blocks, scanner.Err()` that it returns, the error being `bufio.ErrTooLong` (`true`) or `nil`
(`false`); `none` when the loop body panics on a delivered line. -/
def parseCoverageFile (content : List Char) : Option (List CoverBlock × Bool) :=
  (parseCoverage (scanLines content).lines).map
    (fun blocks => (blocks, (scanLines content).tooLong))

/-- Go `parseDiff` on a file with the given content (a file that opens): the pair
`changed, scanner.Err()` that it returns, the error being `bufio.ErrTooLong` (`true`) or `nil`
(`false`). -/
def parseDiffFile (content : List Char) : ChangedIndex × Bool :=
  (parseDiff (scanLines content).lines, (scanLines content).tooLong)

/-- The content that `main` writes to the output file: `mode: set` and the `Raw` text of
each kept block, each followed by a newline. -/
def reportText (kept : List CoverBlock) : List Char :=
  "mode: set".data ++ (Char.ofNat 10 :: kept.flatMap (fun b => b.Raw.data ++ [Char.ofNat 10]))

/-! ## Reference notions: the lines of a file -/

/-- The lines of a text from the character after `cur` on, with the line being read in `cur`:
a line ends at a newline, the text after the last newline is a line when it is not empty, and
a line is taken without one trailing carriage return. -/
def textLinesLoop : List Char → List Char → List String
  | cur, [] => if cur = [] then [] else [String.mk (dropCR cur)]
  | cur, c :: cs =>
    if c = Char.ofNat 10 then String.mk (dropCR cur) :: textLinesLoop [] cs
    else textLinesLoop (cur ++ [c]) cs

/-- The lines of a text, whatever their length. -/
def textLines (content : List Char) : List String := textLinesLoop [] content

/-- Every line of the content, the text between two newlines with its carriage return, is
shorter than `maxScanTokenSize` bytes. -/
def shortLines (content : List Char) : Prop :=
  ∀ l ∈ splitOnChar (Char.ofNat 10) content, byteLen l < maxScanTokenSize

instance (content : List Char) : Decidable (shortLines content) := by
  unfold shortLines; infer_instance

/-- The content of a file with the given lines, each followed by a newline. -/
def fileText (lines : List String) : List Char :=
  lines.flatMap (fun l => l.data ++ [Char.ofNat 10])

/-! ## Reference notions: filterCoverage -/

/-- Some line number of `[startLine, endLine]` is in the changed set. -/
def overlaps (startLine endLine : Int) (changedLines : List Int) : Prop :=
  ∃ l, startLine ≤ l ∧ l ≤ endLine ∧ l ∈ changedLines

instance (s e : Int) (cl : List Int) : Decidable (overlaps s e cl) :=
  decidable_of_iff (∃ l ∈ cl, s ≤ l ∧ l ≤ e)
    ⟨fun ⟨l, hl, h1, h2⟩ => ⟨l, h1, h2, hl⟩, fun ⟨l, h1, h2, hl⟩ => ⟨l, hl, h1, h2⟩⟩

/-- The copies of `b` that one pass of the body of `filterCoverage` appends: at most one
through the exact entry, otherwise one for each entry of the index whose path is a suffix
of the normalised path of `b` and whose set overlaps the line range of `b`. -/
def keptCopies (sep : Char) (changed : ChangedIndex) (b : CoverBlock) : List CoverBlock :=
  match lookupFile b.File changed with
  | some changedLines => if overlaps b.StartLine b.EndLine changedLines then [b] else []
  | none =>
    (changed.filter (fun entry =>
        hasSuffix (toSlash sep b.File.data) entry.1.data
          && decide (overlaps b.StartLine b.EndLine entry.2))).map (fun _ => b)

/-- The reference output of `filterCoverage`: the kept copies of each block, in block order. -/
def filterSpec (sep : Char) (changed : ChangedIndex) (blocks : List CoverBlock) :
    List CoverBlock :=
  blocks.flatMap (keptCopies sep changed)

/-- The line range of every block can be scanned without reaching the largest `int`:
the fields are `int`s and `EndLine` is below `maxInt`. -/
def scannable (blocks : List CoverBlock) : Prop :=
  ∀ b ∈ blocks, minInt ≤ b.StartLine ∧ b.EndLine < maxInt

instance (blocks : List CoverBlock) : Decidable (scannable blocks) := by
  unfold scannable; infer_instance

/-- The fuel is enough for the line loop of every block. -/
def enoughFuel (fuel : Nat) (blocks : List CoverBlock) : Prop :=
  ∀ b ∈ blocks, (b.EndLine - b.StartLine + 1).toNat < fuel

instance (fuel : Nat) (blocks : List CoverBlock) : Decidable (enoughFuel fuel blocks) := by
  unfold enoughFuel; infer_instance

/-! ## Reference notions: decimal integers -/

/-- The number written by a string of decimal digits, continuing from `n`. -/
def decimalLoop : List Char → Nat → Nat
  | [], n => n
  | c :: cs, n => decimalLoop cs (n * 10 + digitVal c)

/-- The number written by a string of decimal digits. -/
def decimalValue (digits : List Char) : Nat := decimalLoop digits 0

/-- A non-empty string of ASCII decimal digits. -/
def isDigits (s : List Char) : Prop := s ≠ [] ∧ ∀ c ∈ s, isDigit c = true

instance (s : List Char) : Decidable (isDigits s) := by
  unfold isDigits; infer_instance

/-- A decimal integer as it is written in a profile: an optional minus sign and a non-empty
string of decimal digits. -/
structure Numeral where
  negative : Bool
  digits : List Char
deriving DecidableEq, Repr

/-- The text of a decimal integer. -/
def Numeral.text (x : Numeral) : List Char := (if x.negative then ['-'] else []) ++ x.digits

/-- The integer that the text denotes. -/
def Numeral.value (x : Numeral) : Int :=
  if x.negative then -(decimalValue x.digits : Int) else (decimalValue x.digits : Int)

/-- The digits are digits and the value fits Go's `int`. -/
def Numeral.fitsInt (x : Numeral) : Prop := isDigits x.digits ∧ isInt64 x.value

instance (x : Numeral) : Decidable x.fitsInt := by
  unfold Numeral.fitsInt; infer_instance

/-- The text after an optional leading sign `+` or `-`. -/
def stripSign : List Char → List Char
  | [] => []
  | c :: cs => if c = '+' ∨ c = '-' then cs else c :: cs

/-- The text begins with a minus sign. -/
def isNegativeText : List Char → Bool
  | [] => false
  | c :: _ => decide (c = '-')

/-- The decimal digits at the front of the text, after the optional sign. -/
def leadingDigits (text : List Char) : List Char := (stripSign text).takeWhile isDigit

/-- The text is an integer in decimal: an optional sign and a non-empty string of decimal
digits. -/
def isIntegerText (text : List Char) : Prop := isDigits (stripSign text)

instance (text : List Char) : Decidable (isIntegerText text) := by
  unfold isIntegerText; infer_instance

/-- The integer that an integer text denotes. -/
def integerValue (text : List Char) : Int :=
  if isNegativeText text = true then -(decimalValue (stripSign text) : Int)
  else (decimalValue (stripSign text) : Int)

/-- The value that `strconv.Atoi` returns for a text, stated on the text: the nearest bound of
`int` when the leading digits pass `2^64 - 1` or the integer is out of range, the integer
when the text is one, and `0` otherwise. -/
def atoiSpec (text : List Char) : Int :=
  if 18446744073709551615 < decimalValue (leadingDigits text) then
    if isNegativeText text = true then minInt else maxInt
  else if isIntegerText text then
    if integerValue text < minInt then minInt
    else if maxInt < integerValue text then maxInt
    else integerValue text
  else 0

/-! ## Reference notions: the lines of a diff -/

/-- A file header line of a diff: the text `+++ b/` followed by a non-empty path. -/
def isFileHeader (line path : String) : Prop := line = "+++ b/" ++ path ∧ path ≠ ""

/-- An added line: starts with `+` but not with `+++`. -/
def isAddedLine (line : String) : Prop :=
  hasPrefix line.data "+".data = true ∧ hasPrefix line.data "+++".data = false

instance (line : String) : Decidable (isAddedLine line) := by
  unfold isAddedLine; infer_instance

/-- A removed line: starts with `-` but not with `---`. -/
def isRemovedLine (line : String) : Prop :=
  hasPrefix line.data "-".data = true ∧ hasPrefix line.data "---".data = false

instance (line : String) : Decidable (isRemovedLine line) := by
  unfold isRemovedLine; infer_instance

/-- A context line: starts with a space. -/
def isContextLine (line : String) : Prop := hasPrefix line.data " ".data = true

instance (line : String) : Decidable (isContextLine line) := by
  unfold isContextLine; infer_instance

/-- The line holds no newline character, as every line delivered by the scanner. -/
def newlineFree (line : String) : Prop := Char.ofNat 10 ∉ line.data

instance (line : String) : Decidable (newlineFree line) := by
  unfold newlineFree; infer_instance

/-- The path of the last file header line of `lines`, if there is one. -/
def lastHeader : List String → Option String
  | [] => none
  | line :: rest =>
    match lastHeader rest with
    | some path => some path
    | none => (fileRegexMatch line.data).map String.mk

/-- The parts of a hunk header line `@@ -<oldStart>[,<oldCount>] +<newStart>[,<newCount>] @@`
and the text that follows it on the line. -/
structure HunkHeader where
  oldStart : List Char
  oldCount : Option (List Char)
  newStart : List Char
  newCount : Option (List Char)
  tail : List Char
deriving DecidableEq, Repr

/-- The text of an optional count: nothing, or a comma and the digits. -/
def countText : Option (List Char) → List Char
  | none => []
  | some count => ',' :: count

/-- The hunk header line. -/
def HunkHeader.text (h : HunkHeader) : String :=
  String.mk ("@@ -".data ++ (h.oldStart ++ (countText h.oldCount ++ (" +".data ++
    (h.newStart ++ (countText h.newCount ++ (" @@".data ++ h.tail)))))))

/-- An optional count, when present, is a non-empty string of decimal digits. -/
def countOk : Option (List Char) → Prop
  | none => True
  | some count => isDigits count

instance (count : Option (List Char)) : Decidable (countOk count) := by
  cases count with
  | none => exact isTrue trivial
  | some c => unfold countOk; infer_instance

/-- Every number of the header is a non-empty string of decimal digits. -/
def HunkHeader.wellFormed (h : HunkHeader) : Prop :=
  isDigits h.oldStart ∧ countOk h.oldCount ∧ isDigits h.newStart ∧ countOk h.newCount

instance (h : HunkHeader) : Decidable h.wellFormed := by
  unfold HunkHeader.wellFormed; infer_instance

/-- The lines that advance the numbering of the new file: context and added lines. -/
def advancesCursor (line : String) : Bool := decide (isContextLine line ∨ isAddedLine line)

/-- A line of the body of a hunk: a context, added or removed line in which the hunk header
pattern does not occur. -/
def isBodyLine (line : String) : Prop :=
  (isContextLine line ∨ isAddedLine line ∨ isRemovedLine line)
    ∧ hunkRegexMatch line.data = none

instance (line : String) : Decidable (isBodyLine line) := by
  unfold isBodyLine; infer_instance

/-- A line that `parseDiff` takes for a hunk header: the hunk pattern occurs in it and it is
not a file header. -/
def isHunkHeaderLine (line : String) : Prop :=
  fileRegexMatch line.data = none ∧ (hunkRegexMatch line.data).isSome = true

instance (line : String) : Decidable (isHunkHeaderLine line) := by
  unfold isHunkHeaderLine; infer_instance

/-- No added line comes before the first hunk header of the lines. -/
def hunkBeforeFirstAdded : List String → Prop
  | [] => True
  | line :: rest =>
    if isHunkHeaderLine line then True else ¬ isAddedLine line ∧ hunkBeforeFirstAdded rest

/-- Decision procedure for `hunkBeforeFirstAdded`. -/
def decideHunkBeforeFirstAdded : (lines : List String) → Decidable (hunkBeforeFirstAdded lines)
  | [] => isTrue trivial
  | line :: rest =>
    if h : isHunkHeaderLine line then
      isTrue (by unfold hunkBeforeFirstAdded; rw [if_pos h]; trivial)
    else
      match decideHunkBeforeFirstAdded rest with
      | isTrue hr =>
        if ha : isAddedLine line then
          isFalse (by unfold hunkBeforeFirstAdded; rw [if_neg h]; exact fun hc => hc.1 ha)
        else isTrue (by unfold hunkBeforeFirstAdded; rw [if_neg h]; exact ⟨ha, hr⟩)
      | isFalse hr =>
        isFalse (by unfold hunkBeforeFirstAdded; rw [if_neg h]; exact fun hc => hr hc.2)

instance (lines : List String) : Decidable (hunkBeforeFirstAdded lines) :=
  decideHunkBeforeFirstAdded lines

/-! ## Reference notions: the lines of a coverage profile -/

/-- The parts of a profile line
`<file>:<startLine>.<startCol>,<endLine>.<endCol> <numStatements> <executionCount>`. -/
structure ProfileEntry where
  file : String
  startLine : Numeral
  startCol : Numeral
  endLine : Numeral
  endCol : Numeral
  numStmt : Numeral
  count : Numeral
deriving DecidableEq, Repr

/-- The location field `<file>:<startLine>.<startCol>,<endLine>.<endCol>`. -/
def ProfileEntry.location (e : ProfileEntry) : List Char :=
  e.file.data ++ (':' :: (e.startLine.text ++ ('.' :: (e.startCol.text ++
    (',' :: (e.endLine.text ++ ('.' :: e.endCol.text)))))))

/-- The profile line. -/
def ProfileEntry.line (e : ProfileEntry) : String :=
  String.mk (e.location ++ (' ' :: (e.numStmt.text ++ (' ' :: e.count.text))))

/-- The block that the profile line describes. -/
def ProfileEntry.block (e : ProfileEntry) : CoverBlock :=
  { File := e.file
    StartLine := e.startLine.value
    StartCol := e.startCol.value
    EndLine := e.endLine.value
    EndCol := e.endCol.value
    NumStmt := e.numStmt.value
    Count := e.count.value
    Raw := e.line }

/-- The file has no colon and no white space, and the six numbers are decimal integers. -/
def ProfileEntry.wellFormed (e : ProfileEntry) : Prop :=
  (∀ c ∈ e.file.data, c ≠ ':' ∧ isSpace c = false)
    ∧ isDigits e.startLine.digits ∧ isDigits e.startCol.digits ∧ isDigits e.endLine.digits
    ∧ isDigits e.endCol.digits ∧ isDigits e.numStmt.digits ∧ isDigits e.count.digits

instance (e : ProfileEntry) : Decidable e.wellFormed := by
  unfold ProfileEntry.wellFormed; infer_instance

/-- The six numbers fit Go's `int`. -/
def ProfileEntry.fitsInt (e : ProfileEntry) : Prop :=
  isInt64 e.startLine.value ∧ isInt64 e.startCol.value ∧ isInt64 e.endLine.value
    ∧ isInt64 e.endCol.value ∧ isInt64 e.numStmt.value ∧ isInt64 e.count.value

instance (e : ProfileEntry) : Decidable e.fitsInt := by
  unfold ProfileEntry.fitsInt; infer_instance

/-- A mode line: a line that begins with `mode:`. -/
def isModeLine (line : String) : Prop := hasPrefix line.data "mode:".data = true

instance (line : String) : Decidable (isModeLine line) := by
  unfold isModeLine; infer_instance

/-- The optional leading mode line is a mode line. -/
def modeOk : Option String → Prop
  | none => True
  | some line => isModeLine line

instance (mode : Option String) : Decidable (modeOk mode) := by
  cases mode with
  | none => exact isTrue trivial
  | some l => unfold modeOk; infer_instance

/-- The text ends with a carriage return. -/
def endsWithCR (s : String) : Prop := s.data.getLast? = some (Char.ofNat 13)

instance (s : String) : Decidable (endsWithCR s) := by
  unfold endsWithCR; infer_instance

/-! ## Reference notions: aggregation -/

/-- The sum of `NumStmt` over the blocks. -/
def stmtSum (blocks : List CoverBlock) : Int := (blocks.map CoverBlock.NumStmt).sum

/-- The sum of `NumStmt` over the blocks with `Count > 0`. -/
def coveredSum (blocks : List CoverBlock) : Int :=
  ((blocks.filter (fun b => decide (0 < b.Count))).map CoverBlock.NumStmt).sum

/-! ## Concrete inputs -/

/-- The block of the profile line `/abs/repo/pkg/foo.go:5.1,7.2 3 1`. -/
def dupBlock : CoverBlock :=
  { File := "/abs/repo/pkg/foo.go", StartLine := 5, StartCol := 1, EndLine := 7, EndCol := 2,
    NumStmt := 3, Count := 1, Raw := "/abs/repo/pkg/foo.go:5.1,7.2 3 1" }

/-- The index of a diff that adds line 6 to `foo.go` and to `pkg/foo.go`. -/
def dupIndex : ChangedIndex := [("foo.go", [6]), ("pkg/foo.go", [6])]

/-- The block of the profile line `foo.go:5.1,9223372036854775807.2 3 1`. -/
def exactHangBlock : CoverBlock :=
  { File := "foo.go", StartLine := 5, StartCol := 1, EndLine := 9223372036854775807,
    EndCol := 2, NumStmt := 3, Count := 1, Raw := "foo.go:5.1,9223372036854775807.2 3 1" }

/-- The block of the profile line `/abs/repo/foo.go:5.1,9223372036854775807.2 3 1`. -/
def fallbackHangBlock : CoverBlock :=
  { File := "/abs/repo/foo.go", StartLine := 5, StartCol := 1, EndLine := 9223372036854775807,
    EndCol := 2, NumStmt := 3, Count := 1,
    Raw := "/abs/repo/foo.go:5.1,9223372036854775807.2 3 1" }

/-- The block of the profile line `foo.go:5.1,7.2 3 1`. -/
def sampleBlock : CoverBlock :=
  { File := "foo.go", StartLine := 5, StartCol := 1, EndLine := 7, EndCol := 2,
    NumStmt := 3, Count := 1, Raw := "foo.go:5.1,7.2 3 1" }

/-- The block of the profile line `/abs/repo/foo.go:5.1,7.2 3 1`. -/
def sampleAbsBlock : CoverBlock :=
  { File := "/abs/repo/foo.go", StartLine := 5, StartCol := 1, EndLine := 7, EndCol := 2,
    NumStmt := 3, Count := 1, Raw := "/abs/repo/foo.go:5.1,7.2 3 1" }

/-- The block of the profile line `foo.go:5.1,7.2 3 1` followed by a carriage return, as
the scanner delivers it for a line that ends with two carriage returns and a newline. -/
def crBlock : CoverBlock :=
  { File := "foo.go", StartLine := 5, StartCol := 1, EndLine := 7, EndCol := 2,
    NumStmt := 3, Count := 1, Raw := "foo.go:5.1,7.2 3 1\r" }

/-- A filtered result with 100 statements of which 29 are covered. -/
def ratio29Blocks : List CoverBlock :=
  [{ File := "a.go", StartLine := 1, StartCol := 1, EndLine := 9, EndCol := 2,
     NumStmt := 29, Count := 1, Raw := "a.go:1.1,9.2 29 1" },
   { File := "a.go", StartLine := 10, StartCol := 1, EndLine := 30, EndCol := 2,
     NumStmt := 71, Count := 0, Raw := "a.go:10.1,30.2 71 0" }]

/-- A filtered result with 5 statements of which 4 are covered. -/
def ratio80Blocks : List CoverBlock :=
  [{ File := "a.go", StartLine := 1, StartCol := 1, EndLine := 9, EndCol := 2,
     NumStmt := 4, Count := 1, Raw := "a.go:1.1,9.2 4 1" },
   { File := "a.go", StartLine := 10, StartCol := 1, EndLine := 30, EndCol := 2,
     NumStmt := 1, Count := 0, Raw := "a.go:10.1,30.2 1 0" }]

/-- Two kept blocks of 9223372036854775807 statements each, the first one covered. -/
def hugeStmtBlocks : List CoverBlock :=
  [{ File := "a.go", StartLine := 1, StartCol := 1, EndLine := 2, EndCol := 2,
     NumStmt := 9223372036854775807, Count := 1,
     Raw := "a.go:1.1,2.2 9223372036854775807 1" },
   { File := "a.go", StartLine := 3, StartCol := 1, EndLine := 4, EndCol := 2,
     NumStmt := 9223372036854775807, Count := 0,
     Raw := "a.go:3.1,4.2 9223372036854775807 0" }]

/-- A diff that changes `foo.go` without adding a line and adds line 2 of `bar.go`. -/
def twoFileDiff : List String :=
  ["--- a/foo.go", "+++ b/foo.go", "@@ -5,2 +5,1 @@", " kept", "-removed",
   "--- a/bar.go", "+++ b/bar.go", "@@ -1 +1,2 @@", " x", "+y"]

/-- The hunk header `@@ -1,3 +10,3 @@`. -/
def sampleHunk : HunkHeader :=
  { oldStart := "1".data, oldCount := some "3".data, newStart := "10".data,
    newCount := some "3".data, tail := [] }

/-- The hunk header `@@ -1,3 +9223372036854775807,3 @@`, whose new-side start is the largest
`int`. -/
def lastLineHunk : HunkHeader :=
  { oldStart := "1".data, oldCount := some "3".data, newStart := "9223372036854775807".data,
    newCount := some "3".data, tail := [] }

/-- The entry of the profile line `mode:1.2,3.4 5 6`, for a file named `mode`. -/
def modeFileEntry : ProfileEntry :=
  { file := "mode", startLine := ⟨false, "1".data⟩, startCol := ⟨false, "2".data⟩,
    endLine := ⟨false, "3".data⟩, endCol := ⟨false, "4".data⟩,
    numStmt := ⟨false, "5".data⟩, count := ⟨false, "6".data⟩ }

/-- The entry of the profile line `foo.go:5.1,99999999999999999999.2 3 1`. -/
def hugeLineEntry : ProfileEntry :=
  { file := "foo.go", startLine := ⟨false, "5".data⟩, startCol := ⟨false, "1".data⟩,
    endLine := ⟨false, "99999999999999999999".data⟩, endCol := ⟨false, "2".data⟩,
    numStmt := ⟨false, "3".data⟩, count := ⟨false, "1".data⟩ }

/-- The entry of the profile line `foo.go:5.1,7.2 3 1`. -/
def sampleEntry : ProfileEntry :=
  { file := "foo.go", startLine := ⟨false, "5".data⟩, startCol := ⟨false, "1".data⟩,
    endLine := ⟨false, "7".data⟩, endCol := ⟨false, "2".data⟩,
    numStmt := ⟨false, "3".data⟩, count := ⟨false, "1".data⟩ }

/-- The entry of the profile line `bar.go:10.3,-2.0 0 12`. -/
def secondEntry : ProfileEntry :=
  { file := "bar.go", startLine := ⟨false, "10".data⟩, startCol := ⟨false, "3".data⟩,
    endLine := ⟨true, "2".data⟩, endCol := ⟨false, "0".data⟩,
    numStmt := ⟨false, "0".data⟩, count := ⟨false, "12".data⟩ }

/-- A line of 65536 letters `x`: the shortest line that a `bufio.Scanner` does not take. -/
def longLine : String := String.mk (List.replicate maxScanTokenSize 'x')

/-- The entry of a profile line for a file whose name is `longLine`. -/
def longNameEntry : ProfileEntry :=
  { file := longLine, startLine := ⟨false, "5".data⟩, startCol := ⟨false, "1".data⟩,
    endLine := ⟨false, "7".data⟩, endCol := ⟨false, "2".data⟩,
    numStmt := ⟨false, "3".data⟩, count := ⟨false, "1".data⟩ }

/-- The text of `twoFileDiff` with Windows line ends and no newline after the last line. -/
def twoFileDiffText : List Char :=
  ("--- a/foo.go\r\n+++ b/foo.go\r\n@@ -5,2 +5,1 @@\r\n kept\r\n-removed\r\n"
    ++ "--- a/bar.go\r\n+++ b/bar.go\r\n@@ -1 +1,2 @@\r\n x\r\n+y").data

/-- The diff of the specification: the header of `foo.go`, the hunk header
`@@ -1,3 +10,3 @@`, a context line, an added line, a removed line, a context line. -/
def sampleDiffText : List Char :=
  "+++ b/foo.go\n@@ -1,3 +10,3 @@\n context\n+added\n-removed\n context\n".data

/-- A profile of two entries. -/
def twoEntryProfileText : List Char :=
  "mode: set\na.go:1.1,2.2 1 1\nbar.go:10.3,12.0 2 0\n".data

/-- The blocks of `twoEntryProfileText`. -/
def twoEntryBlocks : List CoverBlock :=
  [{ File := "a.go", StartLine := 1, StartCol := 1, EndLine := 2, EndCol := 2,
     NumStmt := 1, Count := 1, Raw := "a.go:1.1,2.2 1 1" },
   { File := "bar.go", StartLine := 10, StartCol := 3, EndLine := 12, EndCol := 0,
     NumStmt := 2, Count := 0, Raw := "bar.go:10.3,12.0 2 0" }]

/-! # Properties -/

/-! ## Machine integers -/

theorem wrap64_of_isInt64 (z : Int) (h : isInt64 z) : wrap64 z = z := by
  unfold isInt64 minInt maxInt at h
  unfold wrap64
  omega

theorem wrap64_isInt64 (z : Int) : isInt64 (wrap64 z) := by
  unfold isInt64 minInt maxInt wrap64
  omega

/-! ## filterCoverage -/

theorem lineLoop_eq_overlaps (cl : List Int) (e : Int) (he : e < maxInt) :
    ∀ (fuel : Nat) (line : Int), minInt ≤ line → (e - line + 1).toNat < fuel →
      lineLoop fuel line e cl = some (decide (overlaps line e cl)) := by
  intro fuel
  induction fuel with
  | zero => intro line _ h; omega
  | succ n ih =>
    intro line hmin hfuel
    unfold lineLoop
    by_cases hle : line ≤ e
    · rw [if_pos hle]
      by_cases hmem : line ∈ cl
      · rw [if_pos hmem]
        have : overlaps line e cl := ⟨line, le_refl _, hle, hmem⟩
        simp [this]
      · rw [if_neg hmem]
        have hw : wrap64 (line + 1) = line + 1 := by
          apply wrap64_of_isInt64
          unfold isInt64; unfold maxInt at he ⊢; unfold minInt at hmin ⊢
          omega
        rw [hw, ih (line + 1) (by omega) (by omega)]
        congr 1
        apply decide_eq_decide.mpr
        constructor
        · rintro ⟨l, h1, h2, h3⟩
          exact ⟨l, by omega, h2, h3⟩
        · rintro ⟨l, h1, h2, h3⟩
          have : l ≠ line := fun h => hmem (h ▸ h3)
          exact ⟨l, by omega, h2, h3⟩
    · rw [if_neg hle]
      have : ¬ overlaps line e cl := by
        rintro ⟨l, h1, h2, _⟩
        omega
      simp [this]

theorem scanBlock_eq (fuel : Nat) (b : CoverBlock) (cl : List Int) (filtered : List CoverBlock)
    (hmin : minInt ≤ b.StartLine) (hmax : b.EndLine < maxInt)
    (hfuel : (b.EndLine - b.StartLine + 1).toNat < fuel) :
    scanBlock fuel b cl filtered
      = some (filtered ++ if overlaps b.StartLine b.EndLine cl then [b] else []) := by
  unfold scanBlock
  rw [lineLoop_eq_overlaps cl b.EndLine hmax fuel b.StartLine hmin hfuel]
  by_cases h : overlaps b.StartLine b.EndLine cl <;> simp [h]

theorem fallbackLoop_eq (fuel : Nat) (b : CoverBlock) (base : List Char)
    (hmin : minInt ≤ b.StartLine) (hmax : b.EndLine < maxInt)
    (hfuel : (b.EndLine - b.StartLine + 1).toNat < fuel) :
    ∀ (changed : ChangedIndex) (filtered : List CoverBlock),
      fallbackLoop fuel b base changed filtered
        = some (filtered ++ (changed.filter (fun entry =>
            hasSuffix base entry.1.data
              && decide (overlaps b.StartLine b.EndLine entry.2))).map (fun _ => b)) := by
  intro changed
  induction changed with
  | nil => intro filtered; simp [fallbackLoop]
  | cons entry rest ih =>
    intro filtered
    obtain ⟨d, cl⟩ := entry
    unfold fallbackLoop
    by_cases hs : hasSuffix base d.data = true
    · rw [if_pos hs, scanBlock_eq fuel b cl filtered hmin hmax hfuel]
      simp only [ih]
      by_cases ho : overlaps b.StartLine b.EndLine cl <;> simp [List.filter_cons, hs, ho]
    · rw [if_neg hs, ih]
      simp [List.filter_cons, hs]

theorem filterBlock_eq (sep : Char) (fuel : Nat) (changed : ChangedIndex) (b : CoverBlock)
    (filtered : List CoverBlock)
    (hmin : minInt ≤ b.StartLine) (hmax : b.EndLine < maxInt)
    (hfuel : (b.EndLine - b.StartLine + 1).toNat < fuel) :
    filterBlock sep fuel changed b filtered = some (filtered ++ keptCopies sep changed b) := by
  unfold filterBlock keptCopies
  cases hk : lookupFile b.File changed with
  | some cl => simp only []; exact scanBlock_eq fuel b cl filtered hmin hmax hfuel
  | none => simp only []; exact fallbackLoop_eq fuel b _ hmin hmax hfuel changed filtered

theorem filterLoop_eq (sep : Char) (fuel : Nat) (changed : ChangedIndex) :
    ∀ (blocks : List CoverBlock) (filtered : List CoverBlock),
      scannable blocks → enoughFuel fuel blocks →
      filterLoop sep fuel changed blocks filtered
        = some (filtered ++ filterSpec sep changed blocks) := by
  intro blocks
  induction blocks with
  | nil => intro filtered _ _; simp [filterLoop, filterSpec]
  | cons b bs ih =>
    intro filtered hs hf
    have hb := hs b (List.mem_cons_self _ _)
    unfold filterLoop
    rw [filterBlock_eq sep fuel changed b filtered hb.1 hb.2 (hf b (List.mem_cons_self _ _))]
    simp only []
    rw [ih _ (fun x hx => hs x (List.mem_cons_of_mem _ hx))
      (fun x hx => hf x (List.mem_cons_of_mem _ hx))]
    simp [filterSpec, List.flatMap_cons]

theorem filterCoverage_eq (sep : Char) (fuel : Nat) (changed : ChangedIndex)
    (blocks : List CoverBlock) (hs : scannable blocks) (hf : enoughFuel fuel blocks) :
    filterCoverage sep fuel blocks changed = some (filterSpec sep changed blocks) := by
  unfold filterCoverage
  rw [filterLoop_eq sep fuel changed blocks [] hs hf]
  simp

theorem hasSuffix_iff (s suf : List Char) : hasSuffix s suf = true ↔ suf <:+ s := by
  unfold hasSuffix
  simp only [Bool.and_eq_true, decide_eq_true_eq]
  constructor
  · rintro ⟨_, h⟩
    have key := List.take_append_drop (s.length - suf.length) s
    rw [h] at key
    exact ⟨_, key⟩
  · rintro ⟨t, rfl⟩
    refine ⟨by simp, ?_⟩
    simp

theorem hasPrefix_iff (s pre : List Char) : hasPrefix s pre = true ↔ pre <+: s := by
  unfold hasPrefix
  simp only [Bool.and_eq_true, decide_eq_true_eq]
  constructor
  · rintro ⟨_, h⟩
    have key := List.take_append_drop pre.length s
    rw [h] at key
    exact ⟨_, key⟩
  · rintro ⟨t, rfl⟩
    refine ⟨by simp, ?_⟩
    simp

theorem keptCopies_eq_replicate (sep : Char) (changed : ChangedIndex) (b : CoverBlock) :
    ∃ n, keptCopies sep changed b = List.replicate n b := by
  unfold keptCopies
  cases lookupFile b.File changed with
  | some cl =>
    by_cases h : overlaps b.StartLine b.EndLine cl
    · exact ⟨1, by simp [h]⟩
    · exact ⟨0, by simp [h]⟩
  | none => exact ⟨_, List.map_const' _ _⟩

theorem count_keptCopies_of_ne (sep : Char) (changed : ChangedIndex) (a b : CoverBlock)
    (h : a ≠ b) : (keptCopies sep changed a).count b = 0 := by
  obtain ⟨n, hn⟩ := keptCopies_eq_replicate sep changed a
  rw [hn, List.count_replicate]
  simp [h]

theorem mem_filterSpec (sep : Char) (changed : ChangedIndex) (blocks : List CoverBlock)
    (b : CoverBlock) :
    b ∈ filterSpec sep changed blocks ↔ b ∈ blocks ∧ b ∈ keptCopies sep changed b := by
  unfold filterSpec
  rw [List.mem_flatMap]
  constructor
  · rintro ⟨a, ha, hba⟩
    obtain ⟨n, hn⟩ := keptCopies_eq_replicate sep changed a
    rw [hn] at hba
    have := List.eq_of_mem_replicate hba
    subst this
    exact ⟨ha, by rw [hn]; exact hba⟩
  · rintro ⟨hb, hk⟩
    exact ⟨b, hb, hk⟩

theorem count_filterSpec (sep : Char) (changed : ChangedIndex) (b : CoverBlock) :
    ∀ blocks : List CoverBlock,
      (filterSpec sep changed blocks).count b
        = blocks.count b * (keptCopies sep changed b).count b := by
  intro blocks
  induction blocks with
  | nil => simp [filterSpec]
  | cons a as ih =>
    have hcons : filterSpec sep changed (a :: as)
        = keptCopies sep changed a ++ filterSpec sep changed as := by
      simp [filterSpec, List.flatMap_cons]
    rw [hcons, List.count_append, ih]
    by_cases h : a = b
    · subst h
      rw [List.count_cons_self]
      ring
    · rw [count_keptCopies_of_ne sep changed a b h, List.count_cons_of_ne (Ne.symm h)]
      simp

theorem lineLoop_maxInt_empty :
    ∀ (fuel : Nat) (line : Int), line ≤ maxInt → lineLoop fuel line maxInt [] = none := by
  intro fuel
  induction fuel with
  | zero => intro line _; rfl
  | succ n ih =>
    intro line h
    unfold lineLoop
    rw [if_pos h]
    simp only [List.not_mem_nil, if_false]
    exact ih _ (wrap64_isInt64 _).2

theorem lineLoop_skip (cl : List Int) (e : Int) :
    ∀ (n fuel : Nat) (line : Int), minInt ≤ line → line + n ≤ e → e ≤ maxInt →
      (∀ k : Nat, k < n → line + k ∉ cl) →
      lineLoop (fuel + n) line e cl = lineLoop fuel (line + n) e cl := by
  intro n
  induction n with
  | zero => intro fuel line _ _ _ _; simp
  | succ n ih =>
    intro fuel line hmin hle he hno
    have h0 : line ∉ cl := by simpa using hno 0 (Nat.succ_pos _)
    have hstep : lineLoop (fuel + (n + 1)) line e cl
        = lineLoop (fuel + n) (wrap64 (line + 1)) e cl := by
      have : fuel + (n + 1) = (fuel + n) + 1 := by omega
      rw [this, lineLoop, if_pos (by push_cast at hle; omega), if_neg h0]
    have hw : wrap64 (line + 1) = line + 1 := by
      apply wrap64_of_isInt64
      unfold isInt64
      unfold minInt at hmin ⊢
      unfold maxInt at he ⊢
      push_cast at hle
      omega
    rw [hstep, hw, ih fuel (line + 1) (by unfold minInt at hmin ⊢; omega)
      (by push_cast at hle ⊢; omega) he]
    · congr 1
      push_cast
      ring
    · intro k hk
      have := hno (k + 1) (by omega)
      push_cast at this
      rw [add_assoc, add_comm 1 (k : Int)]
      exact this

theorem lineLoop_wraps_to_three :
    lineLoop 18446744073709551615 5 maxInt [3] = some true := by
  have h1 := lineLoop_skip [3] maxInt 9223372036854775802 9223372036854775813 5
    (by decide) (by decide) (le_refl _) (by
      intro k hk
      simp only [List.mem_singleton]
      omega)
  have e1 : (9223372036854775813 + 9223372036854775802 : Nat) = 18446744073709551615 := by
    norm_num
  rw [e1] at h1
  rw [h1]
  have e2 : ((5 : Int) + (9223372036854775802 : Nat)) = maxInt := by decide
  rw [e2]
  have e3 : (9223372036854775813 : Nat) = 9223372036854775812 + 1 := by norm_num
  rw [e3, lineLoop, if_pos (le_refl _), if_neg (by decide)]
  have e4 : wrap64 (maxInt + 1) = minInt := by decide
  rw [e4]
  have h2 := lineLoop_skip [3] maxInt 9223372036854775811 1 minInt
    (le_refl _) (by decide) (le_refl _) (by
      intro k hk
      simp only [List.mem_singleton]
      unfold minInt
      omega)
  have e5 : (1 + 9223372036854775811 : Nat) = 9223372036854775812 := by norm_num
  rw [e5] at h2
  rw [h2]
  have e6 : (minInt + (9223372036854775811 : Nat)) = 3 := by decide
  rw [e6]
  decide

theorem filterCoverage_single_exact (sep : Char) (fuel : Nat) (b : CoverBlock)
    (changed : ChangedIndex) (cl : List Int) (hk : lookupFile b.File changed = some cl) :
    filterCoverage sep fuel [b] changed
      = (lineLoop fuel b.StartLine b.EndLine cl).map (fun hit => if hit then [b] else []) := by
  simp only [filterCoverage, filterLoop, filterBlock, scanBlock, hk]
  cases lineLoop fuel b.StartLine b.EndLine cl with
  | none => rfl
  | some hit => cases hit <;> rfl

theorem filterCoverage_single_fallback (sep : Char) (fuel : Nat) (b : CoverBlock)
    (d : String) (cl : List Int) (hk : lookupFile b.File [(d, cl)] = none)
    (hsuf : hasSuffix (toSlash sep b.File.data) d.data = true) :
    filterCoverage sep fuel [b] [(d, cl)]
      = (lineLoop fuel b.StartLine b.EndLine cl).map (fun hit => if hit then [b] else []) := by
  simp only [filterCoverage, filterLoop, filterBlock, fallbackLoop, scanBlock, hk, hsuf, if_true]
  cases lineLoop fuel b.StartLine b.EndLine cl with
  | none => rfl
  | some hit => cases hit <;> rfl

theorem lookupFile_eq_none_iff (file : String) (changed : ChangedIndex) :
    lookupFile file changed = none ↔ file ∉ indexKeys changed := by
  induction changed with
  | nil => simp [lookupFile, indexKeys]
  | cons entry rest ih =>
    obtain ⟨k, v⟩ := entry
    unfold lookupFile
    by_cases h : k = file
    · simp [h, indexKeys]
    · rw [if_neg h, ih]
      simp only [indexKeys, List.map_cons, List.mem_cons, not_or]
      exact ⟨fun hr => ⟨fun e => h e.symm, hr⟩, fun hr => hr.2⟩

/-! ## The claims on filterCoverage -/

/-- C1, evidence that the code does not meet the claim: the profile line
`/abs/repo/pkg/foo.go:5.1,7.2 3 1` filtered against a diff that adds line 6 to `foo.go` and to
`pkg/foo.go` is appended once for each of the two suffix entries, so the output has the block
twice and is not a subsequence of the input. -/
theorem filterCoverage_appends_per_suffix_entry :
    parseCoverage ["mode: set", "/abs/repo/pkg/foo.go:5.1,7.2 3 1"] = some [dupBlock]
    ∧ parseDiff ["+++ b/foo.go", "@@ -5,0 +6 @@", "+x",
        "+++ b/pkg/foo.go", "@@ -5,0 +6 @@", "+y"] = dupIndex
    ∧ (∀ fuel : Nat,
        filterCoverage '/' (fuel + 4) [dupBlock] dupIndex = some [dupBlock, dupBlock])
    ∧ ¬ List.Sublist [dupBlock, dupBlock] [dupBlock] := by
  refine ⟨by decide, by decide, ?_, by decide⟩
  intro fuel
  rw [filterCoverage_eq '/' (fuel + 4) dupIndex [dupBlock] (by decide) (by
    intro b hb
    simp only [List.mem_singleton] at hb
    subst hb
    simp [dupBlock])]
  decide

/-- C2, evidence that the code does not meet the claim: filtering `[dupBlock]` against
`dupIndex` gives the block twice, and filtering that output again against the same index
gives it four times. -/
theorem filterCoverage_second_pass_differs :
    (∀ fuel : Nat,
        filterCoverage '/' (fuel + 4) [dupBlock] dupIndex = some [dupBlock, dupBlock])
    ∧ (∀ fuel : Nat,
        filterCoverage '/' (fuel + 4) [dupBlock, dupBlock] dupIndex
          = some [dupBlock, dupBlock, dupBlock, dupBlock])
    ∧ [dupBlock, dupBlock, dupBlock, dupBlock] ≠ [dupBlock, dupBlock] := by
  refine ⟨?_, ?_, by decide⟩
  · intro fuel
    rw [filterCoverage_eq '/' (fuel + 4) dupIndex [dupBlock] (by decide) (by
      intro b hb
      simp only [List.mem_singleton] at hb
      subst hb
      simp [dupBlock])]
    decide
  · intro fuel
    rw [filterCoverage_eq '/' (fuel + 4) dupIndex [dupBlock, dupBlock] (by decide) (by
      intro b hb
      simp only [List.mem_cons, List.mem_singleton, List.not_mem_nil, or_false, or_self] at hb
      subst hb
      simp [dupBlock])]
    decide

/-- C3, the claim fails at the largest `int`: the profile line
`foo.go:5.1,9223372036854775807.2 3 1` gives a block whose path is a key of the index. Against
a diff that changes `foo.go` without adding a line, no line of the range is changed and the
line loop never ends, whatever the fuel, so no output is produced that drops the block.
Against the set `{3}`, which has no line in `[5, 9223372036854775807]`, the loop wraps round
to 3 and the block is kept. -/
theorem exact_match_hangs_at_maxInt :
    parseCoverage ["mode: set", "foo.go:5.1,9223372036854775807.2 3 1"] = some [exactHangBlock]
    ∧ parseDiff ["+++ b/foo.go", "@@ -5,2 +5,1 @@", " kept", "-removed"] = [("foo.go", [])]
    ∧ lookupFile exactHangBlock.File [("foo.go", [])] = some []
    ∧ (∀ fuel : Nat, filterCoverage '/' fuel [exactHangBlock] [("foo.go", [])] = none)
    ∧ lookupFile exactHangBlock.File [("foo.go", [3])] = some [3]
    ∧ ¬ overlaps exactHangBlock.StartLine exactHangBlock.EndLine [3]
    ∧ filterCoverage '/' 18446744073709551615 [exactHangBlock] [("foo.go", [3])]
        = some [exactHangBlock] := by
  refine ⟨by decide, by decide, by decide, ?_, by decide, by decide, ?_⟩
  · intro fuel
    rw [filterCoverage_single_exact '/' fuel exactHangBlock _ [] (by decide)]
    have h : lineLoop fuel exactHangBlock.StartLine exactHangBlock.EndLine [] = none :=
      lineLoop_maxInt_empty fuel 5 (by decide)
    rw [h]
    rfl
  · rw [filterCoverage_single_exact '/' _ exactHangBlock _ [3] (by decide)]
    have h : lineLoop 18446744073709551615 exactHangBlock.StartLine exactHangBlock.EndLine [3]
        = some true := lineLoop_wraps_to_three
    rw [h]
    rfl

/-- C3, amended: when every block can be scanned without reaching the largest `int` and the
fuel covers each line range, `filterCoverage` returns, and a block of the input whose path is a
key of the index is in the output if and only if some line of `[StartLine, EndLine]` is in that
key's changed set; it then occurs as often as in the input, no other entry being consulted. -/
theorem exact_match_rule (sep : Char) (fuel : Nat) (blocks : List CoverBlock)
    (changed : ChangedIndex) (b : CoverBlock) (changedLines : List Int)
    (hs : scannable blocks) (hf : enoughFuel fuel blocks)
    (hb : b ∈ blocks) (hkey : lookupFile b.File changed = some changedLines) :
    ∃ out, filterCoverage sep fuel blocks changed = some out
      ∧ (b ∈ out ↔ overlaps b.StartLine b.EndLine changedLines)
      ∧ out.count b
          = if overlaps b.StartLine b.EndLine changedLines then blocks.count b else 0 := by
  refine ⟨_, filterCoverage_eq sep fuel changed blocks hs hf, ?_, ?_⟩
  · rw [mem_filterSpec]
    unfold keptCopies
    rw [hkey]
    by_cases h : overlaps b.StartLine b.EndLine changedLines <;> simp [h, hb]
  · rw [count_filterSpec]
    unfold keptCopies
    rw [hkey]
    by_cases h : overlaps b.StartLine b.EndLine changedLines <;> simp [h]

/-- C3, the amended rule at the profile line `foo.go:5.1,7.2 3 1` and a diff that adds line 6
of `foo.go`. -/
theorem exact_match_rule_witness :
    scannable [sampleBlock] ∧ enoughFuel 4 [sampleBlock] ∧ sampleBlock ∈ [sampleBlock]
    ∧ lookupFile sampleBlock.File [("foo.go", [6])] = some [6]
    ∧ ∃ out, filterCoverage '/' 4 [sampleBlock] [("foo.go", [6])] = some out
      ∧ (sampleBlock ∈ out ↔ overlaps sampleBlock.StartLine sampleBlock.EndLine [6])
      ∧ out.count sampleBlock
          = if overlaps sampleBlock.StartLine sampleBlock.EndLine [6]
            then [sampleBlock].count sampleBlock else 0 :=
  ⟨by decide, by decide, by decide, by decide,
    exact_match_rule '/' 4 [sampleBlock] [("foo.go", [6])] sampleBlock [6]
      (by decide) (by decide) (by decide) (by decide)⟩

/-- C4, the claim fails at the largest `int`: the block of the profile line
`/abs/repo/foo.go:5.1,9223372036854775807.2 3 1` has a path that is not a key of the index
and that ends with `foo.go`. Against a diff that changes `foo.go` without adding a line the
line loop never ends, whatever the fuel, so no output is produced. Against the set `{3}`,
which has no line in `[5, 9223372036854775807]`, the loop wraps round to 3 and the block is in
the output. -/
theorem fallback_hangs_at_maxInt :
    parseCoverage ["mode: set", "/abs/repo/foo.go:5.1,9223372036854775807.2 3 1"]
      = some [fallbackHangBlock]
    ∧ parseDiff ["+++ b/foo.go", "@@ -5,2 +5,1 @@", " kept", "-removed"] = [("foo.go", [])]
    ∧ fallbackHangBlock.File ∉ indexKeys [("foo.go", [])]
    ∧ (∀ fuel : Nat, filterCoverage '/' fuel [fallbackHangBlock] [("foo.go", [])] = none)
    ∧ fallbackHangBlock.File ∉ indexKeys [("foo.go", [3])]
    ∧ ¬ overlaps fallbackHangBlock.StartLine fallbackHangBlock.EndLine [3]
    ∧ filterCoverage '/' 18446744073709551615 [fallbackHangBlock] [("foo.go", [3])]
        = some [fallbackHangBlock] := by
  refine ⟨by decide, by decide, by decide, ?_, by decide, by decide, ?_⟩
  · intro fuel
    rw [filterCoverage_single_fallback '/' fuel fallbackHangBlock "foo.go" [] (by decide)
      (by decide)]
    have h : lineLoop fuel fallbackHangBlock.StartLine fallbackHangBlock.EndLine [] = none :=
      lineLoop_maxInt_empty fuel 5 (by decide)
    rw [h]
    rfl
  · rw [filterCoverage_single_fallback '/' _ fallbackHangBlock "foo.go" [3] (by decide)
      (by decide)]
    have h : lineLoop 18446744073709551615 fallbackHangBlock.StartLine
        fallbackHangBlock.EndLine [3] = some true := lineLoop_wraps_to_three
    rw [h]
    rfl

/-- C4, amended: when every block can be scanned without reaching the largest `int` and the
fuel covers each line range, `filterCoverage` returns, and a block of the input whose path is
not a key of the index is in the output if and only if some entry `(d, set)` of the index has
`d` as a literal suffix of the block's path with separators normalised to `/` and some line of
`[StartLine, EndLine]` in `set`. -/
theorem fallback_rule (sep : Char) (fuel : Nat) (blocks : List CoverBlock)
    (changed : ChangedIndex) (b : CoverBlock)
    (hs : scannable blocks) (hf : enoughFuel fuel blocks)
    (hb : b ∈ blocks) (hkey : b.File ∉ indexKeys changed) :
    ∃ out, filterCoverage sep fuel blocks changed = some out
      ∧ (b ∈ out ↔ ∃ d changedLines, (d, changedLines) ∈ changed
            ∧ d.data <:+ toSlash sep b.File.data
            ∧ overlaps b.StartLine b.EndLine changedLines) := by
  refine ⟨_, filterCoverage_eq sep fuel changed blocks hs hf, ?_⟩
  rw [mem_filterSpec]
  unfold keptCopies
  rw [(lookupFile_eq_none_iff b.File changed).mpr hkey]
  simp only [List.mem_map, List.mem_filter, Bool.and_eq_true, decide_eq_true_eq, and_true,
    hasSuffix_iff]
  constructor
  · rintro ⟨_, ⟨d, cl⟩, hmem, hsuf, hov⟩
    exact ⟨d, cl, hmem, hsuf, hov⟩
  · rintro ⟨d, cl, hmem, hsuf, hov⟩
    exact ⟨hb, (d, cl), hmem, hsuf, hov⟩

/-- C4, the amended rule at the profile line `/abs/repo/foo.go:5.1,7.2 3 1` and the index of a
diff with the header `+++ b/foo.go` that adds line 6. -/
theorem fallback_rule_witness :
    scannable [sampleAbsBlock] ∧ enoughFuel 4 [sampleAbsBlock]
    ∧ sampleAbsBlock ∈ [sampleAbsBlock] ∧ sampleAbsBlock.File ∉ indexKeys [("foo.go", [6])]
    ∧ ∃ out, filterCoverage '/' 4 [sampleAbsBlock] [("foo.go", [6])] = some out
      ∧ (sampleAbsBlock ∈ out ↔ ∃ d changedLines, (d, changedLines) ∈ [(("foo.go" : String), [(6 : Int)])]
            ∧ d.data <:+ toSlash '/' sampleAbsBlock.File.data
            ∧ overlaps sampleAbsBlock.StartLine sampleAbsBlock.EndLine changedLines) :=
  ⟨by decide, by decide, by decide, by decide,
    fallback_rule '/' 4 [sampleAbsBlock] [("foo.go", [6])] sampleAbsBlock
      (by decide) (by decide) (by decide) (by decide)⟩

/-! ## The threshold check -/

theorem Finite64.lt_iff_toRat (x y : Finite64) : x.lt y = true ↔ x.toRat < y.toRat := by
  unfold Finite64.lt Finite64.toRat
  rw [decide_eq_true_eq]
  set k := min x.e y.e with hk
  have hx : x.e = k + ((x.e - k).toNat : Int) := by
    have : k ≤ x.e := min_le_left _ _
    omega
  have hy : y.e = k + ((y.e - k).toNat : Int) := by
    have : k ≤ y.e := min_le_right _ _
    omega
  have h2 : (0 : ℚ) < (2 : ℚ) ^ k := zpow_pos (by norm_num) k
  have ex : (2 : ℚ) ^ x.e = (2 : ℚ) ^ k * (2 : ℚ) ^ (x.e - k).toNat := by
    conv_lhs => rw [hx]
    rw [zpow_add₀ (by norm_num), zpow_natCast]
  have ey : (2 : ℚ) ^ y.e = (2 : ℚ) ^ k * (2 : ℚ) ^ (y.e - k).toNat := by
    conv_lhs => rw [hy]
    rw [zpow_add₀ (by norm_num), zpow_natCast]
  rw [ex, ey]
  have cast : (x.m * 2 ^ (x.e - k).toNat < y.m * 2 ^ (y.e - k).toNat)
      ↔ ((x.m : ℚ) * (2 : ℚ) ^ (x.e - k).toNat < (y.m : ℚ) * (2 : ℚ) ^ (y.e - k).toNat) := by
    rw [← Int.cast_lt (R := ℚ)]
    push_cast
    rfl
  rw [cast]
  constructor
  · intro h
    have := mul_lt_mul_of_pos_left h h2
    linarith
  · intro h
    by_contra hn
    push_neg at hn
    have := mul_le_mul_of_nonneg_left hn (le_of_lt h2)
    linarith

theorem exitCode_eq_zero_iff (filtered : List CoverBlock) (threshold : Float64)
    (h : 0 < totalStmts filtered) :
    exitCode filtered threshold = 0
      ↔ ltFloat (coveragePercent (coveredStmts filtered) (totalStmts filtered)) threshold
          = false := by
  unfold exitCode
  by_cases hl : ltFloat (coveragePercent (coveredStmts filtered) (totalStmts filtered))
      threshold = true
  · simp [hl, h]
  · simp [hl]

/-- C5, the claim fails on the exact ratio: with 29 covered statements out of 100 and the
threshold 29 the exact percentage `29/100*100` equals the threshold, but the `float64`
computation gives `8162774324609023 * 2^-48 = 28.999999999999996...`, which is below 29, and
the run exits with code 1. -/
theorem threshold_exact_ratio_counterexample :
    totalStmts ratio29Blocks = 100 ∧ coveredStmts ratio29Blocks = 29
    ∧ (Finite64.mk 29 0).toRat ≤ (29 : ℚ) / 100 * 100
    ∧ coveragePercent 29 100 = { m := 8162774324609023, e := -48 }
    ∧ exitCode ratio29Blocks (Float64.finite { m := 29, e := 0 }) = 1 := by
  refine ⟨by decide, by decide, ?_, ?_, ?_⟩
  · norm_num [Finite64.toRat]
  · set_option maxRecDepth 20000 in decide
  · set_option maxRecDepth 20000 in decide

/-- C5, amended: for a filtered result with `totalStmts > 0` the run passes (exit code 0) if
and only if the threshold is not above the `float64` percentage that `main` computes, that is
the threshold is NaN, or minus infinity, or a finite value at most the value of
`float64(covered) / float64(total) * 100` with each operation rounded; a threshold equal to
the computed percentage passes. -/
theorem threshold_decision (filtered : List CoverBlock) (threshold : Float64)
    (h : 0 < totalStmts filtered) :
    (exitCode filtered threshold = 0
      ↔ (threshold = Float64.nan ∨ threshold = Float64.inf true
          ∨ ∃ t, threshold = Float64.finite t
              ∧ t.toRat ≤ (coveragePercent (coveredStmts filtered) (totalStmts filtered)).toRat))
    ∧ exitCode filtered
        (Float64.finite (coveragePercent (coveredStmts filtered) (totalStmts filtered))) = 0 := by
  constructor
  · rw [exitCode_eq_zero_iff filtered threshold h]
    cases threshold with
    | nan => simp [ltFloat]
    | inf negative => cases negative <;> simp [ltFloat]
    | finite t =>
      simp only [ltFloat, reduceCtorEq, false_or, Float64.finite.injEq, exists_eq_left']
      rw [← not_lt, ← Finite64.lt_iff_toRat]
      simp
  · rw [exitCode_eq_zero_iff filtered _ h]
    simp only [ltFloat]
    rw [← Bool.not_eq_true, Finite64.lt_iff_toRat]
    exact lt_irrefl _

/-- C5, the amended rule at 4 covered statements out of 5 against the threshold 80: the
computed percentage is exactly 80 and the run passes. -/
theorem threshold_decision_witness :
    0 < totalStmts ratio80Blocks
    ∧ coveragePercent (coveredStmts ratio80Blocks) (totalStmts ratio80Blocks)
        = { m := 5629499534213120, e := -46 }
    ∧ exitCode ratio80Blocks (Float64.finite { m := 80, e := 0 }) = 0
    ∧ ((exitCode ratio80Blocks (Float64.finite { m := 80, e := 0 }) = 0
      ↔ (Float64.finite { m := 80, e := 0 } = Float64.nan
          ∨ Float64.finite { m := 80, e := 0 } = Float64.inf true
          ∨ ∃ t, Float64.finite { m := 80, e := 0 } = Float64.finite t
              ∧ t.toRat ≤ (coveragePercent (coveredStmts ratio80Blocks)
                  (totalStmts ratio80Blocks)).toRat))
    ∧ exitCode ratio80Blocks
        (Float64.finite (coveragePercent (coveredStmts ratio80Blocks)
          (totalStmts ratio80Blocks))) = 0) :=
  ⟨by decide, by set_option maxRecDepth 20000 in decide,
    by set_option maxRecDepth 20000 in decide,
    threshold_decision ratio80Blocks (Float64.finite { m := 80, e := 0 }) (by decide)⟩

theorem indexKeys_ensureFile (file : String) (changed : ChangedIndex) :
    indexKeys (ensureFile file changed)
      = if file ∈ indexKeys changed then indexKeys changed else indexKeys changed ++ [file] := by
  unfold ensureFile
  cases h : lookupFile file changed with
  | none =>
    have := (lookupFile_eq_none_iff file changed).mp h
    rw [if_neg this]
    simp [indexKeys]
  | some v =>
    have : file ∈ indexKeys changed := by
      by_contra hn
      rw [(lookupFile_eq_none_iff file changed).mpr hn] at h
      cases h
    simp [this]

theorem indexKeys_markLine (file : String) (n : Int) (changed : ChangedIndex) :
    indexKeys (markLine file n changed) = indexKeys changed := by
  induction changed with
  | nil => rfl
  | cons entry rest ih =>
    obtain ⟨k, v⟩ := entry
    unfold markLine
    by_cases h : k = file
    · simp [h, indexKeys]
    · rw [if_neg h]
      simp only [indexKeys, List.map_cons] at ih ⊢
      rw [ih]

theorem lookupFile_append_of_mem (file : String) (changed extra : ChangedIndex)
    (h : file ∈ indexKeys changed) :
    lookupFile file (changed ++ extra) = lookupFile file changed := by
  induction changed with
  | nil => simp [indexKeys] at h
  | cons entry rest ih =>
    obtain ⟨k, v⟩ := entry
    simp only [List.cons_append, lookupFile]
    by_cases hk : k = file
    · simp [hk]
    · rw [if_neg hk, if_neg hk]
      apply ih
      simp only [indexKeys, List.map_cons, List.mem_cons] at h
      rcases h with h | h
      · exact absurd h.symm hk
      · exact h

theorem lookupFile_append_of_not_mem (file : String) (changed extra : ChangedIndex)
    (h : file ∉ indexKeys changed) :
    lookupFile file (changed ++ extra) = lookupFile file extra := by
  induction changed with
  | nil => rfl
  | cons entry rest ih =>
    obtain ⟨k, v⟩ := entry
    simp only [indexKeys, List.map_cons, List.mem_cons, not_or] at h
    simp only [List.cons_append, lookupFile]
    rw [if_neg (fun e => h.1 e.symm)]
    exact ih h.2

theorem lookupFile_ensureFile_self (file : String) (changed : ChangedIndex) :
    lookupFile file (ensureFile file changed)
      = some ((lookupFile file changed).getD []) := by
  unfold ensureFile
  cases h : lookupFile file changed with
  | none =>
    simp only [Option.getD_none]
    rw [lookupFile_append_of_not_mem _ _ _ ((lookupFile_eq_none_iff file changed).mp h)]
    simp [lookupFile]
  | some v => simp [h]

theorem lookupFile_ensureFile_of_ne (file other : String) (changed : ChangedIndex)
    (h : other ≠ file) :
    lookupFile file (ensureFile other changed) = lookupFile file changed := by
  unfold ensureFile
  cases lookupFile other changed with
  | some v => rfl
  | none =>
    by_cases hm : file ∈ indexKeys changed
    · exact lookupFile_append_of_mem _ _ _ hm
    · rw [lookupFile_append_of_not_mem _ _ _ hm, (lookupFile_eq_none_iff file changed).mpr hm]
      simp [lookupFile, h]

theorem lookupFile_markLine_of_ne (file other : String) (n : Int) (changed : ChangedIndex)
    (h : other ≠ file) :
    lookupFile file (markLine other n changed) = lookupFile file changed := by
  induction changed with
  | nil => rfl
  | cons entry rest ih =>
    obtain ⟨k, v⟩ := entry
    unfold markLine
    by_cases hk : k = other
    · subst hk
      simp [lookupFile, h]
    · rw [if_neg hk]
      simp only [lookupFile]
      by_cases hf : k = file
      · simp [hf]
      · rw [if_neg hf, if_neg hf, ih]

theorem lookupFile_markLine_self (file : String) (n : Int) (changed : ChangedIndex) :
    lookupFile file (markLine file n changed)
      = (lookupFile file changed).map (fun v => if n ∈ v then v else v ++ [n]) := by
  induction changed with
  | nil => rfl
  | cons entry rest ih =>
    obtain ⟨k, v⟩ := entry
    unfold markLine
    by_cases hk : k = file
    · simp [hk, lookupFile]
    · rw [if_neg hk]
      simp only [lookupFile]
      rw [if_neg hk, if_neg hk, ih]
theorem expectLit_eq_some_iff (lit s r : List Char) :
    expectLit lit s = some r ↔ s = lit ++ r := by
  unfold expectLit
  constructor
  · intro h
    by_cases hp : hasPrefix s lit = true
    · rw [if_pos hp] at h
      obtain ⟨t, ht⟩ := (hasPrefix_iff s lit).mp hp
      subst ht
      simp only [Option.some.injEq, List.drop_left] at h
      rw [h]
    · rw [if_neg hp] at h
      cases h
  · intro h
    subst h
    have hp : hasPrefix (lit ++ r) lit = true := (hasPrefix_iff _ _).mpr ⟨r, rfl⟩
    rw [if_pos hp]
    simp

theorem expectLit_eq_none_iff (lit s : List Char) :
    expectLit lit s = none ↔ hasPrefix s lit = false := by
  unfold expectLit
  by_cases hp : hasPrefix s lit = true
  · simp [hp]
  · simp [hp]

theorem takeWhile_ne_of_not_mem (c : Char) (s : List Char) (h : c ∉ s) :
    s.takeWhile (fun x => x ≠ c) = s := by
  induction s with
  | nil => rfl
  | cons a as ih =>
    simp only [List.mem_cons, not_or] at h
    rw [List.takeWhile_cons]
    have : a ≠ c := fun e => h.1 e.symm
    rw [ih h.2]
    simp [this]

theorem fileRegexMatch_eq_some_iff (line : String) (hnl : newlineFree line) (path : String) :
    fileRegexMatch line.data = some path.data ↔ isFileHeader line path := by
  unfold fileRegexMatch isFileHeader
  unfold newlineFree at hnl
  constructor
  · intro h
    cases he : expectLit "+++ b/".data line.data with
    | none => rw [he] at h; cases h
    | some rest =>
      rw [he] at h
      have hl := (expectLit_eq_some_iff _ _ _).mp he
      have hr : Char.ofNat 10 ∉ rest := by
        intro hm
        apply hnl
        rw [hl]
        exact List.mem_append_right _ hm
      simp only [takeWhile_ne_of_not_mem _ _ hr] at h
      by_cases hne : rest = []
      · rw [if_pos hne] at h; cases h
      · rw [if_neg hne] at h
        simp only [Option.some.injEq] at h
        subst h
        constructor
        · apply String.ext
          rw [String.data_append]
          exact hl
        · intro hp
          apply hne
          rw [hp]
  · rintro ⟨hl, hp⟩
    have hd : line.data = "+++ b/".data ++ path.data := by
      rw [hl, String.data_append]
    have he := (expectLit_eq_some_iff "+++ b/".data line.data path.data).mpr hd
    rw [he]
    have hr : Char.ofNat 10 ∉ path.data := by
      intro hm
      apply hnl
      rw [hd]
      exact List.mem_append_right _ hm
    simp only [takeWhile_ne_of_not_mem _ _ hr]
    have hne : path.data ≠ [] := by
      intro h
      apply hp
      apply String.ext
      rw [h]
    rw [if_neg hne]

theorem indexKeys_diffStep (st : DiffState) (line : String) :
    indexKeys (diffStep st line).changed
      = match fileRegexMatch line.data with
        | some path =>
          if String.mk path ∈ indexKeys st.changed then indexKeys st.changed
          else indexKeys st.changed ++ [String.mk path]
        | none => indexKeys st.changed := by
  unfold diffStep
  cases fileRegexMatch line.data with
  | some path => simp only [indexKeys_ensureFile]
  | none =>
    simp only []
    cases hunkRegexMatch line.data with
    | some g => rfl
    | none =>
      simp only []
      split_ifs <;> simp [indexKeys_markLine]

theorem mem_indexKeys_diffRun (lines : List String) :
    ∀ (st : DiffState) (path : String),
      path ∈ indexKeys (diffRun st lines).changed
        ↔ path ∈ indexKeys st.changed
          ∨ ∃ l ∈ lines, fileRegexMatch l.data = some path.data := by
  induction lines with
  | nil => intro st path; simp [diffRun]
  | cons l ls ih =>
    intro st path
    have hrun : diffRun st (l :: ls) = diffRun (diffStep st l) ls := rfl
    rw [hrun, ih, indexKeys_diffStep]
    cases hm : fileRegexMatch l.data with
    | none => simp [hm]
    | some p =>
      simp only [List.mem_cons, exists_eq_or_imp, hm, Option.some.injEq]
      have hp : (p = path.data) ↔ (path = String.mk p) := by
        constructor
        · intro h; subst h; rfl
        · intro h; subst h; rfl
      by_cases hk : String.mk p ∈ indexKeys st.changed
      · rw [if_pos hk, hp]
        constructor
        · rintro (h | h)
          · exact Or.inl h
          · exact Or.inr (Or.inr h)
        · rintro (h | h | h)
          · exact Or.inl h
          · subst h; exact Or.inl hk
          · exact Or.inr h
      · rw [if_neg hk, hp]
        simp only [List.mem_append, List.mem_singleton]
        tauto
theorem diffRun_append (st : DiffState) (xs ys : List String) :
    diffRun st (xs ++ ys) = diffRun (diffRun st xs) ys := by
  unfold diffRun
  rw [List.foldl_append]

theorem lastHeader_append_singleton (xs : List String) (l : String) :
    lastHeader (xs ++ [l])
      = match fileRegexMatch l.data with
        | some path => some (String.mk path)
        | none => lastHeader xs := by
  induction xs with
  | nil =>
    simp only [List.nil_append, lastHeader]
    cases fileRegexMatch l.data <;> rfl
  | cons x rest ih =>
    have hc : lastHeader (x :: rest ++ [l])
        = match lastHeader (rest ++ [l]) with
          | some path => some path
          | none => (fileRegexMatch x.data).map String.mk := rfl
    rw [hc, ih]
    cases fileRegexMatch l.data with
    | some p => rfl
    | none => rfl

theorem nodup_indexKeys_diffStep (st : DiffState) (line : String)
    (h : (indexKeys st.changed).Nodup) : (indexKeys (diffStep st line).changed).Nodup := by
  rw [indexKeys_diffStep]
  cases fileRegexMatch line.data with
  | none => exact h
  | some p =>
    simp only []
    by_cases hk : String.mk p ∈ indexKeys st.changed
    · rw [if_pos hk]; exact h
    · rw [if_neg hk]
      rw [List.nodup_append]
      refine ⟨h, List.nodup_singleton _, ?_⟩
      intro a ha hb
      simp only [List.mem_singleton] at hb
      subst hb
      exact hk ha

theorem nodup_indexKeys_diffRun (lines : List String) :
    ∀ st : DiffState, (indexKeys st.changed).Nodup →
      (indexKeys (diffRun st lines).changed).Nodup := by
  induction lines with
  | nil => intro st h; exact h
  | cons l ls ih =>
    intro st h
    exact ih _ (nodup_indexKeys_diffStep st l h)

theorem diffStep_currentFile (st : DiffState) (line : String) :
    (diffStep st line).currentFile
      = match fileRegexMatch line.data with
        | some path => String.mk path
        | none => st.currentFile := by
  unfold diffStep
  cases fileRegexMatch line.data with
  | some path => rfl
  | none =>
    simp only []
    cases hunkRegexMatch line.data with
    | some g => rfl
    | none =>
      simp only []
      split_ifs <;> rfl

theorem fileRegexMatch_ne_nil (s p : List Char) (h : fileRegexMatch s = some p) : p ≠ [] := by
  unfold fileRegexMatch at h
  cases he : expectLit "+++ b/".data s with
  | none => rw [he] at h; cases h
  | some rest =>
    rw [he] at h
    by_cases hne : rest.takeWhile (fun c => c ≠ Char.ofNat 10) = []
    · simp only [hne] at h
      cases h
    · simp only [hne, if_false, Option.some.injEq] at h
      rw [← h]
      exact hne

theorem currentFile_diffRun (lines : List String) :
    (diffRun DiffState.init lines).currentFile = (lastHeader lines).getD "" := by
  induction lines using List.reverseRecOn with
  | nil => rfl
  | append_singleton xs l ih =>
    rw [diffRun_append]
    change (diffStep (diffRun DiffState.init xs) l).currentFile = _
    rw [diffStep_currentFile, lastHeader_append_singleton, ih]
    cases fileRegexMatch l.data <;> rfl

theorem lastHeader_ne_empty (lines : List String) (path : String)
    (h : lastHeader lines = some path) : path ≠ "" := by
  induction lines with
  | nil => cases h
  | cons l ls ih =>
    simp only [lastHeader] at h
    cases hl : lastHeader ls with
    | some q =>
      rw [hl] at h
      simp only [Option.some.injEq] at h
      subst h
      exact ih hl
    | none =>
      rw [hl] at h
      cases hm : fileRegexMatch l.data with
      | none => rw [hm] at h; cases h
      | some p =>
        rw [hm] at h
        simp only [Option.map_some', Option.some.injEq] at h
        subst h
        intro he
        have := fileRegexMatch_ne_nil _ _ hm
        apply this
        have hd : (String.mk p).data = ("" : String).data := by rw [he]
        exact hd

theorem isAddedLine_of_step (line : String)
    (h : hasPrefix line.data "+".data = true ∧ ¬ hasPrefix line.data "+++".data = true) :
    isAddedLine line := by
  unfold isAddedLine
  refine ⟨h.1, ?_⟩
  cases hb : hasPrefix line.data "+++".data
  · rfl
  · exact absurd hb h.2

theorem lookupFile_diffRun_untouched (path : String) (lines : List String) :
    (∀ pre l post, lines = pre ++ l :: post → isAddedLine l → lastHeader pre ≠ some path) →
    lookupFile path (diffRun DiffState.init lines).changed = none
      ∨ lookupFile path (diffRun DiffState.init lines).changed = some [] := by
  induction lines using List.reverseRecOn with
  | nil => intro _; left; rfl
  | append_singleton xs l ih =>
    intro hyp
    have ihx := ih (fun pre l0 post he ha => hyp pre l0 (post ++ [l]) (by rw [he]; simp) ha)
    have hlast := hyp xs l [] rfl
    rw [diffRun_append]
    change lookupFile path (diffStep (diffRun DiffState.init xs) l).changed = none ∨
      lookupFile path (diffStep (diffRun DiffState.init xs) l).changed = some []
    have hcur := currentFile_diffRun xs
    generalize diffRun DiffState.init xs = st at ihx hcur ⊢
    unfold diffStep
    cases hm : fileRegexMatch l.data with
    | some p =>
      simp only []
      by_cases hp : String.mk p = path
      · subst hp
        right
        rw [lookupFile_ensureFile_self]
        rcases ihx with h | h <;> simp [h]
      · rw [lookupFile_ensureFile_of_ne _ _ _ hp]
        exact ihx
    | none =>
      simp only []
      cases hunkRegexMatch l.data with
      | some g => exact ihx
      | none =>
        simp only []
        split_ifs with h1 h2 h3 h4
        · have hadd := hlast (isAddedLine_of_step l h1)
          have hne : st.currentFile ≠ path := by
            intro he
            cases hl : lastHeader xs with
            | none =>
              rw [hl] at hcur
              simp only [Option.getD_none] at hcur
              exact h2 hcur
            | some q =>
              rw [hl] at hcur hadd
              simp only [Option.getD_some] at hcur
              apply hadd
              rw [← hcur, he]
          simp only []
          rw [lookupFile_markLine_of_ne _ _ _ _ hne]
          exact ihx
        · exact ihx
        · exact ihx
        · exact ihx
        · exact ihx
/-- The keys of the index that the loop of `parseDiff` builds from a sequence of lines are
exactly the paths of the file header lines and are pairwise distinct; a file none of whose
headers is followed by an added line before the next header maps to the empty set; every entry
belongs to a path whose header is among the lines. -/
theorem parseDiff_keys_of_lines (lines : List String) (hnl : ∀ l ∈ lines, newlineFree l) :
    (∀ path, path ∈ indexKeys (parseDiff lines) ↔ ∃ l ∈ lines, isFileHeader l path)
    ∧ (indexKeys (parseDiff lines)).Nodup
    ∧ (∀ path, (∃ l ∈ lines, isFileHeader l path) →
        (∀ pre l post, lines = pre ++ l :: post → isAddedLine l → lastHeader pre ≠ some path) →
        lookupFile path (parseDiff lines) = some [])
    ∧ (∀ path set, (path, set) ∈ parseDiff lines → ∃ l ∈ lines, isFileHeader l path) := by
  have hkeys : ∀ path, path ∈ indexKeys (parseDiff lines)
      ↔ ∃ l ∈ lines, isFileHeader l path := by
    intro path
    unfold parseDiff
    rw [mem_indexKeys_diffRun]
    simp only [DiffState.init, indexKeys, List.map_nil, List.not_mem_nil, false_or]
    constructor
    · rintro ⟨l, hl, hm⟩
      exact ⟨l, hl, (fileRegexMatch_eq_some_iff l (hnl l hl) path).mp hm⟩
    · rintro ⟨l, hl, hm⟩
      exact ⟨l, hl, (fileRegexMatch_eq_some_iff l (hnl l hl) path).mpr hm⟩
  refine ⟨hkeys, ?_, ?_, ?_⟩
  · exact nodup_indexKeys_diffRun lines DiffState.init (by simp [DiffState.init, indexKeys])
  · intro path hhead hno
    have hmem := (hkeys path).mpr hhead
    rcases lookupFile_diffRun_untouched path lines hno with h | h
    · exact absurd hmem ((lookupFile_eq_none_iff path _).mp h)
    · exact h
  · intro path set hmem
    apply (hkeys path).mp
    unfold indexKeys
    exact List.mem_map.mpr ⟨(path, set), hmem, rfl⟩

/-! ## strconv.Atoi -/

theorem utf8Size_of_isDigit (c : Char) (h : isDigit c = true) : c.utf8Size = 1 := by
  unfold isDigit at h
  simp only [Bool.and_eq_true, decide_eq_true_eq] at h
  unfold Char.utf8Size
  have : c.val ≤ 127 := by
    show c.val.toNat ≤ 127
    have : c.toNat = c.val.toNat := rfl
    omega
  simp [this]

theorem byteLen_of_digits (s : List Char) (h : ∀ c ∈ s, isDigit c = true) :
    byteLen s = s.length := by
  induction s with
  | nil => rfl
  | cons a as ih =>
    unfold byteLen at ih ⊢
    simp only [List.map_cons, List.sum_cons, List.length_cons]
    rw [ih (fun c hc => h c (List.mem_cons_of_mem _ hc)),
      utf8Size_of_isDigit a (h a (List.mem_cons_self _ _))]
    omega

theorem decimalLoop_ge (s : List Char) : ∀ n, n ≤ decimalLoop s n := by
  induction s with
  | nil => intro n; exact le_refl _
  | cons a as ih =>
    intro n
    unfold decimalLoop
    have := ih (n * 10 + digitVal a)
    omega

theorem atoiFastLoop_eq (s : List Char) (h : ∀ c ∈ s, isDigit c = true) :
    ∀ n : Nat, atoiFastLoop s (n : Int) = some ((decimalLoop s n : Nat) : Int) := by
  induction s with
  | nil => intro n; rfl
  | cons a as ih =>
    intro n
    unfold atoiFastLoop decimalLoop
    rw [if_pos (h a (List.mem_cons_self _ _))]
    have := ih (fun c hc => h c (List.mem_cons_of_mem _ hc)) (n * 10 + digitVal a)
    rw [← this]
    push_cast
    rfl

theorem parseUintLoop_eq (s : List Char) (h : ∀ c ∈ s, isDigit c = true) :
    ∀ n : Nat, decimalLoop s n ≤ 18446744073709551615 →
      parseUintLoop s n = UintResult.ok (decimalLoop s n) := by
  induction s with
  | nil => intro n _; rfl
  | cons a as ih =>
    intro n hb
    unfold parseUintLoop
    unfold decimalLoop at hb ⊢
    rw [if_pos (h a (List.mem_cons_self _ _))]
    have hge := decimalLoop_ge as (n * 10 + digitVal a)
    rw [if_neg (by omega), if_neg (by omega)]
    exact ih (fun c hc => h c (List.mem_cons_of_mem _ hc)) _ hb
theorem not_sign_of_isDigit (c : Char) (h : isDigit c = true) : ¬ (c = '-' ∨ c = '+') := by
  rintro (rfl | rfl)
  · exact absurd h (by decide)
  · exact absurd h (by decide)

theorem atoi_digits (s : List Char) (h : isDigits s)
    (hv : (decimalValue s : Int) ≤ maxInt) : atoi s = (decimalValue s : Int) := by
  obtain ⟨hne, hd⟩ := h
  cases s with
  | nil => exact absurd rfl hne
  | cons c cs =>
    have hc := hd c (List.mem_cons_self _ _)
    have hsign := not_sign_of_isDigit c hc
    have hsign2 : ¬ (c = '+' ∨ c = '-') := fun h => hsign (Or.symm h)
    have hminus : c ≠ '-' := fun e => hsign (Or.inl e)
    unfold atoi
    by_cases hlen : 0 < byteLen (c :: cs) ∧ byteLen (c :: cs) < 19
    · rw [if_pos hlen]
      simp only [if_neg hsign]
      rw [if_neg (List.cons_ne_nil _ _)]
      have := atoiFastLoop_eq (c :: cs) hd 0
      simp only [Nat.cast_zero] at this
      rw [this]
      simp only [if_neg hminus]
      rfl
    · rw [if_neg hlen]
      unfold parseInt
      simp only [if_neg hsign2]
      unfold parseUint
      rw [if_neg (List.cons_ne_nil _ _)]
      unfold maxInt at hv
      have hb : decimalLoop (c :: cs) 0 ≤ 18446744073709551615 := by
        unfold decimalValue at hv
        omega
      rw [parseUintLoop_eq (c :: cs) hd 0 hb]
      simp only [decide_eq_true_eq, hminus, decide_False]
      unfold decimalValue at hv
      rw [if_neg (by omega), if_neg (by simp)]
      simp [decimalValue]

theorem atoi_minus_digits (s : List Char) (h : isDigits s)
    (hv : minInt ≤ -(decimalValue s : Int)) : atoi ('-' :: s) = -(decimalValue s : Int) := by
  obtain ⟨hne, hd⟩ := h
  unfold atoi
  by_cases hlen : 0 < byteLen ('-' :: s) ∧ byteLen ('-' :: s) < 19
  · rw [if_pos hlen]
    simp only [true_or, if_true]
    rw [if_neg hne]
    have := atoiFastLoop_eq s hd 0
    simp only [Nat.cast_zero] at this
    rw [this]
    simp [decimalValue]
  · rw [if_neg hlen]
    unfold parseInt
    simp only [or_true, if_true]
    unfold parseUint
    rw [if_neg hne]
    unfold minInt at hv
    unfold decimalValue at hv
    have hb : decimalLoop s 0 ≤ 18446744073709551615 := by omega
    rw [parseUintLoop_eq s hd 0 hb]
    simp only [decide_True]
    rw [if_neg (by simp), if_neg (by omega)]
    simp [decimalValue]

theorem atoi_numeral (x : Numeral) (h : x.fitsInt) : atoi x.text = x.value := by
  obtain ⟨hd, hmin, hmax⟩ := h
  unfold Numeral.text Numeral.value at *
  cases hn : x.negative with
  | false =>
    rw [hn] at hmax
    simp only [Bool.false_eq_true, if_false, List.nil_append] at hmax ⊢
    exact atoi_digits x.digits hd hmax
  | true =>
    rw [hn] at hmin
    simp only [if_true, List.singleton_append] at hmin ⊢
    exact atoi_minus_digits x.digits hd hmin

/-! ## parseDiff: line numbering -/

theorem takeWhile_dropWhile_append (p : Char → Bool) (ds rest : List Char)
    (hd : ∀ c ∈ ds, p c = true) (hr : ∀ c r, rest = c :: r → p c = false) :
    (ds ++ rest).takeWhile p = ds ∧ (ds ++ rest).dropWhile p = rest := by
  induction ds with
  | nil =>
    cases rest with
    | nil => exact ⟨rfl, rfl⟩
    | cons c r =>
      have := hr c r rfl
      simp [List.takeWhile_cons, List.dropWhile_cons, this]
  | cons a as ih =>
    have ha := hd a (List.mem_cons_self _ _)
    have := ih (fun c hc => hd c (List.mem_cons_of_mem _ hc))
    simp [List.takeWhile_cons, List.dropWhile_cons, ha, this.1, this.2]

theorem digits1_append (ds rest : List Char) (hd : isDigits ds)
    (hr : ∀ c r, rest = c :: r → isDigit c = false) :
    digits1 (ds ++ rest) = some (ds, rest) := by
  unfold digits1
  obtain ⟨h1, h2⟩ := takeWhile_dropWhile_append isDigit ds rest hd.2 hr
  rw [h1, h2, if_neg hd.1]

theorem optCommaDigits_countText (count : Option (List Char)) (rest : List Char)
    (hc : countOk count) :
    optCommaDigits (countText count ++ (' ' :: rest)) = ' ' :: rest := by
  cases count with
  | none => rfl
  | some c =>
    have hr : ∀ (x : Char) (r : List Char), ' ' :: rest = x :: r → isDigit x = false := by
      intro x r h
      simp only [List.cons.injEq] at h
      rw [← h.1]
      decide
    have := digits1_append c (' ' :: rest) hc hr
    simp only [countText, List.cons_append, optCommaDigits, this]

theorem hunkAt_text (h : HunkHeader) (hw : h.wellFormed) :
    hunkAt h.text.data = some h.newStart := by
  obtain ⟨h1, h2, h3, h4⟩ := hw
  have hsp : ∀ (rest : List Char) (x : Char) (r : List Char),
      ' ' :: rest = x :: r → isDigit x = false := by
    intro rest x r h
    simp only [List.cons.injEq] at h
    rw [← h.1]
    decide
  have hcm : ∀ (rest : List Char) (x : Char) (r : List Char),
      ',' :: rest = x :: r → isDigit x = false := by
    intro rest x r h
    simp only [List.cons.injEq] at h
    rw [← h.1]
    decide
  have stop : ∀ (count : Option (List Char)) (rest : List Char) (x : Char) (r : List Char),
      countText count ++ (' ' :: rest) = x :: r → isDigit x = false := by
    intro count rest x r
    cases count with
    | none => exact hsp rest x r
    | some c => exact hcm _ x r
  unfold hunkAt HunkHeader.text
  simp only []
  rw [(expectLit_eq_some_iff _ _ _).mpr rfl]
  simp only []
  have e1 : (" +".data ++ (h.newStart ++ (countText h.newCount ++ (" @@".data ++ h.tail))))
      = ' ' :: ('+' :: (h.newStart ++ (countText h.newCount ++ (" @@".data ++ h.tail)))) := rfl
  have e2 : (" @@".data ++ h.tail) = ' ' :: ('@' :: '@' :: h.tail) := rfl
  rw [e1, digits1_append h.oldStart _ h1 (stop h.oldCount _)]
  simp only []
  rw [optCommaDigits_countText h.oldCount _ h2]
  have e3 : ' ' :: ('+' :: (h.newStart ++ (countText h.newCount ++ (" @@".data ++ h.tail))))
      = " +".data ++ (h.newStart ++ (countText h.newCount ++ (" @@".data ++ h.tail))) := rfl
  rw [e3, (expectLit_eq_some_iff _ _ _).mpr rfl]
  simp only []
  rw [e2, digits1_append h.newStart _ h3 (stop h.newCount _)]
  simp only []
  rw [optCommaDigits_countText h.newCount _ h4]
  have e4 : ' ' :: ('@' :: '@' :: h.tail) = " @@".data ++ h.tail := rfl
  rw [e4, (expectLit_eq_some_iff _ _ _).mpr rfl]

theorem hunkRegexMatch_text (h : HunkHeader) (hw : h.wellFormed) :
    hunkRegexMatch h.text.data = some h.newStart := by
  have ht := hunkAt_text h hw
  have hd : h.text.data = '@' :: ('@' :: ' ' :: '-' :: (h.oldStart ++ (countText h.oldCount ++
      (" +".data ++ (h.newStart ++ (countText h.newCount ++ (" @@".data ++ h.tail))))))) := rfl
  rw [hd] at ht ⊢
  unfold hunkRegexMatch
  rw [ht]
theorem hasPrefix_head_ne (a b : Char) (s p : List Char) (h : a ≠ b) :
    hasPrefix (a :: s) (b :: p) = false := by
  unfold hasPrefix
  simp [h]

theorem hasPrefix_cons_self (a : Char) (s p : List Char) :
    hasPrefix (a :: s) (a :: p) = hasPrefix s p := by
  unfold hasPrefix
  simp

theorem head_of_hasPrefix_singleton (c : Char) (s : List Char)
    (h : hasPrefix s [c] = true) : ∃ rest, s = c :: rest := by
  obtain ⟨t, ht⟩ := (hasPrefix_iff s [c]).mp h
  exact ⟨t, ht.symm⟩

theorem fileRegexMatch_eq_none_of_head (c : Char) (rest : List Char) (h : c ≠ '+') :
    fileRegexMatch (c :: rest) = none := by
  unfold fileRegexMatch
  have : expectLit "+++ b/".data (c :: rest) = none := by
    rw [expectLit_eq_none_iff]
    exact hasPrefix_head_ne _ _ _ _ h
  rw [this]

theorem fileRegexMatch_eq_none_of_not_plus3 (s : List Char)
    (h : hasPrefix s "+++".data = false) : fileRegexMatch s = none := by
  unfold fileRegexMatch
  have : expectLit "+++ b/".data s = none := by
    rw [expectLit_eq_none_iff]
    cases hp : hasPrefix s "+++ b/".data with
    | false => rfl
    | true =>
      obtain ⟨t, ht⟩ := (hasPrefix_iff _ _).mp hp
      have : hasPrefix s "+++".data = true :=
        (hasPrefix_iff _ _).mpr ⟨" b/".data ++ t, by rw [← ht]; rfl⟩
      rw [this] at h
      cases h
  rw [this]

theorem diffStep_context (st : DiffState) (line : String) (hc : isContextLine line)
    (hh : hunkRegexMatch line.data = none) :
    diffStep st line = { st with newLineNum := wrap64 (st.newLineNum + 1) } := by
  obtain ⟨rest, hr⟩ := head_of_hasPrefix_singleton ' ' line.data hc
  unfold diffStep
  rw [hh, hr, fileRegexMatch_eq_none_of_head ' ' rest (by decide)]
  have h1 : hasPrefix (' ' :: rest) "+".data = false := hasPrefix_head_ne _ _ _ _ (by decide)
  have h2 : hasPrefix (' ' :: rest) "-".data = false := hasPrefix_head_ne _ _ _ _ (by decide)
  have h3 : hasPrefix (' ' :: rest) "@@".data = false := hasPrefix_head_ne _ _ _ _ (by decide)
  simp [h1, h2, h3]

theorem diffStep_removed (st : DiffState) (line : String) (hc : isRemovedLine line)
    (hh : hunkRegexMatch line.data = none) : diffStep st line = st := by
  obtain ⟨rest, hr⟩ := head_of_hasPrefix_singleton '-' line.data hc.1
  have h3 := hc.2
  unfold diffStep
  rw [hh]
  rw [hr] at h3 ⊢
  rw [fileRegexMatch_eq_none_of_head '-' rest (by decide)]
  have h1 : hasPrefix ('-' :: rest) "+".data = false := hasPrefix_head_ne _ _ _ _ (by decide)
  have h2 : hasPrefix ('-' :: rest) "-".data = true := (hasPrefix_iff _ _).mpr ⟨rest, rfl⟩
  simp [h1, h2, h3]

theorem diffStep_added (st : DiffState) (line : String) (hc : isAddedLine line)
    (hh : hunkRegexMatch line.data = none) :
    diffStep st line
      = { st with
          changed := if st.currentFile ≠ "" then markLine st.currentFile st.newLineNum st.changed
                     else st.changed
          newLineNum := wrap64 (st.newLineNum + 1) } := by
  unfold diffStep
  rw [hh, fileRegexMatch_eq_none_of_not_plus3 _ hc.2]
  simp [hc.1, hc.2]

theorem not_added_of_context (line : String) (hc : isContextLine line) : ¬ isAddedLine line := by
  obtain ⟨rest, hr⟩ := head_of_hasPrefix_singleton ' ' line.data hc
  intro ha
  have := ha.1
  rw [hr, hasPrefix_head_ne _ _ _ _ (by decide)] at this
  cases this

theorem not_advances_of_removed (line : String) (hc : isRemovedLine line) :
    advancesCursor line = false := by
  obtain ⟨rest, hr⟩ := head_of_hasPrefix_singleton '-' line.data hc.1
  have h1 : ¬ isContextLine line := by
    unfold isContextLine
    rw [hr, hasPrefix_head_ne '-' ' ' _ _ (by decide)]
    simp
  have h2 : ¬ isAddedLine line := by
    unfold isAddedLine
    rw [hr, hasPrefix_head_ne '-' '+' _ _ (by decide)]
    simp
  simp [advancesCursor, h1, h2]
theorem added_split_cons (l : String) (ls : List String) (n k : Int) :
    (∃ pre l1 post, l :: ls = pre ++ l1 :: post ∧ isAddedLine l1
        ∧ k = n + (pre.countP advancesCursor : Nat))
      ↔ (isAddedLine l ∧ k = n)
        ∨ ∃ pre l1 post, ls = pre ++ l1 :: post ∧ isAddedLine l1
            ∧ k = n + (if advancesCursor l = true then 1 else 0)
                + (pre.countP advancesCursor : Nat) := by
  constructor
  · rintro ⟨pre, l1, post, he, ha, hk⟩
    cases pre with
    | nil =>
      simp only [List.nil_append, List.cons.injEq] at he
      left
      rw [he.1]
      exact ⟨ha, by simpa using hk⟩
    | cons p ps =>
      simp only [List.cons_append, List.cons.injEq] at he
      right
      refine ⟨ps, l1, post, he.2, ha, ?_⟩
      rw [hk, ← he.1, List.countP_cons]
      by_cases hadv : advancesCursor l = true
      · simp only [hadv, if_true]
        push_cast
        ring
      · simp only [hadv, if_false]
        push_cast
        ring
  · rintro (⟨ha, hk⟩ | ⟨pre, l1, post, he, ha, hk⟩)
    · exact ⟨[], l, ls, rfl, ha, by simpa using hk⟩
    · refine ⟨l :: pre, l1, post, by rw [he]; rfl, ha, ?_⟩
      rw [hk, List.countP_cons]
      by_cases hadv : advancesCursor l = true
      · simp only [hadv, if_true]
        push_cast
        ring
      · simp only [hadv, if_false]
        push_cast
        ring

theorem diffRun_body (path : String) (hp : path ≠ "") :
    ∀ (body : List String) (st : DiffState) (v : List Int),
      st.currentFile = path → lookupFile path st.changed = some v →
      (∀ l ∈ body, isBodyLine l) → minInt ≤ st.newLineNum →
      st.newLineNum + (body.countP advancesCursor : Nat) ≤ maxInt →
      (diffRun st body).currentFile = path
      ∧ indexKeys (diffRun st body).changed = indexKeys st.changed
      ∧ ∃ v1, lookupFile path (diffRun st body).changed = some v1
          ∧ ∀ k, k ∈ v1 ↔ k ∈ v ∨ ∃ pre l post, body = pre ++ l :: post ∧ isAddedLine l
                ∧ k = st.newLineNum + (pre.countP advancesCursor : Nat) := by
  intro body
  induction body with
  | nil =>
    intro st v hcur hv _ _ _
    refine ⟨hcur, rfl, v, hv, ?_⟩
    intro k
    simp [diffRun]
  | cons l ls ih =>
    intro st v hcur hv hbody hmin hmax
    have hl := hbody l (List.mem_cons_self _ _)
    have hrest : ∀ x ∈ ls, isBodyLine x := fun x hx => hbody x (List.mem_cons_of_mem _ hx)
    have hrun : diffRun st (l :: ls) = diffRun (diffStep st l) ls := rfl
    rw [hrun]
    rw [List.countP_cons] at hmax
    obtain ⟨hkind, hh⟩ := hl
    have hwrap : advancesCursor l = true → wrap64 (st.newLineNum + 1) = st.newLineNum + 1 := by
      intro hadv
      apply wrap64_of_isInt64
      simp only [hadv, if_true] at hmax
      push_cast at hmax
      unfold isInt64
      unfold minInt at hmin ⊢
      unfold maxInt at hmax ⊢
      omega
    rcases hkind with hc | ha | hr
    · have hadv : advancesCursor l = true := by simp [advancesCursor, hc]
      rw [diffStep_context st l hc hh, hwrap hadv]
      simp only [hadv, if_true] at hmax
      push_cast at hmax
      obtain ⟨h1, h2, v1, h3, h4⟩ := ih { st with newLineNum := st.newLineNum + 1 } v hcur hv
        hrest (by simp only []; unfold minInt at hmin ⊢; omega) (by simp only []; omega)
      refine ⟨h1, h2, v1, h3, ?_⟩
      intro k
      rw [h4 k, added_split_cons l ls st.newLineNum k]
      simp only [hadv, if_true]
      have := not_added_of_context l hc
      tauto
    · have hadv : advancesCursor l = true := by simp [advancesCursor, ha]
      rw [diffStep_added st l ha hh, hwrap hadv]
      simp only [hadv, if_true] at hmax
      push_cast at hmax
      have hne : st.currentFile ≠ "" := by rw [hcur]; exact hp
      rw [if_pos hne]
      have hv1 : lookupFile path (markLine st.currentFile st.newLineNum st.changed)
          = some (if st.newLineNum ∈ v then v else v ++ [st.newLineNum]) := by
        rw [hcur, lookupFile_markLine_self, hv]
        rfl
      obtain ⟨h1, h2, v1, h3, h4⟩ := ih
        { st with changed := markLine st.currentFile st.newLineNum st.changed,
                  newLineNum := st.newLineNum + 1 }
        _ hcur hv1 hrest (by simp only []; unfold minInt at hmin ⊢; omega)
        (by simp only []; omega)
      refine ⟨h1, by rw [h2]; exact indexKeys_markLine _ _ _, v1, h3, ?_⟩
      intro k
      rw [h4 k, added_split_cons l ls st.newLineNum k]
      simp only [hadv, if_true]
      have hmem : k ∈ (if st.newLineNum ∈ v then v else v ++ [st.newLineNum])
          ↔ k ∈ v ∨ k = st.newLineNum := by
        by_cases hin : st.newLineNum ∈ v
        · rw [if_pos hin]
          constructor
          · exact Or.inl
          · rintro (h | h)
            · exact h
            · rw [h]; exact hin
        · rw [if_neg hin]
          simp
      rw [hmem]
      tauto
    · have hadv : advancesCursor l = false := not_advances_of_removed l hr
      rw [diffStep_removed st l hr hh]
      simp only [hadv, Bool.false_eq_true, if_false] at hmax
      obtain ⟨h1, h2, v1, h3, h4⟩ := ih st v hcur hv hrest hmin (by omega)
      refine ⟨h1, h2, v1, h3, ?_⟩
      intro k
      rw [h4 k, added_split_cons l ls st.newLineNum k]
      simp only [hadv, Bool.false_eq_true, if_false, add_zero]
      have hna : ¬ isAddedLine l := by
        intro ha
        have : advancesCursor l = true := by simp [advancesCursor, ha]
        rw [hadv] at this
        cases this
      tauto
theorem eq_singleton_of_indexKeys (changed : ChangedIndex) (path : String) (v : List Int)
    (hk : indexKeys changed = [path]) (hv : lookupFile path changed = some v) :
    changed = [(path, v)] := by
  cases changed with
  | nil => cases hk
  | cons entry rest =>
    obtain ⟨k, w⟩ := entry
    simp only [indexKeys, List.map_cons, List.cons.injEq, List.map_eq_nil_iff] at hk
    obtain ⟨h1, h2⟩ := hk
    subst h1 h2
    simp only [lookupFile, if_true, Option.some.injEq] at hv
    rw [hv]

theorem diffStep_fileHeader (st : DiffState) (path : String) (hpath : path ≠ "")
    (hnl : newlineFree path) :
    diffStep st ("+++ b/" ++ path)
      = { st with currentFile := path, changed := ensureFile path st.changed } := by
  have hline : newlineFree ("+++ b/" ++ path) := by
    unfold newlineFree at hnl ⊢
    rw [String.data_append]
    intro hm
    rcases List.mem_append.mp hm with h | h
    · exact absurd h (by decide)
    · exact hnl h
  have hm := (fileRegexMatch_eq_some_iff ("+++ b/" ++ path) hline path).mpr ⟨rfl, hpath⟩
  unfold diffStep
  rw [hm]

theorem diffStep_hunkHeader (st : DiffState) (h : HunkHeader) (hw : h.wellFormed) :
    diffStep st h.text = { st with newLineNum := atoi h.newStart } := by
  have hd : h.text.data = '@' :: ('@' :: ' ' :: '-' :: (h.oldStart ++ (countText h.oldCount ++
      (" +".data ++ (h.newStart ++ (countText h.newCount ++ (" @@".data ++ h.tail))))))) := rfl
  have hf : fileRegexMatch h.text.data = none := by
    rw [hd]
    exact fileRegexMatch_eq_none_of_head '@' _ (by decide)
  unfold diffStep
  rw [hf, hunkRegexMatch_text h hw]

/-- The loop of `parseDiff` over a file header, a hunk header whose new-side start is `n` and
body lines, where `n` plus the number of context and added lines does not exceed the largest
`int`: the single entry of the path holds exactly the numbers
`n + (number of context and added lines before the added line)`, one for each added line. -/
theorem diff_line_numbering_of_lines (path : String) (hunk : HunkHeader) (body : List String)
    (hpath : path ≠ "") (hnl : newlineFree path) (hw : hunk.wellFormed)
    (hbody : ∀ l ∈ body, isBodyLine l)
    (hbound : (decimalValue hunk.newStart : Int) + (body.countP advancesCursor : Nat)
      ≤ maxInt) :
    ∃ set, parseDiff (("+++ b/" ++ path) :: hunk.text :: body) = [(path, set)]
      ∧ ∀ k, k ∈ set ↔ ∃ pre l post, body = pre ++ l :: post ∧ isAddedLine l
            ∧ k = (decimalValue hunk.newStart : Int) + (pre.countP advancesCursor : Nat) := by
  have hn : atoi hunk.newStart = (decimalValue hunk.newStart : Int) := by
    apply atoi_digits _ hw.2.2.1
    have : (0 : Int) ≤ (body.countP advancesCursor : Nat) := Int.natCast_nonneg _
    omega
  have hrun : parseDiff (("+++ b/" ++ path) :: hunk.text :: body)
      = (diffRun { changed := [(path, [])], currentFile := path,
                   newLineNum := (decimalValue hunk.newStart : Int) } body).changed := by
    unfold parseDiff
    have h1 : diffRun DiffState.init (("+++ b/" ++ path) :: hunk.text :: body)
        = diffRun (diffStep (diffStep DiffState.init ("+++ b/" ++ path)) hunk.text) body := rfl
    rw [h1, diffStep_fileHeader _ path hpath hnl, diffStep_hunkHeader _ hunk hw, hn]
    rfl
  have hlook : lookupFile path [(path, ([] : List Int))] = some [] := by
    simp [lookupFile]
  obtain ⟨_, h2, v1, h3, h4⟩ := diffRun_body path hpath body
    { changed := [(path, [])], currentFile := path,
      newLineNum := (decimalValue hunk.newStart : Int) } [] rfl hlook hbody
    (by simp only []; unfold minInt; omega) hbound
  refine ⟨v1, ?_, ?_⟩
  · rw [hrun]
    exact eq_singleton_of_indexKeys _ path v1 h2 h3
  · intro k
    rw [h4 k]
    simp

/-! ## parseCoverage -/

theorem fieldsLoop_word_space (w : List Char) (hw : ∀ c ∈ w, isSpace c = false) :
    ∀ (cur rest : List Char), cur ++ w ≠ [] →
      fieldsLoop cur (w ++ ' ' :: rest) = (cur ++ w) :: fieldsLoop [] rest := by
  induction w with
  | nil =>
    intro cur rest hne
    simp only [List.append_nil] at hne
    simp only [List.nil_append, List.append_nil, fieldsLoop]
    have : isSpace ' ' = true := by decide
    rw [if_pos this, if_neg hne]
  | cons a w ih =>
    intro cur rest hne
    have ha := hw a (List.mem_cons_self _ _)
    rw [List.cons_append, fieldsLoop, ha]
    simp only [Bool.false_eq_true, if_false]
    rw [ih (fun c hc => hw c (List.mem_cons_of_mem _ hc)) (cur ++ [a]) rest (by simp)]
    simp

theorem fieldsLoop_word_end (w : List Char) (hw : ∀ c ∈ w, isSpace c = false) :
    ∀ cur : List Char, cur ++ w ≠ [] → fieldsLoop cur w = [cur ++ w] := by
  induction w with
  | nil =>
    intro cur hne
    simp only [List.append_nil] at hne
    simp only [fieldsLoop, List.append_nil]
    rw [if_neg hne]
  | cons a w ih =>
    intro cur hne
    have ha := hw a (List.mem_cons_self _ _)
    rw [fieldsLoop, ha]
    simp only [Bool.false_eq_true, if_false]
    rw [ih (fun c hc => hw c (List.mem_cons_of_mem _ hc)) (cur ++ [a]) (by simp)]
    simp

theorem splitOnChar_of_not_mem (sep : Char) (w : List Char) (hw : sep ∉ w) :
    splitOnChar sep w = [w] := by
  induction w with
  | nil => rfl
  | cons a w ih =>
    simp only [List.mem_cons, not_or] at hw
    unfold splitOnChar
    rw [if_neg (fun e => hw.1 e.symm), ih hw.2]

theorem splitOnChar_append (sep : Char) (w rest : List Char) (hw : sep ∉ w) :
    splitOnChar sep (w ++ sep :: rest) = w :: splitOnChar sep rest := by
  induction w with
  | nil =>
    simp only [List.nil_append]
    rw [splitOnChar]
    simp
  | cons a w ih =>
    simp only [List.mem_cons, not_or] at hw
    simp only [List.cons_append]
    rw [splitOnChar, if_neg (fun e => hw.1 e.symm), ih hw.2]

theorem dropWhile_ne_append (c : Char) (w rest : List Char) (hw : c ∉ w) :
    (w ++ c :: rest).dropWhile (fun x => x ≠ c) = c :: rest := by
  induction w with
  | nil => simp [List.dropWhile_cons]
  | cons a w ih =>
    simp only [List.mem_cons, not_or] at hw
    have : a ≠ c := fun e => hw.1 e.symm
    simp only [List.cons_append, List.dropWhile_cons]
    simp only [ne_eq, this, not_false_eq_true, decide_True, if_true]
    exact ih hw.2

theorem takeWhile_ne_append (c : Char) (w rest : List Char) (hw : c ∉ w) :
    (w ++ c :: rest).takeWhile (fun x => x ≠ c) = w := by
  induction w with
  | nil => simp [List.takeWhile_cons]
  | cons a w ih =>
    simp only [List.mem_cons, not_or] at hw
    have : a ≠ c := fun e => hw.1 e.symm
    simp only [List.cons_append, List.takeWhile_cons]
    simp only [ne_eq, this, not_false_eq_true, decide_True, if_true]
    rw [ih hw.2]

theorem splitN2_append (sep : Char) (w rest : List Char) (hw : sep ∉ w) :
    splitN2 sep (w ++ sep :: rest) = [w, rest] := by
  unfold splitN2
  rw [if_pos (by simp), takeWhile_ne_append sep w rest hw, dropWhile_ne_append sep w rest hw]
  rfl

theorem isDigit_facts (c : Char) (h : isDigit c = true) :
    c ≠ ':' ∧ c ≠ ',' ∧ c ≠ '.' ∧ isSpace c = false := by
  refine ⟨?_, ?_, ?_, ?_⟩
  · rintro rfl; exact absurd h (by decide)
  · rintro rfl; exact absurd h (by decide)
  · rintro rfl; exact absurd h (by decide)
  · unfold isDigit at h
    simp only [Bool.and_eq_true, decide_eq_true_eq] at h
    unfold isSpace
    simp only [decide_eq_false_iff_not]
    omega

theorem numeral_text_facts (x : Numeral) (hd : isDigits x.digits) :
    x.text ≠ [] ∧ ∀ c ∈ x.text, c ≠ ':' ∧ c ≠ ',' ∧ c ≠ '.' ∧ isSpace c = false := by
  unfold Numeral.text
  constructor
  · intro h
    exact hd.1 (List.append_eq_nil.mp h).2
  · intro c hc
    rcases List.mem_append.mp hc with h | h
    · by_cases hn : x.negative = true
      · rw [if_pos hn] at h
        simp only [List.mem_singleton] at h
        subst h
        exact ⟨by decide, by decide, by decide, by decide⟩
      · rw [if_neg hn] at h
        cases h
    · exact isDigit_facts c (hd.2 c h)
theorem fields_entry_line (e : ProfileEntry) (hw : e.wellFormed) :
    fields e.line.data = [e.location, e.numStmt.text, e.count.text] := by
  obtain ⟨hfile, h1, h2, h3, h4, h5, h6⟩ := hw
  have n1 := numeral_text_facts _ h1
  have n2 := numeral_text_facts _ h2
  have n3 := numeral_text_facts _ h3
  have n4 := numeral_text_facts _ h4
  have n5 := numeral_text_facts _ h5
  have n6 := numeral_text_facts _ h6
  have hloc : ∀ c ∈ e.location, isSpace c = false := by
    intro c hc
    unfold ProfileEntry.location at hc
    simp only [List.mem_append, List.mem_cons] at hc
    rcases hc with h | h | h | h | h | h | h | h
    · exact (hfile c h).2
    · rw [h]; decide
    · exact (n1.2 c h).2.2.2
    · rw [h]; decide
    · exact (n2.2 c h).2.2.2
    · rw [h]; decide
    · exact (n3.2 c h).2.2.2
    · rcases h with h | h
      · rw [h]; decide
      · exact (n4.2 c h).2.2.2
  have hlocne : e.location ≠ [] := by
    unfold ProfileEntry.location
    simp
  have hd : e.line.data = e.location ++ ' ' :: (e.numStmt.text ++ ' ' :: e.count.text) := rfl
  unfold fields
  rw [hd, fieldsLoop_word_space e.location hloc [] _ (by simpa using hlocne),
    fieldsLoop_word_space e.numStmt.text (fun c hc => (n5.2 c hc).2.2.2) [] _
      (by simpa using n5.1),
    fieldsLoop_word_end e.count.text (fun c hc => (n6.2 c hc).2.2.2) [] (by simpa using n6.1)]
  simp

theorem not_mem_numeral_dot_numeral (sep : Char) (x y : Numeral)
    (hx : ∀ c ∈ x.text, c ≠ sep) (hy : ∀ c ∈ y.text, c ≠ sep) (hs : sep ≠ '.') :
    sep ∉ x.text ++ '.' :: y.text := by
  intro hm
  simp only [List.mem_append, List.mem_cons] at hm
  rcases hm with h | h | h
  · exact hx sep h rfl
  · exact hs h
  · exact hy sep h rfl

theorem coverageLine_entry (e : ProfileEntry) (hw : e.wellFormed) (hf : e.fitsInt)
    (hm : ¬ isModeLine e.line) : coverageLine e.line = LineOutcome.block e.block := by
  have hfields := fields_entry_line e hw
  obtain ⟨hfile, h1, h2, h3, h4, h5, h6⟩ := hw
  obtain ⟨f1, f2, f3, f4, f5, f6⟩ := hf
  have n1 := numeral_text_facts _ h1
  have n2 := numeral_text_facts _ h2
  have n3 := numeral_text_facts _ h3
  have n4 := numeral_text_facts _ h4
  have hcolon : ':' ∉ e.file.data := fun h => (hfile _ h).1 rfl
  have hsplit1 : splitN2 ':' e.location
      = [e.file.data, e.startLine.text ++ ('.' :: (e.startCol.text ++
          (',' :: (e.endLine.text ++ ('.' :: e.endCol.text)))))] := by
    unfold ProfileEntry.location
    exact splitN2_append ':' _ _ hcolon
  have hcomma1 : ',' ∉ e.startLine.text ++ '.' :: e.startCol.text :=
    not_mem_numeral_dot_numeral ',' _ _ (fun c hc => (n1.2 c hc).2.1)
      (fun c hc => (n2.2 c hc).2.1) (by decide)
  have hcomma2 : ',' ∉ e.endLine.text ++ '.' :: e.endCol.text :=
    not_mem_numeral_dot_numeral ',' _ _ (fun c hc => (n3.2 c hc).2.1)
      (fun c hc => (n4.2 c hc).2.1) (by decide)
  have hsplit2 : splitOnChar ',' (e.startLine.text ++ ('.' :: (e.startCol.text ++
          (',' :: (e.endLine.text ++ ('.' :: e.endCol.text))))))
      = [e.startLine.text ++ '.' :: e.startCol.text, e.endLine.text ++ '.' :: e.endCol.text] := by
    have : e.startLine.text ++ ('.' :: (e.startCol.text ++
          (',' :: (e.endLine.text ++ ('.' :: e.endCol.text)))))
        = (e.startLine.text ++ '.' :: e.startCol.text)
          ++ ',' :: (e.endLine.text ++ '.' :: e.endCol.text) := by simp
    rw [this, splitOnChar_append ',' _ _ hcomma1, splitOnChar_of_not_mem ',' _ hcomma2]
  have hdot : ∀ x y : Numeral, isDigits x.digits → isDigits y.digits →
      splitOnChar '.' (x.text ++ '.' :: y.text) = [x.text, y.text] := by
    intro x y hx hy
    have nx := numeral_text_facts _ hx
    have ny := numeral_text_facts _ hy
    rw [splitOnChar_append '.' _ _ (fun h => (nx.2 _ h).2.2.1 rfl),
      splitOnChar_of_not_mem '.' _ (fun h => (ny.2 _ h).2.2.1 rfl)]
  have hmode : ¬ hasPrefix e.line.data "mode:".data = true := hm
  unfold coverageLine
  rw [if_neg hmode, hfields]
  simp only [hsplit1, hsplit2, hdot _ _ h1 h2, hdot _ _ h3 h4, List.get?_cons_zero,
    List.get?_cons_succ]
  rw [atoi_numeral _ ⟨h1, f1⟩, atoi_numeral _ ⟨h2, f2⟩, atoi_numeral _ ⟨h3, f3⟩,
    atoi_numeral _ ⟨h4, f4⟩, atoi_numeral _ ⟨h5, f5⟩, atoi_numeral _ ⟨h6, f6⟩]
  rfl
theorem hasPrefix_cons_cons (a b : Char) (s p : List Char) :
    hasPrefix (a :: s) (b :: p) = (decide (a = b) && hasPrefix s p) := by
  by_cases h : a = b
  · subst h
    rw [hasPrefix_cons_self]
    simp
  · rw [hasPrefix_head_ne a b s p h]
    simp [h]

theorem mode_prefix_iff (f rest : List Char) (hc : ':' ∉ f) :
    hasPrefix (f ++ ':' :: rest) "mode:".data = true ↔ f = "mode".data := by
  have hm : "mode:".data = ['m', 'o', 'd', 'e', ':'] := rfl
  have hn : "mode".data = ['m', 'o', 'd', 'e'] := rfl
  rw [hm, hn]
  constructor
  · intro h
    rcases f with _ | ⟨a, _ | ⟨b, _ | ⟨c, _ | ⟨d, _ | ⟨x, f1⟩⟩⟩⟩⟩
    · simp [hasPrefix_cons_cons] at h
    · simp [hasPrefix_cons_cons] at h
    · simp [hasPrefix_cons_cons] at h
    · simp [hasPrefix_cons_cons] at h
    · simp only [List.cons_append, List.nil_append, hasPrefix_cons_cons, Bool.and_eq_true,
        decide_eq_true_eq] at h
      obtain ⟨h1, h2, h3, h4, _⟩ := h
      rw [h1, h2, h3, h4]
    · simp only [List.cons_append, hasPrefix_cons_cons, Bool.and_eq_true,
        decide_eq_true_eq] at h
      obtain ⟨_, _, _, _, h5, _⟩ := h
      exfalso
      apply hc
      rw [h5]
      simp
  · intro h
    rw [h]
    simp [hasPrefix_cons_cons, hasPrefix]

theorem isModeLine_entry_iff (e : ProfileEntry) (hw : e.wellFormed) :
    isModeLine e.line ↔ e.file = "mode" := by
  have hcolon : ':' ∉ e.file.data := fun h => (hw.1 _ h).1 rfl
  have hd : e.line.data = e.file.data ++ ':' :: (e.startLine.text ++ ('.' :: (e.startCol.text
      ++ (',' :: (e.endLine.text ++ ('.' :: e.endCol.text))))) ++ (' ' :: (e.numStmt.text
      ++ (' ' :: e.count.text)))) := by
    show e.location ++ _ = _
    unfold ProfileEntry.location
    simp
  unfold isModeLine
  rw [hd, mode_prefix_iff _ _ hcolon]
  constructor
  · intro h
    exact String.ext h
  · intro h
    rw [h]

theorem parseCoverageLoop_entries (entries : List ProfileEntry)
    (hw : ∀ e ∈ entries, e.wellFormed) (hfit : ∀ e ∈ entries, e.fitsInt)
    (hname : ∀ e ∈ entries, e.file ≠ "mode") :
    ∀ blocks : List CoverBlock,
      parseCoverageLoop (entries.map ProfileEntry.line) blocks
        = some (blocks ++ entries.map ProfileEntry.block) := by
  induction entries with
  | nil => intro blocks; simp [parseCoverageLoop]
  | cons e es ih =>
    intro blocks
    have he := hw e (List.mem_cons_self _ _)
    have hm : ¬ isModeLine e.line := fun h =>
      hname e (List.mem_cons_self _ _) ((isModeLine_entry_iff e he).mp h)
    simp only [List.map_cons, parseCoverageLoop]
    rw [coverageLine_entry e he (hfit e (List.mem_cons_self _ _)) hm]
    simp only []
    rw [ih (fun x hx => hw x (List.mem_cons_of_mem _ hx))
      (fun x hx => hfit x (List.mem_cons_of_mem _ hx))
      (fun x hx => hname x (List.mem_cons_of_mem _ hx))]
    simp

/-- The loop of `parseCoverage` over an optional leading mode line and the lines of well-formed
entries within the range of `int`, none for a file named `mode`: one block for each entry, in
line order. -/
theorem parseCoverage_wellFormed_lines (mode : Option String) (entries : List ProfileEntry)
    (hmode : modeOk mode) (hw : ∀ e ∈ entries, e.wellFormed)
    (hfit : ∀ e ∈ entries, e.fitsInt) (hname : ∀ e ∈ entries, e.file ≠ "mode") :
    parseCoverage (mode.toList ++ entries.map ProfileEntry.line)
      = some (entries.map ProfileEntry.block) := by
  unfold parseCoverage
  cases mode with
  | none =>
    simp only [Option.toList_none, List.nil_append]
    rw [parseCoverageLoop_entries entries hw hfit hname []]
    simp
  | some line =>
    have hl : hasPrefix line.data "mode:".data = true := hmode
    have hskip : coverageLine line = LineOutcome.skipped := by
      unfold coverageLine
      rw [if_pos hl]
    have hstep : parseCoverageLoop ((some line).toList ++ entries.map ProfileEntry.line) []
        = parseCoverageLoop (entries.map ProfileEntry.line) [] := by
      show parseCoverageLoop (line :: entries.map ProfileEntry.line) [] = _
      rw [parseCoverageLoop, hskip]
    rw [hstep, parseCoverageLoop_entries entries hw hfit hname []]
    simp

theorem coverageLine_wrong_field_count (line : String)
    (h : (fields line.data).length ≠ 3) : coverageLine line = LineOutcome.skipped := by
  unfold coverageLine
  by_cases hm : hasPrefix line.data "mode:".data = true
  · rw [if_pos hm]
  · rw [if_neg hm]
    rcases hf : fields line.data with _ | ⟨a, _ | ⟨b, _ | ⟨c, _ | ⟨d, r⟩⟩⟩⟩
    · rfl
    · rfl
    · rfl
    · rw [hf] at h
      exact absurd rfl h
    · rfl

theorem parseCoverageLoop_skip (line : String) (hs : coverageLine line = LineOutcome.skipped)
    (post : List String) :
    ∀ (pre : List String) (blocks : List CoverBlock),
      parseCoverageLoop (pre ++ line :: post) blocks = parseCoverageLoop (pre ++ post) blocks := by
  intro pre
  induction pre with
  | nil =>
    intro blocks
    simp only [List.nil_append, parseCoverageLoop, hs]
  | cons l ls ih =>
    intro blocks
    simp only [List.cons_append, parseCoverageLoop]
    cases coverageLine l with
    | skipped => exact ih blocks
    | block b => exact ih _
    | indexPanic => rfl

/-! ## The entry of the current file exists -/

theorem diffStep_currentFile_present (st : DiffState) (line : String)
    (h : st.currentFile = "" ∨ st.currentFile ∈ indexKeys st.changed) :
    (diffStep st line).currentFile = ""
      ∨ (diffStep st line).currentFile ∈ indexKeys (diffStep st line).changed := by
  rw [diffStep_currentFile, indexKeys_diffStep]
  cases fileRegexMatch line.data with
  | none => exact h
  | some path =>
    right
    simp only []
    by_cases hk : String.mk path ∈ indexKeys st.changed
    · rw [if_pos hk]; exact hk
    · rw [if_neg hk]; simp

theorem parseDiff_currentFile_present (lines : List String) :
    (diffRun DiffState.init lines).currentFile = ""
      ∨ (diffRun DiffState.init lines).currentFile
          ∈ indexKeys (diffRun DiffState.init lines).changed := by
  induction lines using List.reverseRecOn with
  | nil => left; rfl
  | append_singleton xs l ih =>
    rw [diffRun_append]
    exact diffStep_currentFile_present _ l ih

/-! ## Lines that parseCoverage skips or fails on -/

/-- C11, evidence that the code does not meet the claim: the three-field line `foo.go:5,7 3 1`,
whose location has a colon and a comma but no `.` in the pair `5`, makes `start[1]` index a
one-element slice, and so does the pair `7` of `foo.go:5.1,7 3 1` for `end[1]`: the loop body
panics and `parseCoverage` aborts instead of skipping the line or giving a block. -/
theorem parseCoverage_panics_without_dot :
    (fields ("foo.go:5,7 3 1" : String).data).length = 3
    ∧ splitN2 ':' "foo.go:5,7".data = ["foo.go".data, "5,7".data]
    ∧ splitOnChar ',' "5,7".data = ["5".data, "7".data]
    ∧ splitOnChar '.' "5".data = ["5".data]
    ∧ coverageLine "foo.go:5,7 3 1" = LineOutcome.indexPanic
    ∧ coverageLine "foo.go:5.1,7 3 1" = LineOutcome.indexPanic
    ∧ parseCoverage ["mode: set", "a.go:1.1,2.2 1 1", "foo.go:5,7 3 1"] = none := by
  refine ⟨by decide, by decide, by decide, by decide, by decide, by decide, by decide⟩

/-! ## Lines that parseDiff leaves without effect -/

theorem diffStep_atAt (st : DiffState) (line : String)
    (hp : hasPrefix line.data "@@".data = true) (hh : hunkRegexMatch line.data = none) :
    diffStep st line = st := by
  obtain ⟨t, ht⟩ := (hasPrefix_iff line.data "@@".data).mp hp
  have hd : line.data = '@' :: ('@' :: t) := ht.symm
  unfold diffStep
  rw [hh, hd, fileRegexMatch_eq_none_of_head '@' _ (by decide)]
  have h1 : hasPrefix ('@' :: ('@' :: t)) "+".data = false :=
    hasPrefix_head_ne _ _ _ _ (by decide)
  have h2 : hasPrefix ('@' :: ('@' :: t)) "-".data = false :=
    hasPrefix_head_ne _ _ _ _ (by decide)
  have h3 : hasPrefix ('@' :: ('@' :: t)) "@@".data = true := by rw [← hd]; exact hp
  simp [h1, h2, h3]

/-- A line that starts with `@@` and in which the hunk-header pattern does not occur leaves the
state of the loop of `parseDiff` as it is, so the loop gives the same index with and without
it. -/
theorem parseDiff_atAt_line (st : DiffState) (pre post : List String) (line : String)
    (hp : hasPrefix line.data "@@".data = true) (hh : hunkRegexMatch line.data = none) :
    diffStep st line = st
    ∧ parseDiff (pre ++ line :: post) = parseDiff (pre ++ post) := by
  refine ⟨diffStep_atAt st line hp hh, ?_⟩
  unfold parseDiff
  rw [diffRun_append, diffRun_append]
  have : diffRun (diffRun DiffState.init pre) (line :: post)
      = diffRun (diffStep (diffRun DiffState.init pre) line) post := rfl
  rw [this, diffStep_atAt _ line hp hh]

/-- C12, the claim fails in two places. An added line that holds hunk-header text, such as
`+@@ -1 +5 @@`, is taken for a hunk header by the unanchored pattern: nothing is recorded and
the cursor becomes 5. At the largest `int` the increment wraps: the cursor goes from
`9223372036854775807` to `-9223372036854775808`. Both states are reached by `parseDiff`. -/
theorem added_line_counterexample :
    diffRun DiffState.init ["+++ b/f.go", "@@ -1 +10 @@"] = ⟨[("f.go", [])], "f.go", 10⟩
    ∧ isAddedLine "+@@ -1 +5 @@"
    ∧ diffStep ⟨[("f.go", [])], "f.go", 10⟩ "+@@ -1 +5 @@" = ⟨[("f.go", [])], "f.go", 5⟩
    ∧ diffRun DiffState.init ["+++ b/f.go", "@@ -1 +9223372036854775807 @@"]
        = ⟨[("f.go", [])], "f.go", 9223372036854775807⟩
    ∧ isAddedLine "+x"
    ∧ diffStep ⟨[("f.go", [])], "f.go", 9223372036854775807⟩ "+x"
        = ⟨[("f.go", [9223372036854775807])], "f.go", -9223372036854775808⟩ := by
  refine ⟨by decide, by decide, by decide, by decide, by decide, by decide⟩

/-- C12, amended: in every parser state in which a current file is set (its entry exists, as
in every state that `parseDiff` reaches) and the cursor is an `int` below the largest one, a
diff line that starts with `+` but not with `+++` and in which the hunk-header pattern does
not occur records the cursor in the changed set of the current file, leaves the current file
and the other entries as they are, and increments the cursor by exactly one. -/
theorem added_line_step (st : DiffState) (line : String) (v : List Int)
    (hcur : st.currentFile ≠ "") (hentry : lookupFile st.currentFile st.changed = some v)
    (hadd : isAddedLine line) (hh : hunkRegexMatch line.data = none)
    (hmin : minInt ≤ st.newLineNum) (hmax : st.newLineNum < maxInt) :
    (diffStep st line).newLineNum = st.newLineNum + 1
    ∧ (diffStep st line).currentFile = st.currentFile
    ∧ (∃ v1, lookupFile st.currentFile (diffStep st line).changed = some v1
        ∧ ∀ k, k ∈ v1 ↔ k ∈ v ∨ k = st.newLineNum)
    ∧ (∀ file, file ≠ st.currentFile →
        lookupFile file (diffStep st line).changed = lookupFile file st.changed) := by
  rw [diffStep_added st line hadd hh, if_pos hcur]
  have hw : wrap64 (st.newLineNum + 1) = st.newLineNum + 1 := by
    apply wrap64_of_isInt64
    unfold isInt64
    unfold minInt at hmin ⊢
    unfold maxInt at hmax ⊢
    omega
  refine ⟨hw, rfl, ?_, ?_⟩
  · refine ⟨if st.newLineNum ∈ v then v else v ++ [st.newLineNum], ?_, ?_⟩
    · simp only []
      rw [lookupFile_markLine_self, hentry]
      rfl
    · intro k
      by_cases hin : st.newLineNum ∈ v
      · rw [if_pos hin]
        constructor
        · exact Or.inl
        · rintro (h | h)
          · exact h
          · rw [h]; exact hin
      · rw [if_neg hin]
        simp
  · intro file hne
    simp only []
    exact lookupFile_markLine_of_ne file st.currentFile st.newLineNum st.changed (Ne.symm hne)

/-- C12, amended, at the state after `+++ b/f.go`, `@@ -1 +10 @@` and the line `+added`. -/
theorem added_line_step_witness :
    diffRun DiffState.init ["+++ b/f.go", "@@ -1 +10 @@"] = ⟨[("f.go", [])], "f.go", 10⟩
    ∧ diffStep ⟨[("f.go", [])], "f.go", 10⟩ "+added" = ⟨[("f.go", [10])], "f.go", 11⟩
    ∧ ((diffStep ⟨[("f.go", [])], "f.go", 10⟩ "+added").newLineNum
          = (⟨[("f.go", [])], "f.go", 10⟩ : DiffState).newLineNum + 1
      ∧ (diffStep ⟨[("f.go", [])], "f.go", 10⟩ "+added").currentFile
          = (⟨[("f.go", [])], "f.go", 10⟩ : DiffState).currentFile
      ∧ (∃ v1, lookupFile (⟨[("f.go", [])], "f.go", 10⟩ : DiffState).currentFile
            (diffStep ⟨[("f.go", [])], "f.go", 10⟩ "+added").changed = some v1
          ∧ ∀ k, k ∈ v1 ↔ k ∈ ([] : List Int)
              ∨ k = (⟨[("f.go", [])], "f.go", 10⟩ : DiffState).newLineNum)
      ∧ (∀ file, file ≠ (⟨[("f.go", [])], "f.go", 10⟩ : DiffState).currentFile →
          lookupFile file (diffStep ⟨[("f.go", [])], "f.go", 10⟩ "+added").changed
            = lookupFile file (⟨[("f.go", [])], "f.go", 10⟩ : DiffState).changed)) :=
  ⟨by decide, by decide,
    added_line_step ⟨[("f.go", [])], "f.go", 10⟩ "+added" [] (by decide) (by decide)
      (by decide) (by decide) (by decide) (by decide)⟩

/-! ## Aggregation -/

theorem coveredSum_bounds (blocks : List CoverBlock) (h : ∀ b ∈ blocks, 0 ≤ b.NumStmt) :
    0 ≤ coveredSum blocks ∧ coveredSum blocks ≤ stmtSum blocks := by
  induction blocks with
  | nil => simp [coveredSum, stmtSum]
  | cons b bs ih =>
    have hb := h b (List.mem_cons_self _ _)
    obtain ⟨h1, h2⟩ := ih (fun x hx => h x (List.mem_cons_of_mem _ hx))
    unfold coveredSum stmtSum at *
    by_cases hc : 0 < b.Count
    · simp only [List.filter_cons, hc, decide_True, if_true, List.map_cons, List.sum_cons]
      constructor <;> omega
    · simp only [List.filter_cons, hc, decide_False, Bool.false_eq_true, if_false,
        List.map_cons, List.sum_cons]
      constructor <;> omega

theorem sumLoop_eq (blocks : List CoverBlock) :
    ∀ (total covered : Int), (∀ b ∈ blocks, 0 ≤ b.NumStmt) →
      0 ≤ covered → covered ≤ total → total + stmtSum blocks ≤ maxInt →
      sumLoop blocks total covered = (total + stmtSum blocks, covered + coveredSum blocks) := by
  induction blocks with
  | nil => intro total covered _ _ _ _; simp [sumLoop, stmtSum, coveredSum]
  | cons b bs ih =>
    intro total covered h h0 hle hmax
    have hb := h b (List.mem_cons_self _ _)
    have hrest : ∀ x ∈ bs, 0 ≤ x.NumStmt := fun x hx => h x (List.mem_cons_of_mem _ hx)
    have hs : stmtSum (b :: bs) = b.NumStmt + stmtSum bs := by simp [stmtSum]
    have hsum0 : 0 ≤ stmtSum bs := le_trans (coveredSum_bounds bs hrest).1
      (coveredSum_bounds bs hrest).2
    rw [hs] at hmax
    have hw1 : wrap64 (total + b.NumStmt) = total + b.NumStmt := by
      apply wrap64_of_isInt64
      unfold isInt64 minInt
      unfold maxInt at hmax ⊢
      omega
    have hw2 : wrap64 (covered + b.NumStmt) = covered + b.NumStmt := by
      apply wrap64_of_isInt64
      unfold isInt64 minInt
      unfold maxInt at hmax ⊢
      omega
    unfold sumLoop
    rw [hw1, hw2]
    by_cases hc : 0 < b.Count
    · rw [if_pos hc, ih _ _ hrest (by omega) (by omega) (by omega)]
      have : coveredSum (b :: bs) = b.NumStmt + coveredSum bs := by
        simp [coveredSum, List.filter_cons, hc]
      rw [hs, this]
      congr 1 <;> ring
    · rw [if_neg hc, ih _ _ hrest h0 (by omega) (by omega)]
      have : coveredSum (b :: bs) = coveredSum bs := by
        simp [coveredSum, List.filter_cons, hc]
      rw [hs, this]
      congr 1
      ring

/-- C19, the claim fails when the sum passes the largest `int`: two kept blocks of
9223372036854775807 statements each, the first one covered, give `totalStmts = -2` and
`coveredStmts = 9223372036854775807`; the total is not the sum of the statement counts and
the covered count is above it. -/
theorem aggregation_wraps_counterexample :
    parseCoverage ["a.go:1.1,2.2 9223372036854775807 1", "a.go:3.1,4.2 9223372036854775807 0"]
      = some hugeStmtBlocks
    ∧ (∀ b ∈ hugeStmtBlocks, 0 ≤ b.NumStmt)
    ∧ totalStmts hugeStmtBlocks = -2
    ∧ coveredStmts hugeStmtBlocks = 9223372036854775807
    ∧ stmtSum hugeStmtBlocks = 18446744073709551614
    ∧ ¬ coveredStmts hugeStmtBlocks ≤ totalStmts hugeStmtBlocks := by
  refine ⟨by decide, by decide, by decide, by decide, by decide, by decide⟩

/-- C19, amended: for every kept block sequence whose `NumStmt` are all non-negative and
whose sum does not exceed the largest `int`, `totalStmts` is the sum of `NumStmt` over the
blocks, `coveredStmts` the sum over the blocks with `Count > 0`, `0 <= coveredStmts <=
totalStmts`, and the exact ratio `coveredStmts / totalStmts * 100` lies in `[0, 100]` whenever
`totalStmts > 0`. -/
theorem aggregation_bounds (kept : List CoverBlock) (hnn : ∀ b ∈ kept, 0 ≤ b.NumStmt)
    (hfit : stmtSum kept ≤ maxInt) :
    totalStmts kept = stmtSum kept
    ∧ coveredStmts kept = coveredSum kept
    ∧ 0 ≤ coveredStmts kept
    ∧ coveredStmts kept ≤ totalStmts kept
    ∧ (0 < totalStmts kept →
        0 ≤ (coveredStmts kept : ℚ) / (totalStmts kept : ℚ) * 100
        ∧ (coveredStmts kept : ℚ) / (totalStmts kept : ℚ) * 100 ≤ 100) := by
  have hloop := sumLoop_eq kept 0 0 hnn (le_refl _) (le_refl _) (by simpa using hfit)
  have ht : totalStmts kept = stmtSum kept := by
    unfold totalStmts
    rw [hloop]
    simp
  have hc : coveredStmts kept = coveredSum kept := by
    unfold coveredStmts
    rw [hloop]
    simp
  obtain ⟨h0, h1⟩ := coveredSum_bounds kept hnn
  refine ⟨ht, hc, by rw [hc]; exact h0, by rw [hc, ht]; exact h1, ?_⟩
  intro hpos
  rw [hc, ht] at *
  have hposq : (0 : ℚ) < (stmtSum kept : ℚ) := by exact_mod_cast hpos
  have h0q : (0 : ℚ) ≤ (coveredSum kept : ℚ) := by exact_mod_cast h0
  have h1q : (coveredSum kept : ℚ) ≤ (stmtSum kept : ℚ) := by exact_mod_cast h1
  constructor
  · positivity
  · rw [div_mul_eq_mul_div, div_le_iff₀ hposq]
    nlinarith

/-- C19, amended, at 29 covered statements out of 100. -/
theorem aggregation_bounds_witness :
    (∀ b ∈ ratio29Blocks, 0 ≤ b.NumStmt) ∧ stmtSum ratio29Blocks ≤ maxInt
    ∧ totalStmts ratio29Blocks = 100 ∧ coveredStmts ratio29Blocks = 29
    ∧ (totalStmts ratio29Blocks = stmtSum ratio29Blocks
      ∧ coveredStmts ratio29Blocks = coveredSum ratio29Blocks
      ∧ 0 ≤ coveredStmts ratio29Blocks
      ∧ coveredStmts ratio29Blocks ≤ totalStmts ratio29Blocks
      ∧ (0 < totalStmts ratio29Blocks →
          0 ≤ (coveredStmts ratio29Blocks : ℚ) / (totalStmts ratio29Blocks : ℚ) * 100
          ∧ (coveredStmts ratio29Blocks : ℚ) / (totalStmts ratio29Blocks : ℚ) * 100 ≤ 100)) :=
  ⟨by decide, by decide, by decide, by decide,
    aggregation_bounds ratio29Blocks (by decide) (by decide)⟩

/-! ## filterCoverage and the order of the index -/

theorem lookupFile_eq_some_of_mem (changed : ChangedIndex) (hn : (indexKeys changed).Nodup)
    (file : String) (v : List Int) (hm : (file, v) ∈ changed) :
    lookupFile file changed = some v := by
  induction changed with
  | nil => cases hm
  | cons entry rest ih =>
    obtain ⟨k, w⟩ := entry
    simp only [indexKeys, List.map_cons, List.nodup_cons] at hn
    unfold lookupFile
    rcases List.mem_cons.mp hm with h | h
    · simp only [Prod.mk.injEq] at h
      rw [if_pos h.1.symm, h.2]
    · have hk : k ≠ file := by
        intro e
        apply hn.1
        rw [e]
        exact List.mem_map.mpr ⟨(file, v), h, rfl⟩
      rw [if_neg hk]
      exact ih hn.2 h

theorem mem_of_lookupFile_eq_some (changed : ChangedIndex) (file : String) (v : List Int)
    (h : lookupFile file changed = some v) : (file, v) ∈ changed := by
  induction changed with
  | nil => cases h
  | cons entry rest ih =>
    obtain ⟨k, w⟩ := entry
    unfold lookupFile at h
    by_cases hk : k = file
    · rw [if_pos hk] at h
      simp only [Option.some.injEq] at h
      rw [hk, h]
      exact List.mem_cons_self _ _
    · rw [if_neg hk] at h
      exact List.mem_cons_of_mem _ (ih h)

theorem lookupFile_perm (c1 c2 : ChangedIndex) (hp : c1.Perm c2)
    (hn : (indexKeys c1).Nodup) (file : String) :
    lookupFile file c1 = lookupFile file c2 := by
  have hk : (indexKeys c1).Perm (indexKeys c2) := hp.map Prod.fst
  have hn2 : (indexKeys c2).Nodup := hk.nodup_iff.mp hn
  cases h1 : lookupFile file c1 with
  | some v =>
    have := hp.mem_iff.mp (mem_of_lookupFile_eq_some c1 file v h1)
    rw [lookupFile_eq_some_of_mem c2 hn2 file v this]
  | none =>
    have hnot := (lookupFile_eq_none_iff file c1).mp h1
    have : file ∉ indexKeys c2 := fun h => hnot (hk.mem_iff.mpr h)
    rw [(lookupFile_eq_none_iff file c2).mpr this]

theorem fallbackLoop_closed (fuel : Nat) (b : CoverBlock) (base : List Char) :
    ∀ (changed : ChangedIndex) (filtered : List CoverBlock),
      fallbackLoop fuel b base changed filtered
        = if changed.any (fun entry => hasSuffix base entry.1.data
              && (lineLoop fuel b.StartLine b.EndLine entry.2).isNone) = true then none
          else some (filtered ++ List.replicate
            (changed.countP (fun entry => hasSuffix base entry.1.data
              && (lineLoop fuel b.StartLine b.EndLine entry.2 == some true))) b) := by
  intro changed
  induction changed with
  | nil => intro filtered; simp [fallbackLoop]
  | cons entry rest ih =>
    intro filtered
    obtain ⟨d, cl⟩ := entry
    unfold fallbackLoop
    by_cases hs : hasSuffix base d.data = true
    · rw [if_pos hs]
      unfold scanBlock
      cases hl : lineLoop fuel b.StartLine b.EndLine cl with
      | none => simp [hs, hl]
      | some hit =>
        cases hit with
        | true =>
          simp only [ih, List.any_cons, hs, hl, Option.isNone_some, Bool.and_false,
            Bool.false_or, List.countP_cons, beq_self_eq_true, Bool.and_self, if_true]
          by_cases ha : (rest.any fun entry => hasSuffix base entry.1.data
              && (lineLoop fuel b.StartLine b.EndLine entry.2).isNone) = true
          · simp [ha]
          · simp only [ha, Bool.false_eq_true, if_false, Option.some.injEq]
            rw [List.replicate_succ', List.append_assoc]
            congr 1
            rw [← List.replicate_succ', List.replicate_succ]
            rfl
        | false =>
          simp only [ih, List.any_cons, hs, hl, Option.isNone_some, Bool.and_false,
            Bool.false_or, List.countP_cons]
          simp
    · rw [if_neg hs, ih]
      have hf : hasSuffix base d.data = false := by
        cases h : hasSuffix base d.data
        · rfl
        · exact absurd h hs
      simp only [List.any_cons, List.countP_cons, hf, Bool.false_and, Bool.false_or,
        Bool.false_eq_true, if_false, Nat.add_zero]

theorem any_eq_of_perm {α : Type} (p : α → Bool) (l1 l2 : List α) (hp : l1.Perm l2) :
    l1.any p = l2.any p := by
  cases h1 : l1.any p with
  | true =>
    obtain ⟨x, hx, hpx⟩ := List.any_eq_true.mp h1
    exact (List.any_eq_true.mpr ⟨x, hp.mem_iff.mp hx, hpx⟩).symm
  | false =>
    cases h2 : l2.any p with
    | false => rfl
    | true =>
      obtain ⟨x, hx, hpx⟩ := List.any_eq_true.mp h2
      rw [List.any_eq_true.mpr ⟨x, hp.mem_iff.mpr hx, hpx⟩] at h1
      cases h1

theorem filterBlock_perm (sep : Char) (fuel : Nat) (c1 c2 : ChangedIndex) (hp : c1.Perm c2)
    (hn : (indexKeys c1).Nodup) (b : CoverBlock) (filtered : List CoverBlock) :
    filterBlock sep fuel c1 b filtered = filterBlock sep fuel c2 b filtered := by
  unfold filterBlock
  rw [lookupFile_perm c1 c2 hp hn b.File]
  cases lookupFile b.File c2 with
  | some cl => rfl
  | none =>
    simp only []
    rw [fallbackLoop_closed, fallbackLoop_closed, any_eq_of_perm _ c1 c2 hp,
      List.Perm.countP_eq _ hp]

theorem filterLoop_perm (sep : Char) (fuel : Nat) (c1 c2 : ChangedIndex) (hp : c1.Perm c2)
    (hn : (indexKeys c1).Nodup) :
    ∀ (blocks filtered : List CoverBlock),
      filterLoop sep fuel c1 blocks filtered = filterLoop sep fuel c2 blocks filtered := by
  intro blocks
  induction blocks with
  | nil => intro filtered; rfl
  | cons b bs ih =>
    intro filtered
    unfold filterLoop
    rw [filterBlock_perm sep fuel c1 c2 hp hn b filtered]
    cases filterBlock sep fuel c2 b filtered with
    | none => rfl
    | some f1 => exact ih f1

/-- C15: for every block sequence and any two enumerations of the same index (the same
entries with pairwise distinct keys, in any two orders), `filterCoverage` gives the same
result, whatever the fuel: the same output sequence, also when the path of a block has several
keys of the index as suffixes, and no output for the one exactly when there is none for the
other. -/
theorem filterCoverage_order_independent (sep : Char) (fuel : Nat) (blocks : List CoverBlock)
    (changed1 changed2 : ChangedIndex) (hp : changed1.Perm changed2)
    (hn : (indexKeys changed1).Nodup) :
    filterCoverage sep fuel blocks changed1 = filterCoverage sep fuel blocks changed2 :=
  filterLoop_perm sep fuel changed1 changed2 hp hn blocks []

/-- C15 at the block of `/abs/repo/pkg/foo.go:5.1,7.2 3 1` and the two enumerations of the
index of `foo.go` and `pkg/foo.go`, both suffixes of its path. -/
theorem filterCoverage_order_independent_witness :
    dupIndex.Perm [("pkg/foo.go", [6]), ("foo.go", [6])]
    ∧ (indexKeys dupIndex).Nodup
    ∧ filterCoverage '/' 4 [dupBlock] dupIndex = some [dupBlock, dupBlock]
    ∧ filterCoverage '/' 4 [dupBlock] dupIndex
        = filterCoverage '/' 4 [dupBlock] [("pkg/foo.go", [6]), ("foo.go", [6])] :=
  ⟨List.Perm.swap _ _ _, by decide, by decide,
    filterCoverage_order_independent '/' 4 [dupBlock] dupIndex
      [("pkg/foo.go", [6]), ("foo.go", [6])] (List.Perm.swap _ _ _) (by decide)⟩

/-! ## Lines before the first file header -/

theorem diffRun_before_header (pre : List String)
    (h : ∀ l ∈ pre, fileRegexMatch l.data = none) :
    ∀ cursor : Int, ∃ c, diffRun ⟨[], "", cursor⟩ pre = ⟨[], "", c⟩ := by
  induction pre with
  | nil => intro cursor; exact ⟨cursor, rfl⟩
  | cons l ls ih =>
    intro cursor
    have hl := h l (List.mem_cons_self _ _)
    have hrest : ∀ x ∈ ls, fileRegexMatch x.data = none :=
      fun x hx => h x (List.mem_cons_of_mem _ hx)
    have hrun : diffRun ⟨[], "", cursor⟩ (l :: ls) = diffRun (diffStep ⟨[], "", cursor⟩ l) ls :=
      rfl
    have hstep : ∃ c, diffStep ⟨[], "", cursor⟩ l = ⟨[], "", c⟩ := by
      unfold diffStep
      rw [hl]
      simp only []
      cases hunkRegexMatch l.data with
      | some g => exact ⟨_, rfl⟩
      | none =>
        simp only []
        split_ifs <;> exact ⟨_, rfl⟩
    obtain ⟨c, hc⟩ := hstep
    rw [hrun, hc]
    exact ih hrest c

theorem changed_diffRun_cursor_irrelevant (post : List String) :
    ∀ (st1 st2 : DiffState), st1.changed = st2.changed → st1.currentFile = st2.currentFile →
      hunkBeforeFirstAdded post → (diffRun st1 post).changed = (diffRun st2 post).changed := by
  induction post with
  | nil => intro st1 st2 hc _ _; exact hc
  | cons l ls ih =>
    intro st1 st2 hc hf hyp
    obtain ⟨c1, f1, n1⟩ := st1
    obtain ⟨c2, f2, n2⟩ := st2
    simp only at hc hf
    subst hc hf
    have hrun : ∀ st : DiffState, diffRun st (l :: ls) = diffRun (diffStep st l) ls :=
      fun _ => rfl
    rw [hrun, hrun]
    unfold hunkBeforeFirstAdded at hyp
    by_cases hh : isHunkHeaderLine l
    · obtain ⟨hfile, hsome⟩ := hh
      obtain ⟨g, hg⟩ := Option.isSome_iff_exists.mp hsome
      have e : ∀ n : Int, diffStep ⟨c1, f1, n⟩ l = ⟨c1, f1, atoi g⟩ := by
        intro n
        unfold diffStep
        rw [hfile, hg]
      rw [e n1, e n2]
    · rw [if_neg hh] at hyp
      obtain ⟨hna, hrest⟩ := hyp
      apply ih _ _ _ _ hrest
      · unfold diffStep
        cases hm : fileRegexMatch l.data with
        | some p => rfl
        | none =>
          simp only []
          cases hg : hunkRegexMatch l.data with
          | some g => rfl
          | none =>
            simp only []
            have hplus : ¬ (hasPrefix l.data "+".data = true
                ∧ ¬ hasPrefix l.data "+++".data = true) :=
              fun hp => hna (isAddedLine_of_step l hp)
            rw [if_neg hplus]
            split_ifs <;> rfl
      · rw [diffStep_currentFile, diffStep_currentFile]

/-- When no added line comes between the first file header and the first hunk header after it,
the loop of `parseDiff` gives the same index once the lines before the first file header that
are not hunk headers are deleted. -/
theorem lines_before_header_inert_of_lines (pre post : List String) (header : String)
    (hpre : ∀ l ∈ pre, fileRegexMatch l.data = none)
    (hheader : (fileRegexMatch header.data).isSome = true)
    (hpost : hunkBeforeFirstAdded post) :
    parseDiff (pre ++ header :: post)
      = parseDiff (pre.filter (fun l => decide (isHunkHeaderLine l)) ++ header :: post) := by
  have hpre2 : ∀ l ∈ pre.filter (fun l => decide (isHunkHeaderLine l)),
      fileRegexMatch l.data = none := fun l hl => hpre l (List.mem_of_mem_filter hl)
  obtain ⟨c1, h1⟩ := diffRun_before_header pre hpre 0
  obtain ⟨c2, h2⟩ := diffRun_before_header _ hpre2 0
  have hinit : DiffState.init = ⟨[], "", 0⟩ := rfl
  unfold parseDiff
  have hrun : ∀ xs : List String, diffRun DiffState.init (xs ++ header :: post)
      = diffRun (diffStep (diffRun DiffState.init xs) header) post := by
    intro xs
    rw [diffRun_append]
    rfl
  rw [hrun, hrun, hinit, h1, h2]
  apply changed_diffRun_cursor_irrelevant post _ _ _ _ hpost
  · obtain ⟨p, hp⟩ := Option.isSome_iff_exists.mp hheader
    unfold diffStep
    rw [hp]
  · rw [diffStep_currentFile, diffStep_currentFile]

/-! ## bufio.Scanner and the report file read back -/

theorem dropCR_of_not_endsWithCR (s : String) (h : ¬ endsWithCR s) : dropCR s.data = s.data := by
  have h1 : ¬ s.data.getLast? = some (Char.ofNat 13) := h
  unfold dropCR
  rw [if_neg h1]

theorem byteLen_append (a b : List Char) : byteLen (a ++ b) = byteLen a + byteLen b := by
  unfold byteLen
  rw [List.map_append, List.sum_append]

theorem byteLen_dropCR_le (s : List Char) : byteLen (dropCR s) ≤ byteLen s := by
  unfold dropCR
  split_ifs with h
  · have hs := List.dropLast_append_getLast? (Char.ofNat 13) (by rw [h]; rfl)
    have hb := byteLen_append s.dropLast [Char.ofNat 13]
    rw [hs] at hb
    omega
  · exact Nat.le_refl _

theorem dropCR_newlineFree (s : List Char) (h : Char.ofNat 10 ∉ s) :
    Char.ofNat 10 ∉ dropCR s := by
  unfold dropCR
  split_ifs
  · exact fun hm => h (List.mem_of_mem_dropLast hm)
  · exact h

theorem textLinesLoop_line (w : List Char) (hw : Char.ofNat 10 ∉ w) :
    ∀ (cur rest : List Char),
      textLinesLoop cur (w ++ Char.ofNat 10 :: rest)
        = String.mk (dropCR (cur ++ w)) :: textLinesLoop [] rest := by
  induction w with
  | nil =>
    intro cur rest
    simp only [List.nil_append, List.append_nil]
    rw [textLinesLoop, if_pos rfl]
  | cons a w ih =>
    intro cur rest
    simp only [List.mem_cons, not_or] at hw
    rw [List.cons_append, textLinesLoop, if_neg (fun e => hw.1 e.symm), ih hw.2]
    simp

theorem textLinesLoop_newlineFree (content : List Char) :
    ∀ cur : List Char, Char.ofNat 10 ∉ cur →
      ∀ l ∈ textLinesLoop cur content, newlineFree l := by
  induction content with
  | nil =>
    intro cur hcur l hl
    unfold textLinesLoop at hl
    split_ifs at hl
    · cases hl
    · simp only [List.mem_singleton] at hl
      rw [hl]
      exact dropCR_newlineFree cur hcur
  | cons c cs ih =>
    intro cur hcur l hl
    unfold textLinesLoop at hl
    split_ifs at hl with hc
    · rcases List.mem_cons.mp hl with h | h
      · rw [h]
        exact dropCR_newlineFree cur hcur
      · exact ih [] (by simp) l h
    · apply ih (cur ++ [c]) _ l hl
      intro hm
      rcases List.mem_append.mp hm with h | h
      · exact hcur h
      · simp only [List.mem_singleton] at h
        exact hc h.symm

theorem textLines_newlineFree (content : List Char) : ∀ l ∈ textLines content, newlineFree l :=
  textLinesLoop_newlineFree content [] (by simp)

theorem scanLinesLoop_of_short (content : List Char) :
    ∀ cur : List Char, Char.ofNat 10 ∉ cur →
      (∀ l ∈ splitOnChar (Char.ofNat 10) (cur ++ content), byteLen l < maxScanTokenSize) →
      scanLinesLoop cur content = { lines := textLinesLoop cur content, tooLong := false } := by
  induction content with
  | nil =>
    intro cur hcur hshort
    rw [List.append_nil, splitOnChar_of_not_mem _ cur hcur] at hshort
    have hc := hshort cur (List.mem_singleton.mpr rfl)
    unfold scanLinesLoop textLinesLoop
    by_cases he : cur = []
    · rw [if_pos he, if_pos he]
    · rw [if_neg he, if_neg he, if_neg (Nat.not_le.mpr hc)]
  | cons c cs ih =>
    intro cur hcur hshort
    unfold scanLinesLoop textLinesLoop
    by_cases hc : c = Char.ofNat 10
    · rw [if_pos hc, if_pos hc]
      rw [hc, splitOnChar_append _ cur cs hcur] at hshort
      have h1 := hshort cur (List.mem_cons_self _ _)
      rw [if_neg (Nat.not_le.mpr h1),
        ih [] (by simp) (fun l hl => hshort l (List.mem_cons_of_mem _ (by simpa using hl)))]
      rfl
    · rw [if_neg hc, if_neg hc]
      apply ih (cur ++ [c])
      · intro hm
        rcases List.mem_append.mp hm with h | h
        · exact hcur h
        · simp only [List.mem_singleton] at h
          exact hc h.symm
      · intro l hl
        apply hshort l
        simpa using hl

/-- On a file all of whose lines are shorter than 65536 bytes the scanner delivers every line
and ends without error. -/
theorem scanLines_of_shortLines (content : List Char) (h : shortLines content) :
    scanLines content = { lines := textLines content, tooLong := false } :=
  scanLinesLoop_of_short content [] (by simp) (by simpa using h)

theorem scanLinesLoop_line (w : List Char) (hw : Char.ofNat 10 ∉ w) :
    ∀ (cur rest : List Char), byteLen (cur ++ w) < maxScanTokenSize →
      scanLinesLoop cur (w ++ Char.ofNat 10 :: rest)
        = (scanLinesLoop [] rest).cons (String.mk (dropCR (cur ++ w))) := by
  induction w with
  | nil =>
    intro cur rest hlen
    simp only [List.nil_append, List.append_nil] at hlen ⊢
    rw [scanLinesLoop, if_pos rfl, if_neg (Nat.not_le.mpr hlen)]
  | cons a w ih =>
    intro cur rest hlen
    simp only [List.mem_cons, not_or] at hw
    have hlen2 : byteLen ((cur ++ [a]) ++ w) < maxScanTokenSize := by
      simpa using hlen
    rw [List.cons_append, scanLinesLoop, if_neg (fun e => hw.1 e.symm), ih hw.2 _ _ hlen2]
    simp

/-- A line of 65536 bytes or more ends the scan with the error, and nothing is delivered from
it on. -/
theorem scanLinesLoop_tooLong (w : List Char) (hw : Char.ofNat 10 ∉ w) :
    ∀ (cur rest : List Char), maxScanTokenSize ≤ byteLen (cur ++ w) →
      scanLinesLoop cur (w ++ Char.ofNat 10 :: rest) = { lines := [], tooLong := true } := by
  induction w with
  | nil =>
    intro cur rest hlen
    simp only [List.nil_append, List.append_nil] at hlen ⊢
    rw [scanLinesLoop, if_pos rfl, if_pos hlen]
  | cons a w ih =>
    intro cur rest hlen
    simp only [List.mem_cons, not_or] at hw
    have hlen2 : maxScanTokenSize ≤ byteLen ((cur ++ [a]) ++ w) := by
      simpa using hlen
    rw [List.cons_append, scanLinesLoop, if_neg (fun e => hw.1 e.symm), ih hw.2 _ _ hlen2]

/-- Every line that the scanner delivers is free of newlines and shorter than 65536 bytes. -/
theorem scanLinesLoop_delivered (content : List Char) :
    ∀ cur : List Char, Char.ofNat 10 ∉ cur →
      ∀ l ∈ (scanLinesLoop cur content).lines,
        newlineFree l ∧ byteLen l.data < maxScanTokenSize := by
  induction content with
  | nil =>
    intro cur hcur l hl
    unfold scanLinesLoop at hl
    split_ifs at hl with h1 h2
    · cases hl
    · cases hl
    · simp only [List.mem_singleton] at hl
      rw [hl]
      exact ⟨dropCR_newlineFree cur hcur,
        Nat.lt_of_le_of_lt (byteLen_dropCR_le cur) (Nat.not_le.mp h2)⟩
  | cons c cs ih =>
    intro cur hcur l hl
    unfold scanLinesLoop at hl
    split_ifs at hl with hc h2
    · cases hl
    · rcases List.mem_cons.mp hl with h | h
      · rw [h]
        exact ⟨dropCR_newlineFree cur hcur,
          Nat.lt_of_le_of_lt (byteLen_dropCR_le cur) (Nat.not_le.mp h2)⟩
      · exact ih [] (by simp) l h
    · apply ih (cur ++ [c]) _ l hl
      intro hm
      rcases List.mem_append.mp hm with h | h
      · exact hcur h
      · simp only [List.mem_singleton] at h
        exact hc h.symm

theorem scanLines_delivered (content : List Char) :
    ∀ l ∈ (scanLines content).lines, newlineFree l ∧ byteLen l.data < maxScanTokenSize :=
  scanLinesLoop_delivered content [] (by simp)

theorem scanLinesLoop_raws (kept : List CoverBlock)
    (hnl : ∀ b ∈ kept, newlineFree b.Raw)
    (hlen : ∀ b ∈ kept, byteLen b.Raw.data < maxScanTokenSize)
    (hcr : ∀ b ∈ kept, ¬ endsWithCR b.Raw) :
    scanLinesLoop [] (kept.flatMap (fun b => b.Raw.data ++ [Char.ofNat 10]))
      = { lines := kept.map CoverBlock.Raw, tooLong := false } := by
  induction kept with
  | nil => rfl
  | cons b bs ih =>
    have h1 := hnl b (List.mem_cons_self _ _)
    have h2 := hcr b (List.mem_cons_self _ _)
    have h3 := hlen b (List.mem_cons_self _ _)
    rw [List.flatMap_cons, List.append_assoc, List.singleton_append,
      scanLinesLoop_line b.Raw.data h1 [] _ (by simpa using h3), List.nil_append,
      dropCR_of_not_endsWithCR _ h2,
      ih (fun x hx => hnl x (List.mem_cons_of_mem _ hx))
        (fun x hx => hlen x (List.mem_cons_of_mem _ hx))
        (fun x hx => hcr x (List.mem_cons_of_mem _ hx))]
    rfl

theorem scanLines_reportText (kept : List CoverBlock)
    (hnl : ∀ b ∈ kept, newlineFree b.Raw)
    (hlen : ∀ b ∈ kept, byteLen b.Raw.data < maxScanTokenSize)
    (hcr : ∀ b ∈ kept, ¬ endsWithCR b.Raw) :
    scanLines (reportText kept)
      = { lines := "mode: set" :: kept.map CoverBlock.Raw, tooLong := false } := by
  unfold scanLines reportText
  rw [scanLinesLoop_line "mode: set".data (by decide) [] _ (by decide),
    scanLinesLoop_raws kept hnl hlen hcr]
  rfl

theorem raw_of_coverageLine (line : String) (b : CoverBlock)
    (h : coverageLine line = LineOutcome.block b) : b.Raw = line := by
  unfold coverageLine at h
  split_ifs at h
  split at h
  · simp only [] at h
    split at h
    · split at h
      · split at h
        · simp only [LineOutcome.block.injEq] at h
          rw [← h]
        · cases h
      · cases h
    · cases h
  · cases h

theorem parseCoverageLoop_mem (lines : List String) :
    ∀ (acc blocks : List CoverBlock), parseCoverageLoop lines acc = some blocks →
      ∀ b ∈ blocks, b ∈ acc ∨ ∃ l ∈ lines, coverageLine l = LineOutcome.block b := by
  induction lines with
  | nil =>
    intro acc blocks h b hb
    simp only [parseCoverageLoop, Option.some.injEq] at h
    left
    rw [h]
    exact hb
  | cons l ls ih =>
    intro acc blocks h b hb
    unfold parseCoverageLoop at h
    cases hl : coverageLine l with
    | skipped =>
      rw [hl] at h
      rcases ih acc blocks h b hb with h1 | ⟨x, hx, hxb⟩
      · exact Or.inl h1
      · exact Or.inr ⟨x, List.mem_cons_of_mem _ hx, hxb⟩
    | block b1 =>
      rw [hl] at h
      rcases ih (acc ++ [b1]) blocks h b hb with h1 | ⟨x, hx, hxb⟩
      · rcases List.mem_append.mp h1 with h2 | h2
        · exact Or.inl h2
        · simp only [List.mem_singleton] at h2
          exact Or.inr ⟨l, List.mem_cons_self _ _, by rw [hl, h2]⟩
      · exact Or.inr ⟨x, List.mem_cons_of_mem _ hx, hxb⟩
    | indexPanic =>
      rw [hl] at h
      cases h

theorem parseCoverageLoop_raws (kept : List CoverBlock)
    (h : ∀ b ∈ kept, coverageLine b.Raw = LineOutcome.block b) :
    ∀ acc : List CoverBlock,
      parseCoverageLoop (kept.map CoverBlock.Raw) acc = some (acc ++ kept) := by
  induction kept with
  | nil => intro acc; simp [parseCoverageLoop]
  | cons b bs ih =>
    intro acc
    rw [List.map_cons, parseCoverageLoop, h b (List.mem_cons_self _ _)]
    simp only []
    rw [ih (fun x hx => h x (List.mem_cons_of_mem _ hx))]
    simp

theorem filterBlock_mem (sep : Char) (fuel : Nat) (changed : ChangedIndex) (b : CoverBlock)
    (acc out : List CoverBlock) (h : filterBlock sep fuel changed b acc = some out) :
    ∀ x ∈ out, x ∈ acc ∨ x = b := by
  unfold filterBlock at h
  cases hk : lookupFile b.File changed with
  | some cl =>
    rw [hk] at h
    simp only [scanBlock] at h
    cases hl : lineLoop fuel b.StartLine b.EndLine cl with
    | none => rw [hl] at h; cases h
    | some hit =>
      rw [hl] at h
      cases hit with
      | true =>
        simp only [Option.some.injEq] at h
        intro x hx
        rw [← h] at hx
        rcases List.mem_append.mp hx with h1 | h1
        · exact Or.inl h1
        · exact Or.inr (List.mem_singleton.mp h1)
      | false =>
        simp only [Option.some.injEq] at h
        intro x hx
        rw [← h] at hx
        exact Or.inl hx
  | none =>
    rw [hk] at h
    simp only [] at h
    rw [fallbackLoop_closed] at h
    split_ifs at h
    simp only [Option.some.injEq] at h
    intro x hx
    rw [← h] at hx
    rcases List.mem_append.mp hx with h1 | h1
    · exact Or.inl h1
    · exact Or.inr (List.eq_of_mem_replicate h1)

theorem filterLoop_mem (sep : Char) (fuel : Nat) (changed : ChangedIndex) :
    ∀ (blocks acc out : List CoverBlock), filterLoop sep fuel changed blocks acc = some out →
      ∀ x ∈ out, x ∈ acc ∨ x ∈ blocks := by
  intro blocks
  induction blocks with
  | nil =>
    intro acc out h x hx
    simp only [filterLoop, Option.some.injEq] at h
    rw [← h] at hx
    exact Or.inl hx
  | cons b bs ih =>
    intro acc out h x hx
    unfold filterLoop at h
    cases hb : filterBlock sep fuel changed b acc with
    | none => rw [hb] at h; cases h
    | some acc1 =>
      rw [hb] at h
      rcases ih acc1 out h x hx with h1 | h1
      · rcases filterBlock_mem sep fuel changed b acc acc1 hb x h1 with h2 | h2
        · exact Or.inl h2
        · exact Or.inr (by rw [h2]; exact List.mem_cons_self _ _)
      · exact Or.inr (List.mem_cons_of_mem _ h1)

theorem mem_of_mem_filterCoverage (sep : Char) (fuel : Nat) (changed : ChangedIndex)
    (blocks kept : List CoverBlock) (h : filterCoverage sep fuel blocks changed = some kept) :
    ∀ x ∈ kept, x ∈ blocks := by
  intro x hx
  rcases filterLoop_mem sep fuel changed blocks [] kept h x hx with h1 | h1
  · cases h1
  · exact h1

/-- C18, the claim fails for a raw line that ends with a carriage return: the profile line
`foo.go:5.1,7.2 3 1` followed by two carriage returns and a newline is delivered by the scanner
with one carriage return, which `Raw` keeps; the report writes it followed by a newline, and
read back the scanner drops the carriage return, so the block that is parsed again has
another `Raw`. -/
theorem report_round_trip_counterexample :
    parseCoverageFile "mode: set\nfoo.go:5.1,7.2 3 1\r\r\n".data = some ([crBlock], false)
    ∧ filterCoverage '/' 4 [crBlock] [("foo.go", [6])] = some [crBlock]
    ∧ reportText [crBlock] = "mode: set\nfoo.go:5.1,7.2 3 1\r\n".data
    ∧ parseCoverageFile (reportText [crBlock]) = some ([sampleBlock], false)
    ∧ [sampleBlock] ≠ [crBlock] := by
  refine ⟨by decide, by decide, by decide, by decide, by decide⟩

/-- C18, amended: for every kept block sequence that `filterCoverage` returns for the blocks
that `parseCoverage` returns for a profile file (with or without the scanner error), and in
which no `Raw` ends with a carriage return, parsing the report that `main` writes (the line
`mode: set` and the `Raw` of each kept block, each followed by a newline) with `parseCoverage`
yields exactly the kept block sequence, and no error. -/
theorem report_round_trip (content : List Char) (sep : Char) (fuel : Nat)
    (changed : ChangedIndex) (blocks kept : List CoverBlock) (err : Bool)
    (hparse : parseCoverageFile content = some (blocks, err))
    (hfilter : filterCoverage sep fuel blocks changed = some kept)
    (hcr : ∀ b ∈ kept, ¬ endsWithCR b.Raw) :
    parseCoverageFile (reportText kept) = some (kept, false) := by
  have hloop : parseCoverageLoop (scanLines content).lines [] = some blocks := by
    unfold parseCoverageFile parseCoverage at hparse
    cases hp : parseCoverageLoop (scanLines content).lines [] with
    | none => rw [hp] at hparse; cases hparse
    | some bs =>
      rw [hp] at hparse
      simp only [Option.map_some', Option.some.injEq, Prod.mk.injEq] at hparse
      rw [hparse.1]
  have hblock : ∀ b ∈ kept, coverageLine b.Raw = LineOutcome.block b
      ∧ newlineFree b.Raw ∧ byteLen b.Raw.data < maxScanTokenSize := by
    intro b hb
    have hin := mem_of_mem_filterCoverage sep fuel changed blocks kept hfilter b hb
    rcases parseCoverageLoop_mem (scanLines content).lines [] blocks hloop b hin with h | h
    · cases h
    · obtain ⟨l, hl, hlb⟩ := h
      have hraw := raw_of_coverageLine l b hlb
      rw [hraw]
      exact ⟨hlb, scanLines_delivered content l hl⟩
  unfold parseCoverageFile
  rw [scanLines_reportText kept (fun b hb => (hblock b hb).2.1)
    (fun b hb => (hblock b hb).2.2) hcr]
  unfold parseCoverage
  have hmode : coverageLine "mode: set" = LineOutcome.skipped := by decide
  simp only []
  rw [parseCoverageLoop, hmode]
  simp only []
  rw [parseCoverageLoop_raws kept (fun b hb => (hblock b hb).1) []]
  rfl

/-- C18, amended, at the profile `mode: atomic`, `foo.go:5.1,7.2 3 1`,
`/abs/repo/foo.go:5.1,7.2 3 1` with Windows line ends and a diff that adds line 6 of
`foo.go`. -/
theorem report_round_trip_witness :
    parseCoverageFile
        "mode: atomic\r\nfoo.go:5.1,7.2 3 1\r\n/abs/repo/foo.go:5.1,7.2 3 1\r\n".data
      = some ([sampleBlock, sampleAbsBlock], false)
    ∧ filterCoverage '/' 4 [sampleBlock, sampleAbsBlock] [("foo.go", [6])]
      = some [sampleBlock, sampleAbsBlock]
    ∧ (∀ b ∈ [sampleBlock, sampleAbsBlock], ¬ endsWithCR b.Raw)
    ∧ parseCoverageFile (reportText [sampleBlock, sampleAbsBlock])
      = some ([sampleBlock, sampleAbsBlock], false) :=
  ⟨by decide, by decide, by decide,
    report_round_trip
      "mode: atomic\r\nfoo.go:5.1,7.2 3 1\r\n/abs/repo/foo.go:5.1,7.2 3 1\r\n".data '/' 4
      [("foo.go", [6])] [sampleBlock, sampleAbsBlock] [sampleBlock, sampleAbsBlock] false
      (by decide) (by decide) (by decide)⟩

/-! ## strconv.Atoi on any text -/

theorem decimalLoop_lt_pow (s : List Char) (h : ∀ c ∈ s, isDigit c = true) :
    ∀ n, decimalLoop s n < (n + 1) * 10 ^ s.length := by
  induction s with
  | nil => intro n; simp [decimalLoop]
  | cons a as ih =>
    intro n
    unfold decimalLoop
    have ha := h a (List.mem_cons_self _ _)
    unfold isDigit at ha
    simp only [Bool.and_eq_true, decide_eq_true_eq] at ha
    have hd : digitVal a ≤ 9 := by unfold digitVal; omega
    have := ih (fun c hc => h c (List.mem_cons_of_mem _ hc)) (n * 10 + digitVal a)
    calc decimalLoop as (n * 10 + digitVal a)
        < (n * 10 + digitVal a + 1) * 10 ^ as.length := this
      _ ≤ ((n + 1) * 10) * 10 ^ as.length := by
          apply Nat.mul_le_mul_right
          omega
      _ = (n + 1) * 10 ^ (a :: as).length := by
          rw [List.length_cons, pow_succ]
          ring

theorem atoiFastLoop_eq_none (s : List Char) (h : s.dropWhile isDigit ≠ []) :
    ∀ n : Int, atoiFastLoop s n = none := by
  induction s with
  | nil => exact absurd rfl h
  | cons a as ih =>
    intro n
    unfold atoiFastLoop
    by_cases ha : isDigit a = true
    · rw [if_pos ha]
      apply ih
      rw [List.dropWhile_cons, if_pos ha] at h
      exact h
    · rw [if_neg ha]

theorem all_digits_of_dropWhile_eq_nil (s : List Char) (h : s.dropWhile isDigit = []) :
    ∀ c ∈ s, isDigit c = true := by
  induction s with
  | nil => intro c hc; cases hc
  | cons a as ih =>
    by_cases ha : isDigit a = true
    · rw [List.dropWhile_cons, if_pos ha] at h
      intro c hc
      rcases List.mem_cons.mp hc with h1 | h1
      · rw [h1]; exact ha
      · exact ih h c h1
    · rw [List.dropWhile_cons, if_neg ha] at h
      cases h

theorem takeWhile_eq_self_of_dropWhile_eq_nil (s : List Char) (h : s.dropWhile isDigit = []) :
    s.takeWhile isDigit = s := by
  have := List.takeWhile_append_dropWhile isDigit s
  rw [h, List.append_nil] at this
  exact this

theorem parseUintLoop_spec (s : List Char) :
    ∀ n : Nat, n ≤ 18446744073709551615 →
      parseUintLoop s n
        = if 18446744073709551615 < decimalLoop (s.takeWhile isDigit) n then UintResult.rangeErr
          else if s.dropWhile isDigit = [] then UintResult.ok (decimalLoop s n)
          else UintResult.syntaxErr := by
  induction s with
  | nil =>
    intro n hn
    simp only [parseUintLoop, List.takeWhile_nil, decimalLoop, List.dropWhile_nil, if_true]
    rw [if_neg (by omega)]
  | cons a as ih =>
    intro n hn
    unfold parseUintLoop
    by_cases ha : isDigit a = true
    · rw [if_pos ha, List.takeWhile_cons, if_pos ha, List.dropWhile_cons, if_pos ha]
      have hge := decimalLoop_ge (as.takeWhile isDigit) (n * 10 + digitVal a)
      have hstep : decimalLoop (a :: as.takeWhile isDigit) n
          = decimalLoop (as.takeWhile isDigit) (n * 10 + digitVal a) := rfl
      have hstep2 : decimalLoop (a :: as) n = decimalLoop as (n * 10 + digitVal a) := rfl
      rw [hstep, hstep2]
      by_cases h1 : 1844674407370955162 ≤ n
      · rw [if_pos h1, if_pos (by omega)]
      · rw [if_neg h1]
        by_cases h2 : 18446744073709551615 < n * 10 + digitVal a
        · rw [if_pos h2, if_pos (by omega)]
        · rw [if_neg h2]
          exact ih _ (by omega)
    · rw [if_neg ha, List.takeWhile_cons, if_neg ha, List.dropWhile_cons, if_neg ha]
      simp only [decimalLoop]
      rw [if_neg (by omega), if_neg (List.cons_ne_nil _ _)]
theorem length_le_byteLen (s : List Char) : s.length ≤ byteLen s := by
  induction s with
  | nil => simp [byteLen]
  | cons a as ih =>
    unfold byteLen at ih ⊢
    simp only [List.length_cons, List.map_cons, List.sum_cons]
    have := Char.utf8Size_pos a
    omega

theorem length_stripSign_le (s : List Char) : (stripSign s).length ≤ s.length := by
  cases s with
  | nil => simp [stripSign]
  | cons c cs =>
    have : stripSign (c :: cs) = if c = '+' ∨ c = '-' then cs else c :: cs := rfl
    rw [this]
    split_ifs <;> simp

theorem length_takeWhile_le_length (p : Char → Bool) (s : List Char) :
    (s.takeWhile p).length ≤ s.length := by
  have h := congrArg List.length (List.takeWhile_append_dropWhile p s)
  rw [List.length_append] at h
  omega

theorem decimalValue_leadingDigits_lt (s : List Char) (h : byteLen s < 19) :
    decimalValue (leadingDigits s) < 1000000000000000000 := by
  unfold decimalValue leadingDigits
  have hd : ∀ c ∈ (stripSign s).takeWhile isDigit, isDigit c = true :=
    fun c hc => List.mem_takeWhile_imp hc
  have hlen : ((stripSign s).takeWhile isDigit).length ≤ 18 := by
    have h1 := length_takeWhile_le_length isDigit (stripSign s)
    have h2 := length_stripSign_le s
    have h3 := length_le_byteLen s
    omega
  have h1 := decimalLoop_lt_pow _ hd 0
  have h2 : 10 ^ ((stripSign s).takeWhile isDigit).length ≤ 10 ^ 18 :=
    Nat.pow_le_pow_right (by norm_num) hlen
  omega

theorem isIntegerText_iff (s : List Char) :
    isIntegerText s ↔ stripSign s ≠ [] ∧ (stripSign s).dropWhile isDigit = [] := by
  unfold isIntegerText isDigits
  constructor
  · rintro ⟨h1, h2⟩
    refine ⟨h1, ?_⟩
    rw [List.dropWhile_eq_nil_iff]
    exact h2
  · rintro ⟨h1, h2⟩
    exact ⟨h1, all_digits_of_dropWhile_eq_nil _ h2⟩
theorem atoi_eq_atoiSpec (s : List Char) : atoi s = atoiSpec s := by
  cases s with
  | nil => decide
  | cons c cs =>
    have hbody : stripSign (c :: cs) = if c = '+' ∨ c = '-' then cs else c :: cs := rfl
    have hbody2 : (if c = '-' ∨ c = '+' then cs else c :: cs) = stripSign (c :: cs) := by
      rw [hbody]
      by_cases h : c = '+' ∨ c = '-'
      · rw [if_pos h, if_pos (Or.symm h)]
      · rw [if_neg h, if_neg (fun h1 => h (Or.symm h1))]
    have hneg : isNegativeText (c :: cs) = decide (c = '-') := rfl
    have hlead : leadingDigits (c :: cs) = (stripSign (c :: cs)).takeWhile isDigit := rfl
    have hint := isIntegerText_iff (c :: cs)
    have hval : integerValue (c :: cs)
        = if c = '-' then -(decimalValue (stripSign (c :: cs)) : Int)
          else (decimalValue (stripSign (c :: cs)) : Int) := by
      unfold integerValue
      rw [hneg]
      by_cases h : c = '-' <;> simp [h]
    generalize stripSign (c :: cs) = body at hbody hbody2 hlead hint hval
    unfold atoiSpec
    rw [hlead, hneg]
    by_cases hlen : 0 < byteLen (c :: cs) ∧ byteLen (c :: cs) < 19
    · have hv := decimalValue_leadingDigits_lt (c :: cs) hlen.2
      rw [hlead] at hv
      unfold atoi
      rw [if_pos hlen]
      simp only []
      have hr : ¬ 18446744073709551615 < decimalValue (body.takeWhile isDigit) := by omega
      rw [hbody2, if_neg hr]
      by_cases hnil : body = []
      · rw [if_pos hnil, if_neg (fun h => (hint.mp h).1 hnil)]
      · rw [if_neg hnil]
        by_cases hrest : body.dropWhile isDigit = []
        · have hd := all_digits_of_dropWhile_eq_nil body hrest
          have hfast := atoiFastLoop_eq body hd 0
          simp only [Nat.cast_zero] at hfast
          rw [hfast, if_pos (hint.mpr ⟨hnil, hrest⟩), hval]
          rw [takeWhile_eq_self_of_dropWhile_eq_nil body hrest] at hv
          have hdv : decimalLoop body 0 = decimalValue body := rfl
          simp only []
          rw [hdv]
          unfold minInt maxInt
          by_cases hm : c = '-'
          · simp only [hm, if_true]
            rw [if_neg (by omega), if_neg (by omega)]
          · simp only [hm, if_false]
            rw [if_neg (by omega), if_neg (by omega)]
        · rw [atoiFastLoop_eq_none body hrest 0, if_neg (fun h => hrest (hint.mp h).2)]
    · unfold atoi
      rw [if_neg hlen]
      unfold parseInt
      simp only []
      rw [← hbody]
      unfold parseUint
      by_cases hnil : body = []
      · rw [if_pos hnil]
        simp only []
        have h0 : decimalValue (body.takeWhile isDigit) = 0 := by rw [hnil]; rfl
        have hr : ¬ 18446744073709551615 < 0 := by omega
        rw [h0, if_neg hr, if_neg (fun h => (hint.mp h).1 hnil)]
      · rw [if_neg hnil, parseUintLoop_spec body 0 (by omega)]
        have hdv : decimalLoop (body.takeWhile isDigit) 0
            = decimalValue (body.takeWhile isDigit) := rfl
        rw [hdv]
        by_cases hrange : 18446744073709551615 < decimalValue (body.takeWhile isDigit)
        · rw [if_pos hrange, if_pos hrange]
        · rw [if_neg hrange, if_neg hrange]
          by_cases hrest : body.dropWhile isDigit = []
          · rw [if_pos hrest, if_pos (hint.mpr ⟨hnil, hrest⟩), hval]
            rw [takeWhile_eq_self_of_dropWhile_eq_nil body hrest] at hrange
            have hdv2 : decimalLoop body 0 = decimalValue body := rfl
            simp only []
            rw [hdv2]
            unfold minInt maxInt
            by_cases hm : c = '-'
            · simp only [hm, decide_True, if_true, Bool.true_eq_false, false_and, true_and,
                if_false]
              split_ifs <;> omega
            · simp only [hm, decide_False, if_false, true_and, Bool.false_eq_true, false_and]
              split_ifs <;> omega
          · rw [if_neg hrest, if_neg (fun h => hrest (hint.mp h).2)]
theorem atoiSpec_eq_zero (t : List Char) (h : ¬ isIntegerText t)
    (hlead : decimalValue (leadingDigits t) ≤ 18446744073709551615) : atoiSpec t = 0 := by
  unfold atoiSpec
  rw [if_neg (by omega), if_neg h]

theorem leadingDigits_of_isIntegerText (t : List Char) (h : isIntegerText t) :
    leadingDigits t = stripSign t := by
  unfold leadingDigits
  exact takeWhile_eq_self_of_dropWhile_eq_nil _ ((isIntegerText_iff t).mp h).2

theorem integerValue_cases (t : List Char) :
    integerValue t = (decimalValue (stripSign t) : Int)
      ∨ (isNegativeText t = true ∧ integerValue t = -(decimalValue (stripSign t) : Int)) := by
  unfold integerValue
  by_cases h : isNegativeText t = true
  · right
    rw [if_pos h]
    exact ⟨h, rfl⟩
  · left
    rw [if_neg h]

theorem atoiSpec_of_too_large (t : List Char) (h : isIntegerText t)
    (hv : maxInt < integerValue t) : atoiSpec t = maxInt := by
  have hl := leadingDigits_of_isIntegerText t h
  unfold atoiSpec
  rw [hl]
  unfold maxInt minInt at *
  have hneg : ¬ isNegativeText t = true := by
    intro hn
    unfold integerValue at hv
    rw [if_pos hn] at hv
    omega
  split_ifs <;> first | rfl | omega

theorem atoiSpec_of_too_small (t : List Char) (h : isIntegerText t)
    (hv : integerValue t < minInt) : atoiSpec t = minInt := by
  have hl := leadingDigits_of_isIntegerText t h
  unfold atoiSpec
  rw [hl]
  unfold maxInt minInt at *
  have hneg : isNegativeText t = true := by
    by_contra hn
    unfold integerValue at hv
    rw [if_neg hn] at hv
    omega
  split_ifs <;> rfl

theorem atoiSpec_of_fits (t : List Char) (h : isIntegerText t)
    (hv : isInt64 (integerValue t)) : atoiSpec t = integerValue t := by
  have hl := leadingDigits_of_isIntegerText t h
  unfold atoiSpec
  rw [hl]
  unfold isInt64 maxInt minInt at *
  rcases integerValue_cases t with hc | ⟨_, hc⟩
  · rw [hc] at hv ⊢
    split_ifs <;> first | rfl | omega
  · rw [hc] at hv ⊢
    split_ifs <;> first | rfl | omega

theorem coverageLine_of_parts (line : String)
    (loc p1 p2 file pos r0 r1 s0 s1 e0 e1 : List Char)
    (hmode : ¬ isModeLine line)
    (hfields : fields line.data = [loc, p1, p2])
    (hcolon : splitN2 ':' loc = [file, pos])
    (hcomma : splitOnChar ',' pos = [r0, r1])
    (hs0 : (splitOnChar '.' r0).get? 0 = some s0)
    (hs1 : (splitOnChar '.' r0).get? 1 = some s1)
    (he0 : (splitOnChar '.' r1).get? 0 = some e0)
    (he1 : (splitOnChar '.' r1).get? 1 = some e1) :
    coverageLine line
      = LineOutcome.block
          { File := String.mk file
            StartLine := atoi s0
            StartCol := atoi s1
            EndLine := atoi e0
            EndCol := atoi e1
            NumStmt := atoi p1
            Count := atoi p2
            Raw := line } := by
  have hm : ¬ hasPrefix line.data "mode:".data = true := hmode
  unfold coverageLine
  rw [if_neg hm, hfields]
  simp only [hcolon, hcomma, hs0, hs1, he0, he1]

/-! ## The numeric subfields of a block -/

/-- C17, the claim fails for numbers that are out of range: in the three-field line
`foo.go:5.1,99999999999999999999.2 3 1` the end line is a digit string too large for `int` and
is recorded as 9223372036854775807, not as 0; in `foo.go:5.1,7.2 99999999999999999999x 1` the
statement count is no integer at all and is recorded as 9223372036854775807 as well, the range
error of its twenty digits being met before the `x`. -/
theorem zero_on_failure_counterexample :
    isIntegerText "99999999999999999999".data
    ∧ maxInt < integerValue "99999999999999999999".data
    ∧ coverageLine "foo.go:5.1,99999999999999999999.2 3 1"
        = LineOutcome.block ⟨"foo.go", 5, 1, 9223372036854775807, 2, 3, 1,
            "foo.go:5.1,99999999999999999999.2 3 1"⟩
    ∧ ¬ isIntegerText "99999999999999999999x".data
    ∧ coverageLine "foo.go:5.1,7.2 99999999999999999999x 1"
        = LineOutcome.block ⟨"foo.go", 5, 1, 7, 2, 9223372036854775807, 1,
            "foo.go:5.1,7.2 99999999999999999999x 1"⟩ := by
  refine ⟨by decide, by decide, by decide, by decide, by decide⟩

/-- C17, amended: for every line that does not begin with `mode:`, has three fields, and whose
location has a colon, one comma and a `.` in each line.col pair, the block holds for each of
the six numeric subfields the value of its own text, whatever the other texts are: `0` when
the text is not an integer (an optional sign and a non-empty string of decimal digits; so
for non-digits and for the empty text) and its leading digits do not pass `2^64 - 1`; the
integer when it fits `int`; and the nearest bound of `int`, `2^63 - 1` or `-2^63`, not `0`,
when the integer is too large or too small. -/
theorem numeric_subfield_values (line : String)
    (loc p1 p2 file pos r0 r1 s0 s1 e0 e1 : List Char)
    (hmode : ¬ isModeLine line)
    (hfields : fields line.data = [loc, p1, p2])
    (hcolon : splitN2 ':' loc = [file, pos])
    (hcomma : splitOnChar ',' pos = [r0, r1])
    (hs0 : (splitOnChar '.' r0).get? 0 = some s0)
    (hs1 : (splitOnChar '.' r0).get? 1 = some s1)
    (he0 : (splitOnChar '.' r1).get? 0 = some e0)
    (he1 : (splitOnChar '.' r1).get? 1 = some e1) :
    coverageLine line
      = LineOutcome.block
          { File := String.mk file
            StartLine := atoiSpec s0
            StartCol := atoiSpec s1
            EndLine := atoiSpec e0
            EndCol := atoiSpec e1
            NumStmt := atoiSpec p1
            Count := atoiSpec p2
            Raw := line }
    ∧ (∀ t, ¬ isIntegerText t → decimalValue (leadingDigits t) ≤ 18446744073709551615 →
        atoiSpec t = 0)
    ∧ (∀ t, isIntegerText t → isInt64 (integerValue t) → atoiSpec t = integerValue t)
    ∧ (∀ t, isIntegerText t → maxInt < integerValue t → atoiSpec t = maxInt)
    ∧ (∀ t, isIntegerText t → integerValue t < minInt → atoiSpec t = minInt) := by
  refine ⟨?_, atoiSpec_eq_zero, atoiSpec_of_fits, atoiSpec_of_too_large,
    atoiSpec_of_too_small⟩
  rw [coverageLine_of_parts line loc p1 p2 file pos r0 r1 s0 s1 e0 e1 hmode hfields hcolon
    hcomma hs0 hs1 he0 he1]
  simp only [atoi_eq_atoiSpec]

/-- C17, amended, at the line `foo.go:x.,+7.2.9 -3 1e3`, whose start line `x` and count `1e3`
are no integers and whose start column is empty. -/
theorem numeric_subfield_values_witness :
    ¬ isModeLine "foo.go:x.,+7.2.9 -3 1e3"
    ∧ fields ("foo.go:x.,+7.2.9 -3 1e3" : String).data
        = ["foo.go:x.,+7.2.9".data, "-3".data, "1e3".data]
    ∧ atoiSpec "x".data = 0 ∧ atoiSpec [] = 0 ∧ atoiSpec "+7".data = 7
    ∧ atoiSpec "2".data = 2 ∧ atoiSpec "-3".data = -3 ∧ atoiSpec "1e3".data = 0
    ∧ (coverageLine "foo.go:x.,+7.2.9 -3 1e3"
        = LineOutcome.block
            { File := String.mk "foo.go".data
              StartLine := atoiSpec "x".data
              StartCol := atoiSpec []
              EndLine := atoiSpec "+7".data
              EndCol := atoiSpec "2".data
              NumStmt := atoiSpec "-3".data
              Count := atoiSpec "1e3".data
              Raw := "foo.go:x.,+7.2.9 -3 1e3" }
      ∧ (∀ t, ¬ isIntegerText t → decimalValue (leadingDigits t) ≤ 18446744073709551615 →
          atoiSpec t = 0)
      ∧ (∀ t, isIntegerText t → isInt64 (integerValue t) → atoiSpec t = integerValue t)
      ∧ (∀ t, isIntegerText t → maxInt < integerValue t → atoiSpec t = maxInt)
      ∧ (∀ t, isIntegerText t → integerValue t < minInt → atoiSpec t = minInt)) :=
  ⟨by decide, by decide, by decide, by decide, by decide, by decide, by decide, by decide,
    numeric_subfield_values "foo.go:x.,+7.2.9 -3 1e3" "foo.go:x.,+7.2.9".data "-3".data
      "1e3".data "foo.go".data "x.,+7.2.9".data "x.".data "+7.2.9".data "x".data [] "+7".data
      "2".data (by decide) (by decide) (by decide) (by decide) (by decide) (by decide)
      (by decide) (by decide)⟩

/-! ## Files with a line that the scanner does not take -/

theorem scanLinesLoop_of_long (content : List Char) :
    ∀ cur : List Char, Char.ofNat 10 ∉ cur →
      (∃ l ∈ splitOnChar (Char.ofNat 10) (cur ++ content), maxScanTokenSize ≤ byteLen l) →
      (scanLinesLoop cur content).tooLong = true := by
  induction content with
  | nil =>
    intro cur hcur hlong
    rw [List.append_nil, splitOnChar_of_not_mem _ cur hcur] at hlong
    obtain ⟨l, hl, hlen⟩ := hlong
    rw [List.mem_singleton.mp hl] at hlen
    have hne : cur ≠ [] := by
      intro he
      rw [he] at hlen
      exact absurd hlen (by decide)
    unfold scanLinesLoop
    rw [if_neg hne, if_pos hlen]
  | cons c cs ih =>
    intro cur hcur hlong
    unfold scanLinesLoop
    by_cases hc : c = Char.ofNat 10
    · rw [if_pos hc]
      rw [hc, splitOnChar_append _ cur cs hcur] at hlong
      by_cases hlen : maxScanTokenSize ≤ byteLen cur
      · rw [if_pos hlen]
      · rw [if_neg hlen]
        obtain ⟨l, hl, hll⟩ := hlong
        rcases List.mem_cons.mp hl with h | h
        · rw [h] at hll
          exact absurd hll hlen
        · exact ih [] (by simp) ⟨l, by simpa using h, hll⟩
    · rw [if_neg hc]
      apply ih (cur ++ [c])
      · intro hm
        rcases List.mem_append.mp hm with h | h
        · exact hcur h
        · simp only [List.mem_singleton] at h
          exact hc h.symm
      · obtain ⟨l, hl, hll⟩ := hlong
        exact ⟨l, by simpa using hl, hll⟩

/-- The scanner ends with `bufio.ErrTooLong` exactly on the files that have a line of 65536
bytes or more. -/
theorem scanLines_tooLong_iff (content : List Char) :
    (scanLines content).tooLong = true ↔ ¬ shortLines content := by
  constructor
  · intro h hs
    rw [scanLines_of_shortLines content hs] at h
    cases h
  · intro h
    unfold shortLines at h
    simp only [not_forall, Nat.not_lt] at h
    obtain ⟨l, hl, hlen⟩ := h
    exact scanLinesLoop_of_long content [] (by simp) ⟨l, by simpa using hl, hlen⟩

theorem parseCoverageFile_of_shortLines (content : List Char) (h : shortLines content) :
    parseCoverageFile content
      = (parseCoverage (textLines content)).map (fun blocks => (blocks, false)) := by
  unfold parseCoverageFile
  rw [scanLines_of_shortLines content h]

theorem parseDiffFile_of_shortLines (content : List Char) (h : shortLines content) :
    parseDiffFile content = (parseDiff (textLines content), false) := by
  unfold parseDiffFile
  rw [scanLines_of_shortLines content h]

theorem textLinesLoop_fileText (ls : List String) (hnl : ∀ l ∈ ls, newlineFree l) :
    textLinesLoop [] (fileText ls) = ls.map (fun l => String.mk (dropCR l.data)) := by
  induction ls with
  | nil => rfl
  | cons l ls ih =>
    have h1 := hnl l (List.mem_cons_self _ _)
    unfold fileText at ih ⊢
    rw [List.flatMap_cons, List.append_assoc, List.singleton_append,
      textLinesLoop_line l.data h1 [] _, List.nil_append,
      ih (fun x hx => hnl x (List.mem_cons_of_mem _ hx))]
    rfl

theorem textLines_fileText (ls : List String) (hnl : ∀ l ∈ ls, newlineFree l) :
    textLines (fileText ls) = ls.map (fun l => String.mk (dropCR l.data)) :=
  textLinesLoop_fileText ls hnl

/-- The scan of a file stops at its first line of 65536 bytes or more: the lines before it
are delivered, and the error is `bufio.ErrTooLong`. -/
theorem scanLines_fileText_tooLong (pre : List String) (long : String) (post : List String)
    (hpre : ∀ l ∈ pre, newlineFree l ∧ byteLen l.data < maxScanTokenSize)
    (hnl : newlineFree long) (hlong : maxScanTokenSize ≤ byteLen long.data) :
    scanLines (fileText (pre ++ long :: post))
      = { lines := pre.map (fun l => String.mk (dropCR l.data)), tooLong := true } := by
  unfold scanLines
  induction pre with
  | nil =>
    unfold fileText
    rw [List.nil_append, List.flatMap_cons, List.append_assoc, List.singleton_append,
      scanLinesLoop_tooLong long.data hnl [] _ (by simpa using hlong)]
    rfl
  | cons l ls ih =>
    have h1 := hpre l (List.mem_cons_self _ _)
    unfold fileText at ih ⊢
    rw [List.cons_append, List.flatMap_cons, List.append_assoc, List.singleton_append,
      scanLinesLoop_line l.data h1.1 [] _ (by simpa using h1.2), List.nil_append,
      ih (fun x hx => hpre x (List.mem_cons_of_mem _ hx))]
    rfl

theorem byteLen_replicate_x (n : Nat) : byteLen (List.replicate n 'x') = n := by
  induction n with
  | zero => rfl
  | succ n ih =>
    rw [List.replicate_succ]
    have h : byteLen ('x' :: List.replicate n 'x') = 1 + byteLen (List.replicate n 'x') := rfl
    rw [h, ih]
    omega

theorem hunkRegexMatch_of_no_minus (s : List Char) (h : '-' ∉ s) : hunkRegexMatch s = none := by
  induction s with
  | nil => rfl
  | cons c cs ih =>
    have hp : ¬ hasPrefix (c :: cs) "@@ -".data = true := by
      intro hp
      obtain ⟨t, ht⟩ := (hasPrefix_iff (c :: cs) "@@ -".data).mp hp
      apply h
      rw [← ht]
      exact List.mem_append_left _ (by decide)
    have hat : hunkAt (c :: cs) = none := by
      unfold hunkAt expectLit
      rw [if_neg hp]
    rw [hunkRegexMatch, hat]
    exact ih (fun hm => h (List.mem_cons_of_mem _ hm))

theorem parseCoverageFile_tooLong (pre : List String) (long : String) (post : List String)
    (hpre : ∀ l ∈ pre, newlineFree l ∧ byteLen l.data < maxScanTokenSize)
    (hnl : newlineFree long) (hlong : maxScanTokenSize ≤ byteLen long.data) :
    parseCoverageFile (fileText (pre ++ long :: post))
      = (parseCoverage (pre.map (fun l => String.mk (dropCR l.data)))).map
          (fun blocks => (blocks, true)) := by
  unfold parseCoverageFile
  rw [scanLines_fileText_tooLong pre long post hpre hnl hlong]

theorem parseDiffFile_tooLong (pre : List String) (long : String) (post : List String)
    (hpre : ∀ l ∈ pre, newlineFree l ∧ byteLen l.data < maxScanTokenSize)
    (hnl : newlineFree long) (hlong : maxScanTokenSize ≤ byteLen long.data) :
    parseDiffFile (fileText (pre ++ long :: post))
      = (parseDiff (pre.map (fun l => String.mk (dropCR l.data))), true) := by
  unfold parseDiffFile
  rw [scanLines_fileText_tooLong pre long post hpre hnl hlong]

theorem data_append_longLine (p : String) :
    (p ++ longLine).data = p.data ++ List.replicate maxScanTokenSize 'x' := by
  rw [String.data_append]
  rfl

theorem newlineFree_append_longLine (p : String) (h : newlineFree p) :
    newlineFree (p ++ longLine) := by
  unfold newlineFree at h ⊢
  rw [data_append_longLine]
  intro hm
  rcases List.mem_append.mp hm with h1 | h1
  · exact h h1
  · exact absurd (List.eq_of_mem_replicate h1) (by decide)

theorem byteLen_append_longLine (p : String) :
    maxScanTokenSize ≤ byteLen (p ++ longLine).data := by
  rw [data_append_longLine, byteLen_append, byteLen_replicate_x]
  exact Nat.le_add_left _ _

theorem hunkRegexMatch_append_longLine (p : String) (h : '-' ∉ p.data) :
    hunkRegexMatch (p ++ longLine).data = none := by
  apply hunkRegexMatch_of_no_minus
  rw [data_append_longLine]
  intro hm
  rcases List.mem_append.mp hm with h1 | h1
  · exact h h1
  · exact absurd (List.eq_of_mem_replicate h1) (by decide)

theorem newlineFree_longLine : newlineFree longLine := by
  unfold newlineFree
  intro hm
  exact absurd (List.eq_of_mem_replicate hm) (by decide)

theorem byteLen_longLine : byteLen longLine.data = maxScanTokenSize :=
  byteLen_replicate_x maxScanTokenSize

theorem fields_longLine : fields longLine.data = [longLine.data] := by
  unfold fields
  have h := fieldsLoop_word_end longLine.data
    (fun c hc => by rw [List.eq_of_mem_replicate hc]; decide) []
  rw [List.nil_append] at h
  apply h
  intro he
  have hl := congrArg List.length he
  rw [show longLine.data = List.replicate maxScanTokenSize 'x' from rfl,
    List.length_replicate] at hl
  exact absurd hl (by decide)

theorem hasPrefix_append_longLine (p : String) :
    hasPrefix (p ++ longLine).data p.data = true := by
  rw [data_append_longLine]
  exact (hasPrefix_iff _ _).mpr (List.prefix_append _ _)

/-! ## parseDiff on the content of a file -/

theorem newlineFree_of_append (p q : String) (h : newlineFree (p ++ q)) : newlineFree q := by
  unfold newlineFree at h ⊢
  rw [String.data_append] at h
  exact fun hm => h (List.mem_append_right _ hm)

/-- C7, the claim fails in two places. When the numbering passes the largest `int`: after the
header `@@ -1,3 +9223372036854775807,3 @@` a context line and an added line record the added
line at `-9223372036854775808`, not at `9223372036854775807 + 1`. And when a line is too long
for the scanner: after `+++ b/f.go` and `@@ -1,3 +10,3 @@`, a context line of 65537 bytes ends
the scan, `parseDiff` returns the error `bufio.ErrTooLong`, and the added line after it is not
recorded, where a context line that the scanner takes lets it be recorded at 11. -/
theorem diff_line_numbering_counterexample :
    lastLineHunk.text = "@@ -1,3 +9223372036854775807,3 @@"
    ∧ lastLineHunk.wellFormed
    ∧ (decimalValue lastLineHunk.newStart : Int) = 9223372036854775807
    ∧ isContextLine " context" ∧ isAddedLine "+added"
    ∧ isBodyLine " context" ∧ isBodyLine "+added"
    ∧ parseDiffFile (fileText ["+++ b/f.go", lastLineHunk.text, " context", "+added"])
        = ([("f.go", [-9223372036854775808])], false)
    ∧ (9223372036854775807 + 1 : Int) ∉ [(-9223372036854775808 : Int)]
    ∧ isBodyLine (" " ++ longLine)
    ∧ parseDiffFile (fileText ["+++ b/f.go", "@@ -1,3 +10,3 @@", " " ++ longLine, "+added"])
        = ([("f.go", [])], true)
    ∧ parseDiffFile (fileText ["+++ b/f.go", "@@ -1,3 +10,3 @@", " context", "+added"])
        = ([("f.go", [11])], false) := by
  refine ⟨by decide, by decide, by decide, by decide, by decide, by decide, by decide,
    by decide, by decide,
    ⟨Or.inl (hasPrefix_append_longLine " "), hunkRegexMatch_append_longLine " " (by decide)⟩,
    ?_, by decide⟩
  exact (parseDiffFile_tooLong ["+++ b/f.go", "@@ -1,3 +10,3 @@"] (" " ++ longLine)
      ["+added"] (by decide) (newlineFree_append_longLine " " (by decide))
      (byteLen_append_longLine " ")).trans (by decide)

/-- C7, amended: for a diff file all of whose lines are shorter than 65536 bytes and whose
lines are a file header `+++ b/<path>`, a hunk header whose new-side start is `n`, and body
lines that are context, added or removed lines without hunk-header text, where `n` plus the
number of context and added lines does not exceed the largest `int`, `parseDiff` returns no
error and the single entry of `<path>`, and its set holds exactly the numbers
`n + (number of context and added lines before the added line)`, one for each added line. -/
theorem diff_line_numbering (content : List Char) (path : String) (hunk : HunkHeader)
    (body : List String) (hshort : shortLines content)
    (hlines : textLines content = ("+++ b/" ++ path) :: hunk.text :: body)
    (hpath : path ≠ "") (hw : hunk.wellFormed)
    (hbody : ∀ l ∈ body, isBodyLine l)
    (hbound : (decimalValue hunk.newStart : Int) + (body.countP advancesCursor : Nat)
      ≤ maxInt) :
    ∃ set, parseDiffFile content = ([(path, set)], false)
      ∧ ∀ k, k ∈ set ↔ ∃ pre l post, body = pre ++ l :: post ∧ isAddedLine l
            ∧ k = (decimalValue hunk.newStart : Int) + (pre.countP advancesCursor : Nat) := by
  have hnl : newlineFree path := by
    apply newlineFree_of_append "+++ b/" path
    apply textLines_newlineFree content
    rw [hlines]
    exact List.mem_cons_self _ _
  obtain ⟨set, h1, h2⟩ := diff_line_numbering_of_lines path hunk body hpath hnl hw hbody hbound
  refine ⟨set, ?_, h2⟩
  rw [parseDiffFile_of_shortLines content hshort, hlines, h1]

/-- C7, amended, at the diff of the specification: `@@ -1,3 +10,3 @@`, a context line, an
added line, a removed line, a context line; the result is exactly `{11}` for `foo.go`. -/
theorem diff_line_numbering_witness :
    shortLines sampleDiffText
    ∧ textLines sampleDiffText = ("+++ b/" ++ "foo.go") :: sampleHunk.text
        :: [" context", "+added", "-removed", " context"]
    ∧ sampleHunk.text = "@@ -1,3 +10,3 @@"
    ∧ ("foo.go" : String) ≠ "" ∧ sampleHunk.wellFormed
    ∧ (∀ l ∈ [" context", "+added", "-removed", " context"], isBodyLine l)
    ∧ parseDiffFile sampleDiffText = ([("foo.go", [11])], false)
    ∧ ∃ set, parseDiffFile sampleDiffText = ([("foo.go", set)], false)
      ∧ ∀ k, k ∈ set ↔ ∃ pre l post,
            [" context", "+added", "-removed", " context"] = pre ++ l :: post ∧ isAddedLine l
            ∧ k = (decimalValue sampleHunk.newStart : Int) + (pre.countP advancesCursor : Nat) :=
  ⟨by decide, by decide, by decide, by decide, by decide, by decide, by decide,
    diff_line_numbering sampleDiffText "foo.go" sampleHunk
      [" context", "+added", "-removed", " context"]
      (by decide) (by decide) (by decide) (by decide) (by decide) (by decide)⟩

/-- C8, the claim fails for a diff with a line that is too long for the scanner: in the diff
`+++ b/a.go`, a line of 65536 bytes, `+++ b/b.go` the scan ends at the second line,
`parseDiff` returns the error `bufio.ErrTooLong` and an index with the key `a.go` alone: the
path `b.go` of the second file header is not a key. -/
theorem parseDiff_keys_counterexample :
    isFileHeader "+++ b/b.go" "b.go"
    ∧ "+++ b/b.go" ∈ textLines (fileText ["+++ b/a.go", longLine, "+++ b/b.go"])
    ∧ parseDiffFile (fileText ["+++ b/a.go", longLine, "+++ b/b.go"]) = ([("a.go", [])], true)
    ∧ "b.go" ∉ indexKeys [("a.go", ([] : List Int))]
    ∧ parseDiffFile (fileText ["+++ b/a.go", "+++ b/b.go"])
        = ([("a.go", []), ("b.go", [])], false) := by
  refine ⟨⟨by decide, by decide⟩, ?_, ?_, by decide, by decide⟩
  · rw [textLines_fileText]
    · apply List.mem_map.mpr
      exact ⟨"+++ b/b.go", by simp, by decide⟩
    · intro l hl
      simp only [List.mem_cons, List.mem_singleton, List.not_mem_nil, or_false] at hl
      rcases hl with h | h | h
      · rw [h]; decide
      · rw [h]; exact newlineFree_longLine
      · rw [h]; decide
  · exact (parseDiffFile_tooLong ["+++ b/a.go"] longLine ["+++ b/b.go"] (by decide)
      newlineFree_longLine (Nat.le_of_eq byteLen_longLine.symm)).trans (by decide)

/-- C8, amended: for every diff file all of whose lines are shorter than 65536 bytes,
`parseDiff` returns no error, the keys of the index are exactly the paths of the
`+++ b/<path>` file header lines and are pairwise distinct; a file none of whose headers is
followed by an added line before the next header is present and maps to the empty set; every
entry, hence every recorded line number, belongs to a path whose header occurs in the diff. -/
theorem parseDiff_keys (content : List Char) (hshort : shortLines content) :
    (parseDiffFile content).2 = false
    ∧ (∀ path, path ∈ indexKeys (parseDiffFile content).1
        ↔ ∃ l ∈ textLines content, isFileHeader l path)
    ∧ (indexKeys (parseDiffFile content).1).Nodup
    ∧ (∀ path, (∃ l ∈ textLines content, isFileHeader l path) →
        (∀ pre l post, textLines content = pre ++ l :: post → isAddedLine l →
          lastHeader pre ≠ some path) →
        lookupFile path (parseDiffFile content).1 = some [])
    ∧ (∀ path set, (path, set) ∈ (parseDiffFile content).1 →
        ∃ l ∈ textLines content, isFileHeader l path) := by
  rw [parseDiffFile_of_shortLines content hshort]
  exact ⟨rfl, parseDiff_keys_of_lines (textLines content) (textLines_newlineFree content)⟩

/-- C8, amended, at a diff of two files with Windows line ends, the first file without an
added line. -/
theorem parseDiff_keys_witness :
    shortLines twoFileDiffText
    ∧ textLines twoFileDiffText = twoFileDiff
    ∧ parseDiffFile twoFileDiffText = ([("foo.go", []), ("bar.go", [2])], false)
    ∧ ((parseDiffFile twoFileDiffText).2 = false
      ∧ (∀ path, path ∈ indexKeys (parseDiffFile twoFileDiffText).1
          ↔ ∃ l ∈ textLines twoFileDiffText, isFileHeader l path)
      ∧ (indexKeys (parseDiffFile twoFileDiffText).1).Nodup
      ∧ (∀ path, (∃ l ∈ textLines twoFileDiffText, isFileHeader l path) →
          (∀ pre l post, textLines twoFileDiffText = pre ++ l :: post → isAddedLine l →
            lastHeader pre ≠ some path) →
          lookupFile path (parseDiffFile twoFileDiffText).1 = some [])
      ∧ (∀ path set, (path, set) ∈ (parseDiffFile twoFileDiffText).1 →
          ∃ l ∈ textLines twoFileDiffText, isFileHeader l path)) :=
  ⟨by decide, by decide, by decide, parseDiff_keys twoFileDiffText (by decide)⟩

/-- C13, the claim fails: after `+++ b/f.go` and `@@ -1 +10 @@` the line `@@ junk`, which
starts with `@@` and does not match the hunk pattern, does not advance the cursor: the added
line after it is recorded at 10, the same number as without it, and not at 11. Such a line is
not without effect either when it is too long for the scanner: a line `@@` followed by 65536
letters ends the scan, `parseDiff` returns the error `bufio.ErrTooLong`, and the added line
after it is not recorded at all. -/
theorem atAt_line_counterexample :
    hasPrefix ("@@ junk" : String).data "@@".data = true
    ∧ hunkRegexMatch ("@@ junk" : String).data = none
    ∧ parseDiffFile (fileText ["+++ b/f.go", "@@ -1 +10 @@", "@@ junk", "+x"])
        = ([("f.go", [10])], false)
    ∧ parseDiffFile (fileText ["+++ b/f.go", "@@ -1 +10 @@", "+x"]) = ([("f.go", [10])], false)
    ∧ parseDiffFile (fileText ["+++ b/f.go", "@@ -1 +10 @@", " context", "+x"])
        = ([("f.go", [11])], false)
    ∧ hasPrefix ("@@" ++ longLine).data "@@".data = true
    ∧ hunkRegexMatch ("@@" ++ longLine).data = none
    ∧ parseDiffFile (fileText ["+++ b/f.go", "@@ -1 +10 @@", "@@" ++ longLine, "+x"])
        = ([("f.go", [])], true) := by
  refine ⟨by decide, by decide, by decide, by decide, by decide,
    hasPrefix_append_longLine "@@", hunkRegexMatch_append_longLine "@@" (by decide), ?_⟩
  exact (parseDiffFile_tooLong ["+++ b/f.go", "@@ -1 +10 @@"] ("@@" ++ longLine) ["+x"]
    (by decide) (newlineFree_append_longLine "@@" (by decide))
    (byteLen_append_longLine "@@")).trans (by decide)

/-- C13, amended: in a diff file all of whose lines are shorter than 65536 bytes, a line that
starts with `@@` and in which the hunk-header pattern does not occur changes nothing: the
cursor, the current file and the index stay as they are, so an added line that follows it is
recorded at the same number as without it, and `parseDiff` returns no error and the index that
it returns for a diff without that line. -/
theorem atAt_line_is_inert (st : DiffState) (content removed : List Char)
    (pre post : List String) (line : String)
    (hshort : shortLines content) (hshortr : shortLines removed)
    (hlines : textLines content = pre ++ line :: post)
    (hremoved : textLines removed = pre ++ post)
    (hp : hasPrefix line.data "@@".data = true) (hh : hunkRegexMatch line.data = none) :
    diffStep st line = st
    ∧ parseDiffFile content = parseDiffFile removed
    ∧ (parseDiffFile content).2 = false := by
  obtain ⟨h1, h2⟩ := parseDiff_atAt_line st pre post line hp hh
  rw [parseDiffFile_of_shortLines content hshort,
    parseDiffFile_of_shortLines removed hshortr, hlines, hremoved, h2]
  exact ⟨h1, rfl, rfl⟩

/-- C13, amended, at the line `@@ junk` after a hunk header. -/
theorem atAt_line_is_inert_witness :
    shortLines "+++ b/f.go\n@@ -1 +10 @@\n@@ junk\n+x\n".data
    ∧ shortLines "+++ b/f.go\n@@ -1 +10 @@\n+x\n".data
    ∧ textLines "+++ b/f.go\n@@ -1 +10 @@\n@@ junk\n+x\n".data
        = ["+++ b/f.go", "@@ -1 +10 @@"] ++ "@@ junk" :: ["+x"]
    ∧ textLines "+++ b/f.go\n@@ -1 +10 @@\n+x\n".data
        = ["+++ b/f.go", "@@ -1 +10 @@"] ++ ["+x"]
    ∧ hasPrefix ("@@ junk" : String).data "@@".data = true
    ∧ hunkRegexMatch ("@@ junk" : String).data = none
    ∧ parseDiffFile "+++ b/f.go\n@@ -1 +10 @@\n+x\n".data = ([("f.go", [10])], false)
    ∧ (diffStep ⟨[("f.go", [])], "f.go", 10⟩ "@@ junk" = ⟨[("f.go", [])], "f.go", 10⟩
      ∧ parseDiffFile "+++ b/f.go\n@@ -1 +10 @@\n@@ junk\n+x\n".data
        = parseDiffFile "+++ b/f.go\n@@ -1 +10 @@\n+x\n".data
      ∧ (parseDiffFile "+++ b/f.go\n@@ -1 +10 @@\n@@ junk\n+x\n".data).2 = false) :=
  ⟨by decide, by decide, by decide, by decide, by decide, by decide, by decide,
    atAt_line_is_inert ⟨[("f.go", [])], "f.go", 10⟩
      "+++ b/f.go\n@@ -1 +10 @@\n@@ junk\n+x\n".data "+++ b/f.go\n@@ -1 +10 @@\n+x\n".data
      ["+++ b/f.go", "@@ -1 +10 @@"] ["+x"] "@@ junk"
      (by decide) (by decide) (by decide) (by decide) (by decide) (by decide)⟩

/-- C14, the claim fails in two places. When an added line follows a file header without a
hunk header in between: for ` context`, `+++ b/f.go`, `+x` the added line is recorded at 1, and
at 0 once the context line before the header is deleted. And when a line before the header is
too long for the scanner: a context line of 65537 bytes before `+++ b/f.go`, `@@ -1 +10 @@`,
`+x` ends the scan, and `parseDiff` returns the error `bufio.ErrTooLong` and an empty index,
where the diff without that line gives line 10 of `f.go`. -/
theorem lines_before_header_counterexample :
    fileRegexMatch (" context" : String).data = none
    ∧ ¬ isHunkHeaderLine " context"
    ∧ parseDiffFile (fileText [" context", "+++ b/f.go", "+x"]) = ([("f.go", [1])], false)
    ∧ parseDiffFile (fileText ["+++ b/f.go", "+x"]) = ([("f.go", [0])], false)
    ∧ fileRegexMatch (" " ++ longLine).data = none
    ∧ ¬ isHunkHeaderLine (" " ++ longLine)
    ∧ hunkBeforeFirstAdded ["@@ -1 +10 @@", "+x"]
    ∧ parseDiffFile (fileText [" " ++ longLine, "+++ b/f.go", "@@ -1 +10 @@", "+x"])
        = ([], true)
    ∧ parseDiffFile (fileText ["+++ b/f.go", "@@ -1 +10 @@", "+x"])
        = ([("f.go", [10])], false) := by
  refine ⟨by decide, by decide, by decide, by decide, ?_, ?_, by decide, ?_, by decide⟩
  · rw [data_append_longLine]
    exact fileRegexMatch_eq_none_of_head ' ' _ (by decide)
  · intro h
    have h2 := h.2
    rw [hunkRegexMatch_append_longLine " " (by decide)] at h2
    exact absurd h2 (by decide)
  · exact (parseDiffFile_tooLong [] (" " ++ longLine) ["+++ b/f.go", "@@ -1 +10 @@", "+x"]
      (by decide) (newlineFree_append_longLine " " (by decide))
      (byteLen_append_longLine " ")).trans (by decide)

/-- C14, amended: for every diff file all of whose lines are shorter than 65536 bytes and in
which no added line comes between the first file header and the first hunk header after it,
`parseDiff` returns no error and the index that it returns for the diff without the lines
before the first file header that are not hunk headers. -/
theorem lines_before_header_inert (content removed : List Char)
    (pre post : List String) (header : String)
    (hshort : shortLines content) (hshortr : shortLines removed)
    (hlines : textLines content = pre ++ header :: post)
    (hremoved : textLines removed
      = pre.filter (fun l => decide (isHunkHeaderLine l)) ++ header :: post)
    (hpre : ∀ l ∈ pre, fileRegexMatch l.data = none)
    (hheader : (fileRegexMatch header.data).isSome = true)
    (hpost : hunkBeforeFirstAdded post) :
    parseDiffFile content = parseDiffFile removed
    ∧ (parseDiffFile content).2 = false := by
  rw [parseDiffFile_of_shortLines content hshort,
    parseDiffFile_of_shortLines removed hshortr, hlines, hremoved,
    lines_before_header_inert_of_lines pre post header hpre hheader hpost]
  exact ⟨rfl, rfl⟩

/-- C14, amended, at a diff with a context line and an added line before the first file
header and a hunk header right after it. -/
theorem lines_before_header_inert_witness :
    shortLines " context\n+stray\n+++ b/f.go\n@@ -1 +10 @@\n+x\n".data
    ∧ shortLines "+++ b/f.go\n@@ -1 +10 @@\n+x\n".data
    ∧ textLines " context\n+stray\n+++ b/f.go\n@@ -1 +10 @@\n+x\n".data
        = [" context", "+stray"] ++ "+++ b/f.go" :: ["@@ -1 +10 @@", "+x"]
    ∧ textLines "+++ b/f.go\n@@ -1 +10 @@\n+x\n".data
        = [" context", "+stray"].filter (fun l => decide (isHunkHeaderLine l))
            ++ "+++ b/f.go" :: ["@@ -1 +10 @@", "+x"]
    ∧ (∀ l ∈ [" context", "+stray"], fileRegexMatch l.data = none)
    ∧ (fileRegexMatch ("+++ b/f.go" : String).data).isSome = true
    ∧ hunkBeforeFirstAdded ["@@ -1 +10 @@", "+x"]
    ∧ parseDiffFile " context\n+stray\n+++ b/f.go\n@@ -1 +10 @@\n+x\n".data
        = ([("f.go", [10])], false)
    ∧ (parseDiffFile " context\n+stray\n+++ b/f.go\n@@ -1 +10 @@\n+x\n".data
        = parseDiffFile "+++ b/f.go\n@@ -1 +10 @@\n+x\n".data
      ∧ (parseDiffFile " context\n+stray\n+++ b/f.go\n@@ -1 +10 @@\n+x\n".data).2 = false) :=
  ⟨by decide, by decide, by decide, by decide, by decide, by decide, by decide, by decide,
    lines_before_header_inert " context\n+stray\n+++ b/f.go\n@@ -1 +10 @@\n+x\n".data
      "+++ b/f.go\n@@ -1 +10 @@\n+x\n".data [" context", "+stray"] ["@@ -1 +10 @@", "+x"]
      "+++ b/f.go" (by decide) (by decide) (by decide) (by decide) (by decide) (by decide)
      (by decide)⟩

/-! ## parseCoverage on the content of a file -/

theorem ProfileEntry.line_eq (e : ProfileEntry) :
    e.line = e.file ++ String.mk (':' :: (e.startLine.text ++ ('.' :: (e.startCol.text ++
      (',' :: (e.endLine.text ++ ('.' :: (e.endCol.text ++
        (' ' :: (e.numStmt.text ++ (' ' :: e.count.text)))))))))))  := by
  apply String.ext
  unfold ProfileEntry.line ProfileEntry.location
  rw [String.data_append]
  simp only [List.append_assoc, List.cons_append]

theorem longNameEntry_line :
    longNameEntry.line = longLine ++ ":5.1,7.2 3 1" := by
  rw [ProfileEntry.line_eq]
  rfl

/-- C9, the claim fails in three places: a file named `mode` gives the line `mode:1.2,3.4 5 6`,
which is skipped as a mode line, so no block is returned for it; the end line
`99999999999999999999` of `foo.go:5.1,99999999999999999999.2 3 1` is recorded as the largest
`int`, not as the number written; and the line of an entry whose file name has 65536 bytes is
too long for the scanner: `parseCoverage` returns the error `bufio.ErrTooLong` and no
block. -/
theorem parseCoverage_entry_counterexample :
    modeFileEntry.wellFormed ∧ modeFileEntry.line = "mode:1.2,3.4 5 6"
    ∧ parseCoverageFile (fileText [modeFileEntry.line]) = some ([], false)
    ∧ [modeFileEntry].map ProfileEntry.block ≠ []
    ∧ hugeLineEntry.wellFormed
    ∧ hugeLineEntry.line = "foo.go:5.1,99999999999999999999.2 3 1"
    ∧ (parseCoverageFile (fileText [hugeLineEntry.line])).map
          (fun r => (r.1.map CoverBlock.EndLine, r.2))
        = some ([9223372036854775807], false)
    ∧ hugeLineEntry.block.EndLine = 99999999999999999999
    ∧ longNameEntry.wellFormed ∧ longNameEntry.fitsInt ∧ longNameEntry.file ≠ "mode"
    ∧ parseCoverageFile (fileText [longNameEntry.line]) = some ([], true)
    ∧ [longNameEntry].map ProfileEntry.block ≠ [] := by
  refine ⟨by decide, by decide, by decide, by decide, by decide, by decide, by decide,
    by decide, ⟨?_, by decide, by decide, by decide, by decide, by decide, by decide⟩,
    by decide, ?_, ?_, by simp⟩
  · intro c hc
    rw [List.eq_of_mem_replicate hc]
    decide
  · intro h
    have hl := congrArg (fun s : String => s.data.length) h
    simp only [] at hl
    rw [show longNameEntry.file.data = List.replicate maxScanTokenSize 'x' from rfl,
      List.length_replicate] at hl
    exact absurd hl (by decide)
  · rw [longNameEntry_line]
    have hnl : newlineFree (longLine ++ ":5.1,7.2 3 1") := by
      unfold newlineFree
      rw [String.data_append]
      intro hm
      rcases List.mem_append.mp hm with h1 | h1
      · exact newlineFree_longLine h1
      · exact absurd h1 (by decide)
    have hlen : maxScanTokenSize ≤ byteLen (longLine ++ ":5.1,7.2 3 1").data := by
      rw [String.data_append, byteLen_append, byteLen_longLine]
      exact Nat.le_add_right _ _
    exact (parseCoverageFile_tooLong [] (longLine ++ ":5.1,7.2 3 1") [] (by decide) hnl
      hlen).trans (by decide)

/-- C9, amended: for a profile file all of whose lines are shorter than 65536 bytes and whose
lines are an optional leading `mode:` line followed by lines
`<file>:<startLine>.<startCol>,<endLine>.<endCol> <numStatements> <executionCount>` whose file
has no colon and no white space and is not named `mode`, and whose six numbers are decimal
integers within the range of `int`, `parseCoverage` returns no error and one block for each
such line, in line order, with those seven field values and `Raw` equal to the line. -/
theorem parseCoverage_wellFormed_profile (content : List Char) (mode : Option String)
    (entries : List ProfileEntry) (hshort : shortLines content)
    (hlines : textLines content = mode.toList ++ entries.map ProfileEntry.line)
    (hmode : modeOk mode) (hw : ∀ e ∈ entries, e.wellFormed)
    (hfit : ∀ e ∈ entries, e.fitsInt) (hname : ∀ e ∈ entries, e.file ≠ "mode") :
    parseCoverageFile content = some (entries.map ProfileEntry.block, false) := by
  rw [parseCoverageFile_of_shortLines content hshort, hlines,
    parseCoverage_wellFormed_lines mode entries hmode hw hfit hname]
  rfl

/-- C9, amended, at the profile `mode: set`, `foo.go:5.1,7.2 3 1`, `bar.go:10.3,-2.0 0 12`. -/
theorem parseCoverage_wellFormed_profile_witness :
    shortLines "mode: set\nfoo.go:5.1,7.2 3 1\nbar.go:10.3,-2.0 0 12\n".data
    ∧ textLines "mode: set\nfoo.go:5.1,7.2 3 1\nbar.go:10.3,-2.0 0 12\n".data
        = (some "mode: set").toList ++ [sampleEntry, secondEntry].map ProfileEntry.line
    ∧ modeOk (some "mode: set")
    ∧ (∀ e ∈ [sampleEntry, secondEntry], e.wellFormed)
    ∧ (∀ e ∈ [sampleEntry, secondEntry], e.fitsInt)
    ∧ (∀ e ∈ [sampleEntry, secondEntry], e.file ≠ "mode")
    ∧ parseCoverageFile "mode: set\nfoo.go:5.1,7.2 3 1\nbar.go:10.3,-2.0 0 12\n".data
        = some ([sampleEntry, secondEntry].map ProfileEntry.block, false) :=
  ⟨by decide, by decide, by decide, by decide, by decide, by decide,
    parseCoverage_wellFormed_profile
      "mode: set\nfoo.go:5.1,7.2 3 1\nbar.go:10.3,-2.0 0 12\n".data (some "mode: set")
      [sampleEntry, secondEntry] (by decide) (by decide) (by decide) (by decide) (by decide)
      (by decide)⟩

theorem parseCoverageFile_skip (content removed : List Char) (pre post : List String)
    (line : String) (hshort : shortLines content) (hshortr : shortLines removed)
    (hlines : textLines content = pre ++ line :: post)
    (hremoved : textLines removed = pre ++ post)
    (hs : coverageLine line = LineOutcome.skipped) :
    parseCoverageFile content = parseCoverageFile removed
    ∧ parseCoverageFile content
        = (parseCoverage (pre ++ post)).map (fun blocks => (blocks, false)) := by
  rw [parseCoverageFile_of_shortLines content hshort,
    parseCoverageFile_of_shortLines removed hshortr, hlines, hremoved]
  have h : parseCoverage (pre ++ line :: post) = parseCoverage (pre ++ post) :=
    parseCoverageLoop_skip line hs post pre []
  rw [h]
  exact ⟨rfl, rfl⟩

/-- C10, the claim fails for a line that is too long for the scanner: in the profile
`mode: set`, `a.go:1.1,2.2 1 1`, a line of 65536 letters (one field), `bar.go:10.3,12.0 2 0`
the scan ends at the third line: `parseCoverage` returns the error `bufio.ErrTooLong` and the
first block alone, where the profile without that line gives two blocks and no error. -/
theorem wrong_field_count_counterexample :
    (fields longLine.data).length = 1
    ∧ parseCoverageFile (fileText ["mode: set", "a.go:1.1,2.2 1 1", longLine,
          "bar.go:10.3,12.0 2 0"])
        = some ([⟨"a.go", 1, 1, 2, 2, 1, 1, "a.go:1.1,2.2 1 1"⟩], true)
    ∧ parseCoverageFile (fileText ["mode: set", "a.go:1.1,2.2 1 1", "bar.go:10.3,12.0 2 0"])
        = some (twoEntryBlocks, false) := by
  refine ⟨by rw [fields_longLine]; rfl, ?_, by decide⟩
  exact (parseCoverageFile_tooLong ["mode: set", "a.go:1.1,2.2 1 1"] longLine
    ["bar.go:10.3,12.0 2 0"] (by decide) newlineFree_longLine
    (Nat.le_of_eq byteLen_longLine.symm)).trans (by decide)

/-- C10, amended: for every profile file all of whose lines are shorter than 65536 bytes, a
line whose number of whitespace-separated fields is not three is skipped, giving neither a
block nor a panic, and what `parseCoverage` returns (blocks and no error, or abort) is what it
returns for a profile without that line. -/
theorem parseCoverage_skips_wrong_field_count (content removed : List Char)
    (pre post : List String) (line : String)
    (hshort : shortLines content) (hshortr : shortLines removed)
    (hlines : textLines content = pre ++ line :: post)
    (hremoved : textLines removed = pre ++ post)
    (h : (fields line.data).length ≠ 3) :
    coverageLine line = LineOutcome.skipped
    ∧ parseCoverageFile content = parseCoverageFile removed
    ∧ parseCoverageFile content
        = (parseCoverage (pre ++ post)).map (fun blocks => (blocks, false)) :=
  ⟨coverageLine_wrong_field_count line h,
    parseCoverageFile_skip content removed pre post line hshort hshortr hlines hremoved
      (coverageLine_wrong_field_count line h)⟩

/-- C10, amended, at a profile whose third line `foo.go:5.1,7.2 3` has two fields. -/
theorem parseCoverage_skips_wrong_field_count_witness :
    shortLines "mode: set\na.go:1.1,2.2 1 1\nfoo.go:5.1,7.2 3\nbar.go:10.3,12.0 2 0\n".data
    ∧ shortLines twoEntryProfileText
    ∧ textLines "mode: set\na.go:1.1,2.2 1 1\nfoo.go:5.1,7.2 3\nbar.go:10.3,12.0 2 0\n".data
        = ["mode: set", "a.go:1.1,2.2 1 1"] ++ "foo.go:5.1,7.2 3" :: ["bar.go:10.3,12.0 2 0"]
    ∧ textLines twoEntryProfileText
        = ["mode: set", "a.go:1.1,2.2 1 1"] ++ ["bar.go:10.3,12.0 2 0"]
    ∧ (fields ("foo.go:5.1,7.2 3" : String).data).length ≠ 3
    ∧ parseCoverageFile twoEntryProfileText = some (twoEntryBlocks, false)
    ∧ (coverageLine "foo.go:5.1,7.2 3" = LineOutcome.skipped
      ∧ parseCoverageFile
          "mode: set\na.go:1.1,2.2 1 1\nfoo.go:5.1,7.2 3\nbar.go:10.3,12.0 2 0\n".data
        = parseCoverageFile twoEntryProfileText
      ∧ parseCoverageFile
          "mode: set\na.go:1.1,2.2 1 1\nfoo.go:5.1,7.2 3\nbar.go:10.3,12.0 2 0\n".data
        = (parseCoverage (["mode: set", "a.go:1.1,2.2 1 1"] ++ ["bar.go:10.3,12.0 2 0"])).map
            (fun blocks => (blocks, false))) :=
  ⟨by decide, by decide, by decide, by decide, by decide, by decide,
    parseCoverage_skips_wrong_field_count
      "mode: set\na.go:1.1,2.2 1 1\nfoo.go:5.1,7.2 3\nbar.go:10.3,12.0 2 0\n".data
      twoEntryProfileText ["mode: set", "a.go:1.1,2.2 1 1"] ["bar.go:10.3,12.0 2 0"]
      "foo.go:5.1,7.2 3" (by decide) (by decide) (by decide) (by decide) (by decide)⟩

/-- C16, the claim fails: in the profile `mode: set`, `mode:1.2,3.4 5 6` the second line begins
with `mode:`, has three fields and a location with a colon and a comma, and is skipped like
the first: no block is returned for it. A later `mode:` line is not without effect either
when it is too long for the scanner: with a `mode:` line of 65541 bytes as third line,
`parseCoverage` returns the error `bufio.ErrTooLong` and not the block of the line after
it. -/
theorem later_mode_line_counterexample :
    isModeLine "mode:1.2,3.4 5 6"
    ∧ (fields ("mode:1.2,3.4 5 6" : String).data).length = 3
    ∧ splitN2 ':' "mode:1.2,3.4".data = ["mode".data, "1.2,3.4".data]
    ∧ splitOnChar ',' "1.2,3.4".data = ["1.2".data, "3.4".data]
    ∧ coverageLine "mode:1.2,3.4 5 6" = LineOutcome.skipped
    ∧ parseCoverageFile (fileText ["mode: set", "mode:1.2,3.4 5 6"]) = some ([], false)
    ∧ isModeLine ("mode:" ++ longLine)
    ∧ parseCoverageFile (fileText ["mode: set", "a.go:1.1,2.2 1 1", "mode:" ++ longLine,
          "bar.go:10.3,12.0 2 0"])
        = some ([⟨"a.go", 1, 1, 2, 2, 1, 1, "a.go:1.1,2.2 1 1"⟩], true)
    ∧ parseCoverageFile (fileText ["mode: set", "a.go:1.1,2.2 1 1", "bar.go:10.3,12.0 2 0"])
        = some (twoEntryBlocks, false) := by
  refine ⟨by decide, by decide, by decide, by decide, by decide, by decide,
    hasPrefix_append_longLine "mode:", ?_, by decide⟩
  exact (parseCoverageFile_tooLong ["mode: set", "a.go:1.1,2.2 1 1"] ("mode:" ++ longLine)
    ["bar.go:10.3,12.0 2 0"] (by decide) (newlineFree_append_longLine "mode:" (by decide))
    (byteLen_append_longLine "mode:")).trans (by decide)

/-- C16, amended: in a profile file all of whose lines are shorter than 65536 bytes, every
line that begins with `mode:`, the first of the profile or a later one, is skipped: it gives
no block and no panic, and what `parseCoverage` returns (blocks and no error, or abort) is
what it returns for a profile without that line. -/
theorem parseCoverage_skips_every_mode_line (content removed : List Char)
    (pre post : List String) (line : String)
    (hshort : shortLines content) (hshortr : shortLines removed)
    (hlines : textLines content = pre ++ line :: post)
    (hremoved : textLines removed = pre ++ post)
    (h : isModeLine line) :
    coverageLine line = LineOutcome.skipped
    ∧ parseCoverageFile content = parseCoverageFile removed
    ∧ parseCoverageFile content
        = (parseCoverage (pre ++ post)).map (fun blocks => (blocks, false)) := by
  have hm : hasPrefix line.data "mode:".data = true := h
  have hs : coverageLine line = LineOutcome.skipped := by
    unfold coverageLine
    rw [if_pos hm]
  exact ⟨hs, parseCoverageFile_skip content removed pre post line hshort hshortr hlines
    hremoved hs⟩

/-- C16, amended, at a profile whose third line `mode:1.2,3.4 5 6` begins with `mode:`. -/
theorem parseCoverage_skips_every_mode_line_witness :
    shortLines "mode: set\na.go:1.1,2.2 1 1\nmode:1.2,3.4 5 6\nbar.go:10.3,12.0 2 0\n".data
    ∧ shortLines twoEntryProfileText
    ∧ textLines "mode: set\na.go:1.1,2.2 1 1\nmode:1.2,3.4 5 6\nbar.go:10.3,12.0 2 0\n".data
        = ["mode: set", "a.go:1.1,2.2 1 1"] ++ "mode:1.2,3.4 5 6" :: ["bar.go:10.3,12.0 2 0"]
    ∧ textLines twoEntryProfileText
        = ["mode: set", "a.go:1.1,2.2 1 1"] ++ ["bar.go:10.3,12.0 2 0"]
    ∧ isModeLine "mode:1.2,3.4 5 6"
    ∧ parseCoverageFile twoEntryProfileText = some (twoEntryBlocks, false)
    ∧ (coverageLine "mode:1.2,3.4 5 6" = LineOutcome.skipped
      ∧ parseCoverageFile
          "mode: set\na.go:1.1,2.2 1 1\nmode:1.2,3.4 5 6\nbar.go:10.3,12.0 2 0\n".data
        = parseCoverageFile twoEntryProfileText
      ∧ parseCoverageFile
          "mode: set\na.go:1.1,2.2 1 1\nmode:1.2,3.4 5 6\nbar.go:10.3,12.0 2 0\n".data
        = (parseCoverage (["mode: set", "a.go:1.1,2.2 1 1"] ++ ["bar.go:10.3,12.0 2 0"])).map
            (fun blocks => (blocks, false))) :=
  ⟨by decide, by decide, by decide, by decide, by decide, by decide,
    parseCoverage_skips_every_mode_line
      "mode: set\na.go:1.1,2.2 1 1\nmode:1.2,3.4 5 6\nbar.go:10.3,12.0 2 0\n".data
      twoEntryProfileText ["mode: set", "a.go:1.1,2.2 1 1"] ["bar.go:10.3,12.0 2 0"]
      "mode:1.2,3.4 5 6" (by decide) (by decide) (by decide) (by decide) (by decide)⟩

end Diffcover
